import Mathlib

/-!
Verification of the bombadil property-based browser-testing driver.

This file shallowly embeds the parts of the Rust source that the claims
concern:

* the LTL monitor (`src/specification/ltl.rs`, `syntax.rs`, `stop.rs`):
  formulas in negation normal form, the three-valued incremental
  evaluator (`evaluate` / `step`), and the test-end collapse
  (`stop_default`);
* the browser session state machine (`src/browser.rs`, `process_event`);
* state capture (`src/browser/state.rs`): navigation-history slicing and
  AFL-style bucketing of edge hit counts, plus the runner's max-merge of
  coverage deltas (`src/runner.rs`);
* the script interception paths (`src/proxy.rs`,
  `src/browser.rs::instrument_coverage`) and the instrumenter's error
  routing (`src/instrumentation/js.rs`);
* inline-script HTML instrumentation (`src/instrumentation/html.rs`) and
  source-id chaining (`src/instrumentation/source_id.rs`).

Machine integers are modelled as `Nat`; `SystemTime` instants and
`Duration` bounds are modelled as natural numbers of milliseconds.
General recursion through thunk expansion (a thunk may return a formula
holding further thunks) is modelled with an explicit fuel parameter: the
Rust evaluation terminates with value `v` exactly when the embedded
`evaluate` returns `some v` for every sufficiently large fuel, and
`none` marks fuel exhaustion, which has no Rust counterpart.
-/

namespace Bombadil

/-- Milliseconds since the epoch, modelling `std::time::SystemTime`. -/
abbrev Time := Nat

/-- A duration in milliseconds, modelling `std::time::Duration` bounds. -/
abbrev Dur := Nat

/-- A formula in its syntactic form, modelling `Syntax` from
`src/specification/syntax.rs`.  The parameter `F` is the thunk type. -/
inductive Syn (F : Type) where
  | pureS (value : Bool) (pretty : String)
  | thunk (function : F)
  | notS (sub : Syn F)
  | and (left right : Syn F)
  | or (left right : Syn F)
  | implies (left right : Syn F)
  | next (sub : Syn F)
  | always (sub : Syn F) (bound : Option Dur)
  | eventually (sub : Syn F) (bound : Option Dur)
deriving Repr

/-- A formula in negation normal form, modelling `Formula` from
`src/specification/ltl.rs`.  `implies` is preserved for error messages;
there is no negation node, thunks instead carry a `negated` flag. -/
inductive Formula (F : Type) where
  | pureF (value : Bool) (pretty : String)
  | thunk (function : F) (negated : Bool)
  | and (left right : Formula F)
  | or (left right : Formula F)
  | implies (left right : Formula F)
  | next (sub : Formula F)
  | always (sub : Formula F) (bound : Option Dur)
  | eventually (sub : Formula F) (bound : Option Dur)
deriving Repr

/-- The worker of `Syntax::nnf` (the inner function `go` in
`src/specification/syntax.rs`): push negation inward, tracking the
pending negation in `negated`. -/
def nnfGo {F : Type} : Syn F → Bool → Formula F
  | .pureS value pretty, negated =>
      .pureF (if negated then !value else value) pretty
  | .thunk function, negated => .thunk function negated
  | .notS sub, negated => nnfGo sub (!negated)
  | .and left right, negated =>
      if negated then .or (nnfGo left negated) (nnfGo right negated)
      else .and (nnfGo left negated) (nnfGo right negated)
  | .or left right, negated =>
      if negated then .and (nnfGo left negated) (nnfGo right negated)
      else .or (nnfGo left negated) (nnfGo right negated)
  | .implies left right, negated =>
      if negated then .and (nnfGo left false) (nnfGo right true)
      else .implies (nnfGo left negated) (nnfGo right negated)
  | .next sub, negated => .next (nnfGo sub negated)
  | .always sub bound, negated =>
      if negated then .eventually (nnfGo sub negated) bound
      else .always (nnfGo sub negated) bound
  | .eventually sub bound, negated =>
      if negated then .always (nnfGo sub negated) bound
      else .eventually (nnfGo sub negated) bound

/-- `Syntax::nnf` from `src/specification/syntax.rs`. -/
def Syn.nnf {F : Type} (s : Syn F) : Formula F := nnfGo s false

/-- The reason carried by an `Eventually` violation, modelling
`EventuallyViolation` from `src/specification/ltl.rs`. -/
inductive EventuallyViolation where
  | timedOut (time : Time)
  | testEnded
deriving Repr, DecidableEq

/-- A structured violation witness, modelling `Violation` from
`src/specification/ltl.rs`. -/
inductive Violation (F : Type) where
  | falseV (time : Time) (condition : String)
  | eventually (subformula : Formula F) (reason : EventuallyViolation)
  | always (violation : Violation F) (subformula : Formula F)
      (start : Time) (endT : Option Time) (time : Time)
  | and (left right : Violation F)
  | or (left right : Violation F)
  | implies (left : Formula F) (right : Violation F)
deriving Repr

/-- The default verdict of a still-undecided node if the run ends now,
modelling `Leaning` from `src/specification/ltl.rs`. -/
inductive Leaning (F : Type) where
  | assumeTrue
  | assumeFalse (violation : Violation F)
deriving Repr

/-- A temporal node remembered inside a residual, modelling `Derived`
from `src/specification/ltl.rs`. -/
inductive Derived (F : Type) where
  | once (start : Time) (subformula : Formula F)
  | always (start : Time) (endT : Option Time) (subformula : Formula F)
  | eventually (start : Time) (endT : Option Time) (subformula : Formula F)
deriving Repr

/-- A partially evaluated formula, modelling `Residual` from
`src/specification/ltl.rs`. -/
inductive Residual (F : Type) where
  | trueR
  | falseR (violation : Violation F)
  | derived (node : Derived F) (leaning : Leaning F)
  | and (left right : Residual F)
  | or (left right : Residual F)
  | implies (leftFormula : Formula F) (left right : Residual F)
  | orEventually (subformula : Formula F) (start : Time)
      (endT : Option Time) (left right : Residual F)
  | andAlways (subformula : Formula F) (start : Time)
      (endT : Option Time) (left right : Residual F)
deriving Repr

/-- The three-valued result of evaluation, modelling `Value` from
`src/specification/ltl.rs`. -/
inductive Value (F : Type) where
  | trueV
  | falseV (violation : Violation F)
  | residual (residual : Residual F)
deriving Repr

/-- `Evaluator::evaluate_and` from `src/specification/ltl.rs`. -/
def evaluateAnd {F : Type} : Value F → Value F → Value F
  | .trueV, right => right
  | left, .trueV => left
  | .falseV left, .falseV right => .falseV (.and left right)
  | _, .falseV violation => .falseV violation
  | .falseV violation, _ => .falseV violation
  | .residual left, .residual right => .residual (.and left right)

/-- `Evaluator::evaluate_or` from `src/specification/ltl.rs`. -/
def evaluateOr {F : Type} : Value F → Value F → Value F
  | .falseV left, .falseV right => .falseV (.or left right)
  | .trueV, _ => .trueV
  | _, .trueV => .trueV
  | left, .falseV _ => left
  | .falseV _, right => right
  | .residual left, .residual right => .residual (.or left right)

/-- `Evaluator::evaluate_implies` from `src/specification/ltl.rs`. -/
def evaluateImplies {F : Type} (leftFormula : Formula F) :
    Value F → Value F → Value F
  | .falseV _, _ => .trueV
  | .trueV, .falseV violation =>
      .falseV (.implies leftFormula violation)
  | .trueV, .trueV => .trueV
  | .trueV, .residual right =>
      .residual (.implies leftFormula .trueR right)
  | .residual _, .trueV => .trueV
  | .residual left, .falseV violation =>
      .residual (.implies leftFormula left (.falseR violation))
  | .residual left, .residual right =>
      .residual (.implies leftFormula left right)

/-- The `end < time` deadline test shared by `evaluate_always`,
`evaluate_eventually` and their stepping counterparts in
`src/specification/ltl.rs` (`None` means unbounded). -/
def deadlinePassed (endT : Option Time) (time : Time) : Bool :=
  match endT with
  | some e => decide (e < time)
  | none => false

/-- The fresh residual built by `evaluate_always` before it inspects the
subformula's value. -/
def alwaysResidual {F : Type} (subformula : Formula F) (start : Time)
    (endT : Option Time) : Residual F :=
  .derived (.always start endT subformula) .assumeTrue

/-- The match at the end of `Evaluator::evaluate_always` on the
subformula's value (the deadline was already checked). -/
def alwaysCombine {F : Type} (subformula : Formula F) (start : Time)
    (endT : Option Time) (time : Time) : Value F → Value F
  | .trueV => .residual (alwaysResidual subformula start endT)
  | .falseV violation =>
      .falseV (.always violation subformula start endT time)
  | .residual left =>
      .residual (.andAlways subformula start endT left
        (alwaysResidual subformula start endT))

/-- The fresh residual built by `evaluate_eventually`, leaning toward a
`TestEnded` violation. -/
def eventuallyResidual {F : Type} (subformula : Formula F) (start : Time)
    (endT : Option Time) : Residual F :=
  .derived (.eventually start endT subformula)
    (.assumeFalse (.eventually subformula .testEnded))

/-- The match at the end of `Evaluator::evaluate_eventually` on the
subformula's value (the deadline was already checked). -/
def eventuallyCombine {F : Type} (subformula : Formula F) (start : Time)
    (endT : Option Time) : Value F → Value F
  | .trueV => .trueV
  | .falseV _ => .residual (eventuallyResidual subformula start endT)
  | .residual left =>
      .residual (.orEventually subformula start endT left
        (eventuallyResidual subformula start endT))

/-- The match at the end of `Evaluator::evaluate_and_always` on the
stepped children (the deadline was already checked). -/
def andAlwaysCombine {F : Type} (subformula : Formula F) (start : Time)
    (endT : Option Time) (time : Time) : Value F → Value F → Value F
  | .trueV, .trueV => .trueV
  | .falseV violation, _ =>
      .falseV (.always violation subformula start endT time)
  | _, .falseV violation =>
      .falseV (.always violation subformula start endT time)
  | .residual left, .trueV =>
      .residual (.andAlways subformula start endT left .trueR)
  | .trueV, .residual right =>
      .residual (.andAlways subformula start endT .trueR right)
  | .residual left, .residual right =>
      .residual (.andAlways subformula start endT left right)

/-- The match at the end of `Evaluator::evaluate_or_eventually` on the
stepped children (the deadline was already checked).  The left-side
violation is deliberately dropped by the source. -/
def orEventuallyCombine {F : Type} (subformula : Formula F) (start : Time)
    (endT : Option Time) : Value F → Value F → Value F
  | .trueV, _ => .trueV
  | _, .trueV => .trueV
  | .falseV _, .falseV right => .falseV right
  | .falseV _, .residual residual => .residual residual
  | .residual residual, .falseV _ => .residual residual
  | .residual left, .residual right =>
      .residual (.orEventually subformula start endT left right)

/-- The thunk environment: what the JavaScript call inside
`Evaluator::evaluate`'s `Thunk` branch returns, as a syntactic formula,
as a function of the current time (the runtime state a thunk reads is
updated once per monitor step). -/
abbrev Env (F : Type) := Time → F → Syn F

/-- `Evaluator::evaluate` from `src/specification/ltl.rs`.  Fuel is
consumed at every recursive call; the Rust evaluation returns `v`
exactly when this returns `some v` for all large enough fuel.  In the
`Thunk` branch the returned syntactic formula is wrapped in `Not` when
the pending `negated` flag is set and then re-normalized, as in the
source.  For `Always` and `Eventually` the deadline `end = time + bound`
is checked (`end < time`, never true at birth) before the subformula is
evaluated, mirroring `evaluate_always` / `evaluate_eventually`. -/
def evaluate {F : Type} (env : Env F) :
    Nat → Formula F → Time → Option (Value F)
  | 0, _, _ => none
  | _ + 1, .pureF value pretty, time =>
      some (if value then .trueV else .falseV (.falseV time pretty))
  | fuel + 1, .thunk function negated, time =>
      let syn := env time function
      evaluate env fuel
        (Syn.nnf (if negated then .notS syn else syn)) time
  | fuel + 1, .and left right, time =>
      match evaluate env fuel left time, evaluate env fuel right time with
      | some l, some r => some (evaluateAnd l r)
      | _, _ => none
  | fuel + 1, .or left right, time =>
      match evaluate env fuel left time, evaluate env fuel right time with
      | some l, some r => some (evaluateOr l r)
      | _, _ => none
  | fuel + 1, .implies left right, time =>
      match evaluate env fuel left time, evaluate env fuel right time with
      | some l, some r => some (evaluateImplies left l r)
      | _, _ => none
  | _ + 1, .next sub, time =>
      some (.residual (.derived (.once time sub) .assumeTrue))
  | fuel + 1, .always sub bound, time =>
      let endT := bound.map (fun d => time + d)
      if deadlinePassed endT time then some .trueV
      else
        match evaluate env fuel sub time with
        | some v => some (alwaysCombine sub time endT time v)
        | none => none
  | fuel + 1, .eventually sub bound, time =>
      let endT := bound.map (fun d => time + d)
      if deadlinePassed endT time then
        some (.falseV (.eventually sub (.timedOut time)))
      else
        match evaluate env fuel sub time with
        | some v => some (eventuallyCombine sub time endT v)
        | none => none

/-- `Evaluator::evaluate_always` from `src/specification/ltl.rs`, with
its deadline short-circuit: strictly past `end` the value is `True`
without evaluating the subformula. -/
def evaluateAlways {F : Type} (env : Env F) (fuel : Nat)
    (subformula : Formula F) (start : Time) (endT : Option Time)
    (time : Time) : Option (Value F) :=
  if deadlinePassed endT time then some .trueV
  else
    match evaluate env fuel subformula time with
    | some v => some (alwaysCombine subformula start endT time v)
    | none => none

/-- `Evaluator::evaluate_eventually` from `src/specification/ltl.rs`,
with its deadline short-circuit: strictly past `end` the value is
`False` with a `TimedOut` violation, without evaluating the
subformula. -/
def evaluateEventually {F : Type} (env : Env F) (fuel : Nat)
    (subformula : Formula F) (start : Time) (endT : Option Time)
    (time : Time) : Option (Value F) :=
  if deadlinePassed endT time then
    some (.falseV (.eventually subformula (.timedOut time)))
  else
    match evaluate env fuel subformula time with
    | some v => some (eventuallyCombine subformula start endT v)
    | none => none

/-- `Evaluator::evaluate_and_always` from `src/specification/ltl.rs`. -/
def evaluateAndAlways {F : Type} (subformula : Formula F) (start : Time)
    (endT : Option Time) (time : Time) (left right : Value F) : Value F :=
  if deadlinePassed endT time then .trueV
  else andAlwaysCombine subformula start endT time left right

/-- `Evaluator::evaluate_or_eventually` from
`src/specification/ltl.rs`. -/
def evaluateOrEventually {F : Type} (subformula : Formula F)
    (start : Time) (endT : Option Time) (time : Time)
    (left right : Value F) : Value F :=
  if deadlinePassed endT time then
    .falseV (.eventually subformula (.timedOut time))
  else orEventuallyCombine subformula start endT left right

/-- `Evaluator::step` from `src/specification/ltl.rs`: re-evaluate a
residual at a new time.  Fuel feeds the `evaluate` calls on embedded
formulas. -/
def step {F : Type} (env : Env F) (fuel : Nat) :
    Residual F → Time → Option (Value F)
  | .trueR, _ => some .trueV
  | .falseR violation, _ => some (.falseV violation)
  | .and left right, time =>
      match step env fuel left time, step env fuel right time with
      | some l, some r => some (evaluateAnd l r)
      | _, _ => none
  | .or left right, time =>
      match step env fuel left time, step env fuel right time with
      | some l, some r => some (evaluateOr l r)
      | _, _ => none
  | .implies leftFormula left right, time =>
      match step env fuel left time, step env fuel right time with
      | some l, some r => some (evaluateImplies leftFormula l r)
      | _, _ => none
  | .derived (.once _ subformula) _, time =>
      evaluate env fuel subformula time
  | .derived (.always start endT subformula) _, time =>
      evaluateAlways env fuel subformula start endT time
  | .derived (.eventually start endT subformula) _, time =>
      evaluateEventually env fuel subformula start endT time
  | .orEventually subformula start endT left right, time =>
      match step env fuel left time, step env fuel right time with
      | some l, some r =>
          some (evaluateOrEventually subformula start endT time l r)
      | _, _ => none
  | .andAlways subformula start endT left right, time =>
      match step env fuel left time, step env fuel right time with
      | some l, some r =>
          some (evaluateAndAlways subformula start endT time l r)
      | _, _ => none

/-- The definitive verdict a residual collapses to at test end,
modelling `StopDefault` from `src/specification/stop.rs`. -/
inductive StopDefault (F : Type) where
  | trueS
  | falseS (violation : Violation F)
deriving Repr

/-- `stop_and_default` from `src/specification/stop.rs`. -/
def stopAndDefault {F : Type} : StopDefault F → StopDefault F → StopDefault F
  | .trueS, right => right
  | left, .trueS => left
  | .falseS left, .falseS right => .falseS (.and left right)

/-- `stop_or_default` from `src/specification/stop.rs`. -/
def stopOrDefault {F : Type} : StopDefault F → StopDefault F → StopDefault F
  | .trueS, _ => .trueS
  | _, .trueS => .trueS
  | .falseS left, .falseS right => .falseS (.or left right)

/-- `stop_implies_default` from `src/specification/stop.rs`. -/
def stopImpliesDefault {F : Type} (leftFormula : Formula F) :
    StopDefault F → StopDefault F → StopDefault F
  | .falseS _, _ => .trueS
  | .trueS, .falseS violation =>
      .falseS (.implies leftFormula violation)
  | .trueS, .trueS => .trueS

/-- `stop_and_always_default` from `src/specification/stop.rs`. -/
def stopAndAlwaysDefault {F : Type} (subformula : Formula F)
    (start : Time) (endT : Option Time) (time : Time) :
    StopDefault F → StopDefault F → StopDefault F
  | .trueS, right => right
  | .falseS violation, _ =>
      .falseS (.always violation subformula start endT time)

/-- `stop_or_eventually_default` from `src/specification/stop.rs`. -/
def stopOrEventuallyDefault {F : Type} :
    StopDefault F → StopDefault F → StopDefault F
  | .trueS, _ => .trueS
  | _, .trueS => .trueS
  | _, .falseS right => .falseS right

/-- `stop_default` from `src/specification/stop.rs`: collapse a residual
to a definitive verdict using the leanings of its derived nodes. -/
def stop_default {F : Type} :
    Residual F → Time → Option (StopDefault F)
  | .trueR, _ => some .trueS
  | .falseR violation, _ => some (.falseS violation)
  | .derived _ leaning, _ =>
      match leaning with
      | .assumeFalse violation => some (.falseS violation)
      | .assumeTrue => some .trueS
  | .and left right, time =>
      (stop_default left time).bind fun s1 =>
        (stop_default right time).map fun s2 => stopAndDefault s1 s2
  | .or left right, time =>
      (stop_default left time).bind fun s1 =>
        (stop_default right time).map fun s2 => stopOrDefault s1 s2
  | .implies leftFormula left right, time =>
      (stop_default left time).bind fun s1 =>
        (stop_default right time).map fun s2 =>
          stopImpliesDefault leftFormula s1 s2
  | .andAlways subformula start endT left right, time =>
      (stop_default left time).bind fun s1 =>
        (stop_default right time).map fun s2 =>
          stopAndAlwaysDefault subformula start endT time s1 s2
  | .orEventually _ _ _ left right, time =>
      (stop_default left time).bind fun s1 =>
        (stop_default right time).map fun s2 =>
          stopOrEventuallyDefault s1 s2

/-! ## Trace driving and verdict comparison
(`src/specification/ltl_equivalences.rs`) -/

/-- Value equality up to violation payloads, modelling
`assert_values_eq` with `ValueEqMode::UpToViolations` from
`src/specification/ltl_equivalences.rs`: definitive verdicts must agree
by constructor, two residuals must have `stop_default` collapses that
agree by constructor. -/
def valuesEqUpToViolations {F : Type} : Value F → Value F → Time → Bool
  | .trueV, .trueV, _ => true
  | .falseV _, .falseV _, _ => true
  | .residual left, .residual right, time =>
      match stop_default left time, stop_default right time with
      | none, none => true
      | some .trueS, some .trueS => true
      | some (.falseS _), some (.falseS _) => true
      | _, _ => false
  | _, _, _ => false

/-- The loop of `check_equivalence`: step a pair of values through the
given tick times while both sides are residual, and stop (keeping the
current tick as the comparison time) as soon as either side is
definitive. -/
def runPairGo {F : Type} (env : Env F) (fuel : Nat) :
    Value F → Value F → Time → List Time →
    Option (Value F × Value F × Time)
  | left, right, time, [] => some (left, right, time)
  | left, right, _, time :: rest =>
      match left, right with
      | .residual l, .residual r =>
          (match step env fuel l time, step env fuel r time with
           | some left', some right' =>
               runPairGo env fuel left' right' time rest
           | _, _ => none)
      | left, right => some (left, right, time)

/-- `check_equivalence` from `src/specification/ltl_equivalences.rs`:
evaluate both formulas at `t0`, then step through `ticks`, returning
the final pair together with the time to compare them at.  `none`
models fuel exhaustion only. -/
def runPair {F : Type} (env : Env F) (fuel : Nat)
    (left right : Formula F) (t0 : Time) (ticks : List Time) :
    Option (Value F × Value F × Time) :=
  match evaluate env fuel left t0, evaluate env fuel right t0 with
  | some vl, some vr => runPairGo env fuel vl vr t0 ticks
  | _, _ => none

/-- Drive a single monitor value through a list of tick times: step
while the value is residual, keep a definitive verdict.  This is how
the driver uses `Evaluator::evaluate`/`step` on one formula. -/
def runFrom {F : Type} (env : Env F) (fuel : Nat) :
    Value F → List Time → Option (Value F)
  | v, [] => some v
  | .residual r, t :: rest =>
      match step env fuel r t with
      | some v' => runFrom env fuel v' rest
      | none => none
  | v, _ :: _ => some v

/-- Evaluate a formula at its birth time and then drive it through the
tick times. -/
def runFormula {F : Type} (env : Env F) (fuel : Nat) (f : Formula F)
    (t0 : Time) (ticks : List Time) : Option (Value F) :=
  match evaluate env fuel f t0 with
  | some v => runFrom env fuel v ticks
  | none => none

/-- The expected walk of a bounded Eventually monitor over a
definitively-evaluating subformula: `False(TimedOut)` at the first tick
strictly past the deadline `E`, `True` at the first tick where the
subformula holds, otherwise still the undecided residual. -/
def evExpectedRun {F : Type} (φ : Formula F) (start E : Time)
    (p : Time → Bool) : List Time → Value F
  | [] => .residual (eventuallyResidual φ start (some E))
  | t :: rest =>
      if E < t then .falseV (.eventually φ (.timedOut t))
      else if p t then .trueV
      else evExpectedRun φ start E p rest

/-! ## Collapse verdicts and value kinds

Helper notions for reasoning about the monitor: the boolean verdict a
residual collapses to (the payload- and time-free content of
`stop_default`), and the constructor-plus-verdict kind of a value,
which is exactly what `valuesEqUpToViolations` compares. -/

/-- The boolean verdict of a `StopDefault`. -/
def stopB {F : Type} : StopDefault F → Bool
  | .trueS => true
  | .falseS _ => false

/-- The boolean verdict a residual collapses to at test end, computed
directly: `stop_default` modulo violation payloads (whose time argument
it only uses inside payloads). -/
def collapseB {F : Type} : Residual F → Bool
  | .trueR => true
  | .falseR _ => false
  | .derived _ .assumeTrue => true
  | .derived _ (.assumeFalse _) => false
  | .and left right => collapseB left && collapseB right
  | .or left right => collapseB left || collapseB right
  | .implies _ left right => !collapseB left || collapseB right
  | .andAlways _ _ _ left right => collapseB left && collapseB right
  | .orEventually _ _ _ left right => collapseB left || collapseB right

/-- Constructor-plus-verdict kind of a value: exactly the information
`valuesEqUpToViolations` compares. -/
inductive VKind where
  | kTrue
  | kFalse
  | kResidual (collapse : Bool)
deriving Repr, DecidableEq

/-- The kind of a value. -/
def vKind {F : Type} : Value F → VKind
  | .trueV => .kTrue
  | .falseV _ => .kFalse
  | .residual r => .kResidual (collapseB r)

theorem stop_default_verdict {F : Type} (r : Residual F) (t : Time) :
    (stop_default r t).map stopB = some (collapseB r) := by
  induction r with
  | trueR => rfl
  | falseR violation => rfl
  | derived node leaning => cases leaning <;> rfl
  | and left right ihl ihr =>
      simp only [stop_default, collapseB]
      cases hl : stop_default left t with
      | none => simp [hl] at ihl
      | some s1 =>
          cases hr : stop_default right t with
          | none => simp [hr] at ihr
          | some s2 =>
              simp only [hl, Option.map] at ihl
              simp only [hr, Option.map] at ihr
              simp only [Option.bind, Option.map]
              cases s1 <;> cases s2 <;>
                simp_all [stopAndDefault, stopB]
  | or left right ihl ihr =>
      simp only [stop_default, collapseB]
      cases hl : stop_default left t with
      | none => simp [hl] at ihl
      | some s1 =>
          cases hr : stop_default right t with
          | none => simp [hr] at ihr
          | some s2 =>
              simp only [hl, Option.map] at ihl
              simp only [hr, Option.map] at ihr
              simp only [Option.bind, Option.map]
              cases s1 <;> cases s2 <;>
                simp_all [stopOrDefault, stopB]
  | implies leftFormula left right ihl ihr =>
      simp only [stop_default, collapseB]
      cases hl : stop_default left t with
      | none => simp [hl] at ihl
      | some s1 =>
          cases hr : stop_default right t with
          | none => simp [hr] at ihr
          | some s2 =>
              simp only [hl, Option.map] at ihl
              simp only [hr, Option.map] at ihr
              simp only [Option.bind, Option.map]
              cases s1 <;> cases s2 <;>
                simp_all [stopImpliesDefault, stopB]
  | orEventually subformula start endT left right ihl ihr =>
      simp only [stop_default, collapseB]
      cases hl : stop_default left t with
      | none => simp [hl] at ihl
      | some s1 =>
          cases hr : stop_default right t with
          | none => simp [hr] at ihr
          | some s2 =>
              simp only [hl, Option.map] at ihl
              simp only [hr, Option.map] at ihr
              simp only [Option.bind, Option.map]
              cases s1 <;> cases s2 <;>
                simp_all [stopOrEventuallyDefault, stopB]
  | andAlways subformula start endT left right ihl ihr =>
      simp only [stop_default, collapseB]
      cases hl : stop_default left t with
      | none => simp [hl] at ihl
      | some s1 =>
          cases hr : stop_default right t with
          | none => simp [hr] at ihr
          | some s2 =>
              simp only [hl, Option.map] at ihl
              simp only [hr, Option.map] at ihr
              simp only [Option.bind, Option.map]
              cases s1 <;> cases s2 <;>
                simp_all [stopAndAlwaysDefault, stopB]

theorem stop_default_isSome {F : Type} (r : Residual F) (t : Time) :
    (stop_default r t).isSome = true := by
  have h := stop_default_verdict r t
  cases hs : stop_default r t with
  | none => rw [hs] at h; simp [Option.map] at h
  | some s => rfl

theorem valuesEq_iff_vKind {F : Type} (v w : Value F) (t : Time) :
    valuesEqUpToViolations v w t = true ↔ vKind v = vKind w := by
  cases v with
  | trueV => cases w <;> simp [valuesEqUpToViolations, vKind]
  | falseV vi => cases w <;> simp [valuesEqUpToViolations, vKind]
  | residual l =>
      cases w with
      | trueV => simp [valuesEqUpToViolations, vKind]
      | falseV vi => simp [valuesEqUpToViolations, vKind]
      | residual r =>
          have hl := stop_default_verdict l t
          have hr := stop_default_verdict r t
          simp only [valuesEqUpToViolations, vKind, VKind.kResidual.injEq]
          cases hsl : stop_default l t with
          | none => rw [hsl] at hl; simp [Option.map] at hl
          | some s1 =>
              cases hsr : stop_default r t with
              | none => rw [hsr] at hr; simp [Option.map] at hr
              | some s2 =>
                  rw [hsl, Option.map] at hl
                  rw [hsr, Option.map] at hr
                  simp only [Option.some.injEq] at hl hr
                  cases s1 <;> cases s2 <;> simp_all [stopB]

/-! ## Fuel agreement

Evaluation is deterministic: results do not depend on the fuel bound
whenever evaluation succeeds, so `some` results at different fuels
coincide. -/

theorem evaluate_agree {F : Type} (env : Env F) :
    ∀ (n : Nat) (f : Formula F) (t : Time) (m : Nat) (v w : Value F),
      evaluate env n f t = some v → evaluate env m f t = some w → v = w := by
  intro n
  induction n with
  | zero => intro f t m v w hv; simp [evaluate] at hv
  | succ n ih =>
      intro f t m v w hv hw
      cases m with
      | zero => simp [evaluate] at hw
      | succ m =>
          cases f with
          | pureF value pretty =>
              simp [evaluate] at hv hw; rw [← hv, ← hw]
          | thunk function negated =>
              simp only [evaluate] at hv hw
              exact ih _ _ _ _ _ hv hw
          | and left right =>
              simp only [evaluate] at hv hw
              cases hvl : evaluate env n left t with
              | none => rw [hvl] at hv; simp at hv
              | some lv =>
                  cases hvr : evaluate env n right t with
                  | none => rw [hvl, hvr] at hv; simp at hv
                  | some rv =>
                      cases hwl : evaluate env m left t with
                      | none => rw [hwl] at hw; simp at hw
                      | some lw =>
                          cases hwr : evaluate env m right t with
                          | none => rw [hwl, hwr] at hw; simp at hw
                          | some rw' =>
                              rw [hvl, hvr] at hv; rw [hwl, hwr] at hw
                              simp only [Option.some.injEq] at hv hw
                              rw [← hv, ← hw, ih _ _ _ _ _ hvl hwl,
                                ih _ _ _ _ _ hvr hwr]
          | or left right =>
              simp only [evaluate] at hv hw
              cases hvl : evaluate env n left t with
              | none => rw [hvl] at hv; simp at hv
              | some lv =>
                  cases hvr : evaluate env n right t with
                  | none => rw [hvl, hvr] at hv; simp at hv
                  | some rv =>
                      cases hwl : evaluate env m left t with
                      | none => rw [hwl] at hw; simp at hw
                      | some lw =>
                          cases hwr : evaluate env m right t with
                          | none => rw [hwl, hwr] at hw; simp at hw
                          | some rw' =>
                              rw [hvl, hvr] at hv; rw [hwl, hwr] at hw
                              simp only [Option.some.injEq] at hv hw
                              rw [← hv, ← hw, ih _ _ _ _ _ hvl hwl,
                                ih _ _ _ _ _ hvr hwr]
          | implies left right =>
              simp only [evaluate] at hv hw
              cases hvl : evaluate env n left t with
              | none => rw [hvl] at hv; simp at hv
              | some lv =>
                  cases hvr : evaluate env n right t with
                  | none => rw [hvl, hvr] at hv; simp at hv
                  | some rv =>
                      cases hwl : evaluate env m left t with
                      | none => rw [hwl] at hw; simp at hw
                      | some lw =>
                          cases hwr : evaluate env m right t with
                          | none => rw [hwl, hwr] at hw; simp at hw
                          | some rw' =>
                              rw [hvl, hvr] at hv; rw [hwl, hwr] at hw
                              simp only [Option.some.injEq] at hv hw
                              rw [← hv, ← hw, ih _ _ _ _ _ hvl hwl,
                                ih _ _ _ _ _ hvr hwr]
          | next sub => simp [evaluate] at hv hw; rw [← hv, ← hw]
          | always sub bound =>
              simp only [evaluate] at hv hw
              by_cases hd : deadlinePassed (bound.map (fun d => t + d)) t
              · rw [if_pos hd] at hv hw
                simp only [Option.some.injEq] at hv hw; rw [← hv, ← hw]
              · rw [if_neg hd] at hv hw
                cases hvs : evaluate env n sub t with
                | none => rw [hvs] at hv; simp at hv
                | some sv =>
                    cases hws : evaluate env m sub t with
                    | none => rw [hws] at hw; simp at hw
                    | some sw =>
                        rw [hvs] at hv; rw [hws] at hw
                        simp only [Option.some.injEq] at hv hw
                        rw [← hv, ← hw, ih _ _ _ _ _ hvs hws]
          | eventually sub bound =>
              simp only [evaluate] at hv hw
              by_cases hd : deadlinePassed (bound.map (fun d => t + d)) t
              · rw [if_pos hd] at hv hw
                simp only [Option.some.injEq] at hv hw; rw [← hv, ← hw]
              · rw [if_neg hd] at hv hw
                cases hvs : evaluate env n sub t with
                | none => rw [hvs] at hv; simp at hv
                | some sv =>
                    cases hws : evaluate env m sub t with
                    | none => rw [hws] at hw; simp at hw
                    | some sw =>
                        rw [hvs] at hv; rw [hws] at hw
                        simp only [Option.some.injEq] at hv hw
                        rw [← hv, ← hw, ih _ _ _ _ _ hvs hws]

theorem step_agree {F : Type} (env : Env F) :
    ∀ (r : Residual F) (t : Time) (n m : Nat) (v w : Value F),
      step env n r t = some v → step env m r t = some w → v = w := by
  intro r
  induction r with
  | trueR =>
      intro t n m v w hv hw
      simp [step] at hv hw; rw [← hv, ← hw]
  | falseR violation =>
      intro t n m v w hv hw
      simp [step] at hv hw; rw [← hv, ← hw]
  | derived node leaning =>
      intro t n m v w hv hw
      cases node with
      | once start subformula =>
          simp only [step] at hv hw
          exact evaluate_agree env _ _ _ _ _ _ hv hw
      | always start endT subformula =>
          simp only [step, evaluateAlways] at hv hw
          by_cases hd : deadlinePassed endT t
          · rw [if_pos hd] at hv hw
            simp only [Option.some.injEq] at hv hw; rw [← hv, ← hw]
          · rw [if_neg hd] at hv hw
            cases hvs : evaluate env n subformula t with
            | none => rw [hvs] at hv; simp at hv
            | some sv =>
                cases hws : evaluate env m subformula t with
                | none => rw [hws] at hw; simp at hw
                | some sw =>
                    rw [hvs] at hv; rw [hws] at hw
                    simp only [Option.some.injEq] at hv hw
                    rw [← hv, ← hw, evaluate_agree env _ _ _ _ _ _ hvs hws]
      | eventually start endT subformula =>
          simp only [step, evaluateEventually] at hv hw
          by_cases hd : deadlinePassed endT t
          · rw [if_pos hd] at hv hw
            simp only [Option.some.injEq] at hv hw; rw [← hv, ← hw]
          · rw [if_neg hd] at hv hw
            cases hvs : evaluate env n subformula t with
            | none => rw [hvs] at hv; simp at hv
            | some sv =>
                cases hws : evaluate env m subformula t with
                | none => rw [hws] at hw; simp at hw
                | some sw =>
                    rw [hvs] at hv; rw [hws] at hw
                    simp only [Option.some.injEq] at hv hw
                    rw [← hv, ← hw, evaluate_agree env _ _ _ _ _ _ hvs hws]
  | and left right ihl ihr =>
      intro t n m v w hv hw
      simp only [step] at hv hw
      cases hvl : step env n left t with
      | none => rw [hvl] at hv; simp at hv
      | some lv =>
          cases hvr : step env n right t with
          | none => rw [hvl, hvr] at hv; simp at hv
          | some rv =>
              cases hwl : step env m left t with
              | none => rw [hwl] at hw; simp at hw
              | some lw =>
                  cases hwr : step env m right t with
                  | none => rw [hwl, hwr] at hw; simp at hw
                  | some rw' =>
                      rw [hvl, hvr] at hv; rw [hwl, hwr] at hw
                      simp only [Option.some.injEq] at hv hw
                      rw [← hv, ← hw, ihl _ _ _ _ _ hvl hwl,
                        ihr _ _ _ _ _ hvr hwr]
  | or left right ihl ihr =>
      intro t n m v w hv hw
      simp only [step] at hv hw
      cases hvl : step env n left t with
      | none => rw [hvl] at hv; simp at hv
      | some lv =>
          cases hvr : step env n right t with
          | none => rw [hvl, hvr] at hv; simp at hv
          | some rv =>
              cases hwl : step env m left t with
              | none => rw [hwl] at hw; simp at hw
              | some lw =>
                  cases hwr : step env m right t with
                  | none => rw [hwl, hwr] at hw; simp at hw
                  | some rw' =>
                      rw [hvl, hvr] at hv; rw [hwl, hwr] at hw
                      simp only [Option.some.injEq] at hv hw
                      rw [← hv, ← hw, ihl _ _ _ _ _ hvl hwl,
                        ihr _ _ _ _ _ hvr hwr]
  | implies leftFormula left right ihl ihr =>
      intro t n m v w hv hw
      simp only [step] at hv hw
      cases hvl : step env n left t with
      | none => rw [hvl] at hv; simp at hv
      | some lv =>
          cases hvr : step env n right t with
          | none => rw [hvl, hvr] at hv; simp at hv
          | some rv =>
              cases hwl : step env m left t with
              | none => rw [hwl] at hw; simp at hw
              | some lw =>
                  cases hwr : step env m right t with
                  | none => rw [hwl, hwr] at hw; simp at hw
                  | some rw' =>
                      rw [hvl, hvr] at hv; rw [hwl, hwr] at hw
                      simp only [Option.some.injEq] at hv hw
                      rw [← hv, ← hw, ihl _ _ _ _ _ hvl hwl,
                        ihr _ _ _ _ _ hvr hwr]
  | orEventually subformula start endT left right ihl ihr =>
      intro t n m v w hv hw
      simp only [step] at hv hw
      cases hvl : step env n left t with
      | none => rw [hvl] at hv; simp at hv
      | some lv =>
          cases hvr : step env n right t with
          | none => rw [hvl, hvr] at hv; simp at hv
          | some rv =>
              cases hwl : step env m left t with
              | none => rw [hwl] at hw; simp at hw
              | some lw =>
                  cases hwr : step env m right t with
                  | none => rw [hwl, hwr] at hw; simp at hw
                  | some rw' =>
                      rw [hvl, hvr] at hv; rw [hwl, hwr] at hw
                      simp only [Option.some.injEq] at hv hw
                      rw [← hv, ← hw, ihl _ _ _ _ _ hvl hwl,
                        ihr _ _ _ _ _ hvr hwr]
  | andAlways subformula start endT left right ihl ihr =>
      intro t n m v w hv hw
      simp only [step] at hv hw
      cases hvl : step env n left t with
      | none => rw [hvl] at hv; simp at hv
      | some lv =>
          cases hvr : step env n right t with
          | none => rw [hvl, hvr] at hv; simp at hv
          | some rv =>
              cases hwl : step env m left t with
              | none => rw [hwl] at hw; simp at hw
              | some lw =>
                  cases hwr : step env m right t with
                  | none => rw [hwl, hwr] at hw; simp at hw
                  | some rw' =>
                      rw [hvl, hvr] at hv; rw [hwl, hwr] at hw
                      simp only [Option.some.injEq] at hv hw
                      rw [← hv, ← hw, ihl _ _ _ _ _ hvl hwl,
                        ihr _ _ _ _ _ hvr hwr]

/-! ## A generic bisimulation principle for `runPairGo`

An invariant family indexed by the number of remaining ticks, closed
under joint stepping and implying kind equality, forces the harness
comparison to succeed. -/

theorem runPairGo_valuesEq {F : Type} (env : Env F)
    (Inv : Nat → Value F → Value F → Prop)
    (hcmp : ∀ n v w, Inv n v w → vKind v = vKind w)
    (hstep : ∀ n l r t fuel v' w',
      Inv (n + 1) (.residual l) (.residual r) →
      step env fuel l t = some v' → step env fuel r t = some w' →
      Inv n v' w') :
    ∀ (ticks : List Time) (fuel : Nat) (v w : Value F) (t : Time)
      (vl vr : Value F) (tf : Time),
      Inv ticks.length v w →
      runPairGo env fuel v w t ticks = some (vl, vr, tf) →
      valuesEqUpToViolations vl vr tf = true := by
  intro ticks
  induction ticks with
  | nil =>
      intro fuel v w t vl vr tf hinv hrun
      simp only [runPairGo, Option.some.injEq, Prod.mk.injEq] at hrun
      obtain ⟨hv, hw, ht⟩ := hrun
      rw [← hv, ← hw]
      exact (valuesEq_iff_vKind v w tf).mpr (hcmp _ _ _ hinv)
  | cons tick rest ih =>
      intro fuel v w t vl vr tf hinv hrun
      cases v with
      | residual l =>
          cases w with
          | residual r =>
              simp only [runPairGo] at hrun
              cases hsl : step env fuel l tick with
              | none => rw [hsl] at hrun; simp at hrun
              | some v' =>
                  cases hsr : step env fuel r tick with
                  | none => rw [hsl, hsr] at hrun; simp at hrun
                  | some w' =>
                      rw [hsl, hsr] at hrun
                      simp only at hrun
                      exact ih fuel v' w' tick vl vr tf
                        (hstep rest.length l r tick fuel v' w' hinv hsl hsr)
                        hrun
          | trueV =>
              simp only [runPairGo, Option.some.injEq, Prod.mk.injEq] at hrun
              obtain ⟨hv, hw, ht⟩ := hrun
              rw [← hv, ← hw]
              exact (valuesEq_iff_vKind _ _ tf).mpr (hcmp _ _ _ hinv)
          | falseV vi =>
              simp only [runPairGo, Option.some.injEq, Prod.mk.injEq] at hrun
              obtain ⟨hv, hw, ht⟩ := hrun
              rw [← hv, ← hw]
              exact (valuesEq_iff_vKind _ _ tf).mpr (hcmp _ _ _ hinv)
      | trueV =>
          simp only [runPairGo, Option.some.injEq, Prod.mk.injEq] at hrun
          obtain ⟨hv, hw, ht⟩ := hrun
          rw [← hv, ← hw]
          exact (valuesEq_iff_vKind _ _ tf).mpr (hcmp _ _ _ hinv)
      | falseV vi =>
          simp only [runPairGo, Option.some.injEq, Prod.mk.injEq] at hrun
          obtain ⟨hv, hw, ht⟩ := hrun
          rw [← hv, ← hw]
          exact (valuesEq_iff_vKind _ _ tf).mpr (hcmp _ _ _ hinv)

/-! ## The easy equivalences: identical formulas and Next
distributivity -/

theorem runPair_same_valuesEq {F : Type} (env : Env F) (fuel : Nat)
    (f g : Formula F) (t0 : Time) (ticks : List Time)
    (vl vr : Value F) (tf : Time) (hfg : f = g)
    (hrun : runPair env fuel f g t0 ticks = some (vl, vr, tf)) :
    valuesEqUpToViolations vl vr tf = true := by
  subst hfg
  simp only [runPair] at hrun
  cases hv : evaluate env fuel f t0 with
  | none => rw [hv] at hrun; simp at hrun
  | some v =>
      rw [hv] at hrun
      simp only at hrun
      refine runPairGo_valuesEq env (fun _ a b => a = b) ?_ ?_ ticks fuel
        v v t0 vl vr tf rfl hrun
      · intro n a b h; rw [h]
      · intro n l r t fuel' v' w' h hsl hsr
        cases h
        rw [hsl] at hsr
        exact Option.some.inj hsr

/-- The invariant for distributivity of Next over Or: both sides are
equal, or the left is a `Once` over an `Or` node and the right the
matching `Or` of `Once` nodes. -/
def InvNextOr {F : Type} : Value F → Value F → Prop := fun v w =>
  v = w ∨
    ∃ a b t,
      v = .residual (.derived (.once t (.or a b)) .assumeTrue) ∧
        w = .residual (.or (.derived (.once t a) .assumeTrue)
          (.derived (.once t b) .assumeTrue))

/-- The invariant for distributivity of Next over And. -/
def InvNextAnd {F : Type} : Value F → Value F → Prop := fun v w =>
  v = w ∨
    ∃ a b t,
      v = .residual (.derived (.once t (.and a b)) .assumeTrue) ∧
        w = .residual (.and (.derived (.once t a) .assumeTrue)
          (.derived (.once t b) .assumeTrue))

theorem InvNextOr_step {F : Type} (env : Env F) :
    ∀ (l r : Residual F) (t : Time) (fuel : Nat) (v' w' : Value F),
      InvNextOr (.residual l) (.residual r) →
      step env fuel l t = some v' → step env fuel r t = some w' →
      v' = w' := by
  intro l r t fuel v' w' hinv hsl hsr
  rcases hinv with heq | ⟨a, b, t0, hv, hw⟩
  · cases heq
    rw [hsl] at hsr
    exact Option.some.inj hsr
  · cases hv; cases hw
    simp only [step] at hsl hsr
    cases fuel with
    | zero => simp [evaluate] at hsl
    | succ m =>
        simp only [evaluate] at hsl
        cases hva : evaluate env m a t with
        | none => rw [hva] at hsl; simp at hsl
        | some va =>
            cases hvb : evaluate env m b t with
            | none => rw [hva, hvb] at hsl; simp at hsl
            | some vb =>
                rw [hva, hvb] at hsl
                cases hwa : evaluate env (m + 1) a t with
                | none => rw [hwa] at hsr; simp at hsr
                | some wa =>
                    cases hwb : evaluate env (m + 1) b t with
                    | none => rw [hwa, hwb] at hsr; simp at hsr
                    | some wb =>
                        rw [hwa, hwb] at hsr
                        simp only [Option.some.injEq] at hsl hsr
                        rw [← hsl, ← hsr,
                          evaluate_agree env _ _ _ _ _ _ hva hwa,
                          evaluate_agree env _ _ _ _ _ _ hvb hwb]

theorem InvNextAnd_step {F : Type} (env : Env F) :
    ∀ (l r : Residual F) (t : Time) (fuel : Nat) (v' w' : Value F),
      InvNextAnd (.residual l) (.residual r) →
      step env fuel l t = some v' → step env fuel r t = some w' →
      v' = w' := by
  intro l r t fuel v' w' hinv hsl hsr
  rcases hinv with heq | ⟨a, b, t0, hv, hw⟩
  · cases heq
    rw [hsl] at hsr
    exact Option.some.inj hsr
  · cases hv; cases hw
    simp only [step] at hsl hsr
    cases fuel with
    | zero => simp [evaluate] at hsl
    | succ m =>
        simp only [evaluate] at hsl
        cases hva : evaluate env m a t with
        | none => rw [hva] at hsl; simp at hsl
        | some va =>
            cases hvb : evaluate env m b t with
            | none => rw [hva, hvb] at hsl; simp at hsl
            | some vb =>
                rw [hva, hvb] at hsl
                cases hwa : evaluate env (m + 1) a t with
                | none => rw [hwa] at hsr; simp at hsr
                | some wa =>
                    cases hwb : evaluate env (m + 1) b t with
                    | none => rw [hwa, hwb] at hsr; simp at hsr
                    | some wb =>
                        rw [hwa, hwb] at hsr
                        simp only [Option.some.injEq] at hsl hsr
                        rw [← hsl, ← hsr,
                          evaluate_agree env _ _ _ _ _ _ hva hwa,
                          evaluate_agree env _ _ _ _ _ _ hvb hwb]

theorem next_or_distributes {F : Type} (env : Env F) (fuel : Nat)
    (φ ψ : Syn F) (t0 : Time) (ticks : List Time)
    (vl vr : Value F) (tf : Time)
    (hrun : runPair env fuel (Syn.nnf (.next (.or φ ψ)))
      (Syn.nnf (.or (.next φ) (.next ψ))) t0 ticks =
      some (vl, vr, tf)) :
    valuesEqUpToViolations vl vr tf = true := by
  simp only [runPair] at hrun
  cases fuel with
  | zero => simp [evaluate] at hrun
  | succ m =>
  cases m with
  | zero => simp [Syn.nnf, nnfGo, evaluate] at hrun
  | succ k =>
      simp only [Syn.nnf, nnfGo, evaluate, evaluateOr] at hrun
      refine runPairGo_valuesEq env (fun _ => InvNextOr) ?_ ?_ ticks (k + 2)
        _ _ t0 vl vr tf ?_ hrun
      · intro n v w hinv
        rcases hinv with heq | ⟨a, b, t, hv, hw⟩
        · rw [heq]
        · cases hv; cases hw; rfl
      · intro n l r t fuel' v' w' hinv hsl hsr
        left
        exact InvNextOr_step env l r t fuel' v' w' hinv hsl hsr
      · right
        exact ⟨nnfGo φ false, nnfGo ψ false, t0, rfl, rfl⟩

theorem next_and_distributes {F : Type} (env : Env F) (fuel : Nat)
    (φ ψ : Syn F) (t0 : Time) (ticks : List Time)
    (vl vr : Value F) (tf : Time)
    (hrun : runPair env fuel (Syn.nnf (.next (.and φ ψ)))
      (Syn.nnf (.and (.next φ) (.next ψ))) t0 ticks =
      some (vl, vr, tf)) :
    valuesEqUpToViolations vl vr tf = true := by
  simp only [runPair] at hrun
  cases fuel with
  | zero => simp [evaluate] at hrun
  | succ m =>
  cases m with
  | zero => simp [Syn.nnf, nnfGo, evaluate] at hrun
  | succ k =>
      simp only [Syn.nnf, nnfGo, evaluate, evaluateAnd] at hrun
      refine runPairGo_valuesEq env (fun _ => InvNextAnd) ?_ ?_ ticks (k + 2)
        _ _ t0 vl vr tf ?_ hrun
      · intro n v w hinv
        rcases hinv with heq | ⟨a, b, t, hv, hw⟩
        · rw [heq]
        · cases hv; cases hw; rfl
      · intro n l r t fuel' v' w' hinv hsl hsr
        left
        exact InvNextAnd_step env l r t fuel' v' w' hinv hsl hsr
      · right
        exact ⟨nnfGo φ false, nnfGo ψ false, t0, rfl, rfl⟩

theorem nnf_next_not {F : Type} (φ : Syn F) :
    Syn.nnf (.next (.notS φ)) = Syn.nnf (.notS (.next φ)) := rfl

theorem nnf_always_not_eventually {F : Type} (φ : Syn F)
    (b : Option Dur) :
    Syn.nnf (.always (.notS φ) b) = Syn.nnf (.notS (.eventually φ b)) :=
  rfl

/-! ## Idempotency of Eventually

The invariant machinery for `F F φ ≡ F φ`.  A running unbounded
Eventually monitor is an `orEventually` spine whose left components are
pending subformula residuals and whose rightmost node is the
`eventuallyResidual` retry obligation.  The outer monitor of `F (F φ)`
keeps the inner monitor as its left child and a tracker: a spine of
fresh inner monitors, each of whose pending components is (literally)
shared with the inner monitor's components. -/

/-- The spine of a running unbounded Eventually monitor over `φ`,
together with the list of its pending left components. -/
inductive IsEvRes {F : Type} (φ : Formula F) :
    Residual F → List (Residual F) → Prop where
  | base (s : Time) : IsEvRes φ (eventuallyResidual φ s none) []
  | node (s : Time) (c w : Residual F) (cs : List (Residual F)) :
      IsEvRes φ w cs →
      IsEvRes φ (.orEventually φ s none c w) (c :: cs)

/-- The tracker spine of the outer monitor of `F (F φ)`: fresh inner
monitors whose pending components all occur among `cs`. -/
inductive IsEvTracker {F : Type} (φ : Formula F)
    (cs : List (Residual F)) : Residual F → Prop where
  | base (s : Time) :
      IsEvTracker φ cs
        (eventuallyResidual (Formula.eventually φ none) s none)
  | node (s : Time) (ρ w : Residual F) (ρcs : List (Residual F)) :
      IsEvRes φ ρ ρcs → (∀ c ∈ ρcs, c ∈ cs) →
      IsEvTracker φ cs w →
      IsEvTracker φ cs
        (.orEventually (Formula.eventually φ none) s none ρ w)

theorem evres_collapse {F : Type} {φ : Formula F} {l : Residual F}
    {cs : List (Residual F)} (h : IsEvRes φ l cs) :
    collapseB l = true ↔ ∃ c ∈ cs, collapseB c = true := by
  induction h with
  | base s => simp [eventuallyResidual, collapseB]
  | node s c w cs hw ih =>
      simp only [collapseB, Bool.or_eq_true, ih]
      constructor
      · rintro (hc | ⟨c0, hc0, hcoll⟩)
        · exact ⟨c, List.mem_cons_self c cs, hc⟩
        · exact ⟨c0, List.mem_cons_of_mem c hc0, hcoll⟩
      · rintro ⟨c0, hc0, hcoll⟩
        rcases List.mem_cons.mp hc0 with rfl | hc0
        · exact Or.inl hcoll
        · exact Or.inr ⟨c0, hc0, hcoll⟩

theorem evtracker_collapse {F : Type} {φ : Formula F}
    {cs : List (Residual F)} {w : Residual F}
    (h : IsEvTracker φ cs w) (hc : collapseB w = true) :
    ∃ c ∈ cs, collapseB c = true := by
  induction h with
  | base s => simp [eventuallyResidual, collapseB] at hc
  | node s ρ w ρcs hρ hsub hw ih =>
      simp only [collapseB, Bool.or_eq_true] at hc
      rcases hc with hc | hc
      · obtain ⟨c, hcmem, hcoll⟩ := (evres_collapse hρ).mp hc
        exact ⟨c, hsub c hcmem, hcoll⟩
      · exact ih hc

/-- Stepping a running unbounded Eventually spine: the subformula is
evaluated once (at the spine's own fuel), the result is never `False`,
it is `True` exactly when the subformula or a pending component
resolves `True`, and otherwise the new spine's components are exactly
the surviving stepped components plus the fresh subformula residual. -/
theorem evres_step {F : Type} (env : Env F) (fuel : Nat) (t : Time)
    {φ : Formula F} {l : Residual F} {cs : List (Residual F)}
    {vl : Value F}
    (h : IsEvRes φ l cs) (hs : step env fuel l t = some vl) :
    ∃ vφ, evaluate env fuel φ t = some vφ ∧
      (∀ v0, vl ≠ .falseV v0) ∧
      (vl = .trueV ↔ (vφ = .trueV ∨
        ∃ c ∈ cs, step env fuel c t = some .trueV)) ∧
      (∀ l', vl = .residual l' → ∃ cs', IsEvRes φ l' cs' ∧
        (∀ c c', c ∈ cs → step env fuel c t = some (.residual c') →
          c' ∈ cs') ∧
        (∀ rφ, vφ = .residual rφ → rφ ∈ cs') ∧
        (∀ c'', c'' ∈ cs' →
          (∃ c ∈ cs, step env fuel c t = some (.residual c'')) ∨
            vφ = .residual c'')) := by
  induction h generalizing vl with
  | base s =>
      simp only [eventuallyResidual, step, evaluateEventually,
        deadlinePassed, Bool.false_eq_true, if_false] at hs
      cases hvφ : evaluate env fuel φ t with
      | none => rw [hvφ] at hs; simp at hs
      | some vφ =>
          rw [hvφ] at hs
          simp only [Option.some.injEq] at hs
          refine ⟨vφ, rfl, ?_⟩
          cases vφ with
          | trueV =>
              simp only [eventuallyCombine] at hs
              refine ⟨(by rw [← hs]; intro v0 hc; cases hc), ?_, ?_⟩
              · rw [← hs]; exact ⟨fun _ => Or.inl rfl, fun _ => rfl⟩
              · intro l' hl'; rw [← hs] at hl'; cases hl'
          | falseV v0 =>
              simp only [eventuallyCombine] at hs
              refine ⟨(by rw [← hs]; intro v1 hc; cases hc), ?_, ?_⟩
              · rw [← hs]
                constructor
                · intro hc; cases hc
                · rintro (hc | ⟨c, hc, _⟩)
                  · cases hc
                  · cases hc
              · intro l' hl'
                rw [← hs] at hl'
                cases hl'
                refine ⟨[], IsEvRes.base s, ?_, ?_, ?_⟩
                · intro c c' hc; cases hc
                · intro rφ hrφ; cases hrφ
                · intro c'' hc''; cases hc''
          | residual rφ =>
              simp only [eventuallyCombine] at hs
              refine ⟨(by rw [← hs]; intro v1 hc; cases hc), ?_, ?_⟩
              · rw [← hs]
                constructor
                · intro hc; cases hc
                · rintro (hc | ⟨c, hc, _⟩)
                  · cases hc
                  · cases hc
              · intro l' hl'
                rw [← hs] at hl'
                cases hl'
                refine ⟨[rφ], IsEvRes.node s rφ _ [] (IsEvRes.base s),
                  ?_, ?_, ?_⟩
                · intro c c' hc; cases hc
                · intro rφ' hrφ'
                  cases hrφ'
                  exact List.mem_singleton.mpr rfl
                · intro c'' hc''
                  rcases List.mem_singleton.mp hc'' with rfl
                  exact Or.inr rfl
  | node s c w cs0 hw ih =>
      simp only [step] at hs
      cases hsc : step env fuel c t with
      | none => rw [hsc] at hs; simp at hs
      | some vc =>
          cases hsw : step env fuel w t with
          | none => rw [hsc, hsw] at hs; simp at hs
          | some vw0 =>
              rw [hsc, hsw] at hs
              simp only [Option.some.injEq] at hs
              obtain ⟨vφ, hvφ, hnf0, hiff0, hres0⟩ := ih hsw
              refine ⟨vφ, hvφ, ?_⟩
              rw [evaluateOrEventually] at hs
              simp only [deadlinePassed, Bool.false_eq_true,
                if_false] at hs
              cases vc with
              | trueV =>
                  simp only [orEventuallyCombine] at hs
                  refine ⟨(by rw [← hs]; intro v0 hcon; cases hcon),
                    ?_, ?_⟩
                  · rw [← hs]
                    exact ⟨fun _ => Or.inr ⟨c, List.mem_cons_self c cs0,
                      hsc⟩, fun _ => rfl⟩
                  · intro l' hl'; rw [← hs] at hl'; cases hl'
              | falseV v0 =>
                  cases vw0 with
                  | trueV =>
                      simp only [orEventuallyCombine] at hs
                      refine ⟨(by rw [← hs]; intro v1 hcon; cases hcon),
                        ?_, ?_⟩
                      · rw [← hs]
                        refine ⟨fun _ => ?_, fun _ => rfl⟩
                        rcases (hiff0.mp rfl) with hT | ⟨c0, hc0, hsc0⟩
                        · exact Or.inl hT
                        · exact Or.inr ⟨c0, List.mem_cons_of_mem c hc0,
                            hsc0⟩
                      · intro l' hl'; rw [← hs] at hl'; cases hl'
                  | falseV v1 => exact absurd rfl (hnf0 v1)
                  | residual w' =>
                      simp only [orEventuallyCombine] at hs
                      refine ⟨(by rw [← hs]; intro v1 hcon; cases hcon),
                        ?_, ?_⟩
                      · rw [← hs]
                        constructor
                        · intro hcon; cases hcon
                        · rintro (hT | ⟨c0, hc0, hsc0⟩)
                          · exact absurd (hiff0.mpr (Or.inl hT))
                              (by simp)
                          · rcases List.mem_cons.mp hc0 with rfl | hc0
                            · rw [hsc0] at hsc; simp at hsc
                            · exact absurd
                                (hiff0.mpr (Or.inr ⟨c0, hc0, hsc0⟩))
                                (by simp)
                      · intro l' hl'
                        rw [← hs] at hl'
                        obtain ⟨cs', hfam, hmem, hrφ, hsub⟩ :=
                          hres0 l' hl'
                        refine ⟨cs', hfam, ?_, hrφ, ?_⟩
                        · intro c1 c1' hc1 hsc1
                          rcases List.mem_cons.mp hc1 with rfl | hc1
                          · rw [hsc1] at hsc; simp at hsc
                          · exact hmem c1 c1' hc1 hsc1
                        · intro c'' hc''
                          rcases hsub c'' hc'' with ⟨c0, hc0, hsc0⟩ |
                            hfresh
                          · exact Or.inl ⟨c0, List.mem_cons_of_mem c hc0,
                              hsc0⟩
                          · exact Or.inr hfresh
              | residual c' =>
                  cases vw0 with
                  | trueV =>
                      simp only [orEventuallyCombine] at hs
                      refine ⟨(by rw [← hs]; intro v1 hcon; cases hcon),
                        ?_, ?_⟩
                      · rw [← hs]
                        refine ⟨fun _ => ?_, fun _ => rfl⟩
                        rcases (hiff0.mp rfl) with hT | ⟨c0, hc0, hsc0⟩
                        · exact Or.inl hT
                        · exact Or.inr ⟨c0, List.mem_cons_of_mem c hc0,
                            hsc0⟩
                      · intro l' hl'; rw [← hs] at hl'; cases hl'
                  | falseV v1 => exact absurd rfl (hnf0 v1)
                  | residual w'' =>
                      simp only [orEventuallyCombine] at hs
                      refine ⟨(by rw [← hs]; intro v1 hcon; cases hcon),
                        ?_, ?_⟩
                      · rw [← hs]
                        constructor
                        · intro hcon; cases hcon
                        · rintro (hT | ⟨c0, hc0, hsc0⟩)
                          · exact absurd (hiff0.mpr (Or.inl hT))
                              (by simp)
                          · rcases List.mem_cons.mp hc0 with rfl | hc0
                            · rw [hsc0] at hsc; simp at hsc
                            · exact absurd
                                (hiff0.mpr (Or.inr ⟨c0, hc0, hsc0⟩))
                                (by simp)
                      · intro l' hl'
                        rw [← hs] at hl'
                        simp only [Value.residual.injEq] at hl'
                        subst hl'
                        obtain ⟨cs'', hfam, hmem, hrφ, hsub⟩ :=
                          hres0 w'' rfl
                        refine ⟨c' :: cs'', IsEvRes.node s c' w'' cs'' hfam,
                          ?_, ?_, ?_⟩
                        · intro c1 c1' hc1 hsc1
                          rcases List.mem_cons.mp hc1 with rfl | hc1
                          · rw [hsc1] at hsc
                            simp only [Option.some.injEq,
                              Value.residual.injEq] at hsc
                            rw [hsc]
                            exact List.mem_cons_self _ _
                          · exact List.mem_cons_of_mem c'
                              (hmem c1 c1' hc1 hsc1)
                        · intro rφ hrφ'
                          exact List.mem_cons_of_mem c' (hrφ rφ hrφ')
                        · intro c'' hc''
                          rcases List.mem_cons.mp hc'' with rfl | hc''
                          · exact Or.inl ⟨c, List.mem_cons_self c cs0, hsc⟩
                          · rcases hsub c'' hc'' with ⟨c0, hc0, hsc0⟩ |
                              hfresh
                            · exact Or.inl ⟨c0,
                                List.mem_cons_of_mem c hc0, hsc0⟩
                            · exact Or.inr hfresh

/-- Stepping the tracker of the outer `F (F φ)` monitor: the result is
never `False`; if it is `True` then the inner monitor's step is `True`
as well; and a residual result is again a tracker over any component
list `cs'` that contains the stepped survivors of `cs` and the fresh
subformula residual. -/
theorem evtracker_step {F : Type} (env : Env F) (fuel : Nat) (t : Time)
    {φ : Formula F} {cs : List (Residual F)} {w : Residual F}
    {vw vφ vl : Value F} {cs' : List (Residual F)}
    (h : IsEvTracker φ cs w)
    (hsw : step env fuel w t = some vw)
    (hvφ : evaluate env fuel φ t = some vφ)
    (hTrue : vφ = .trueV → vl = .trueV)
    (hcomp : ∀ c ∈ cs, step env fuel c t = some .trueV → vl = .trueV)
    (hc1 : ∀ c c', c ∈ cs → step env fuel c t = some (.residual c') →
      c' ∈ cs')
    (hc2 : ∀ rφ, vφ = .residual rφ → rφ ∈ cs') :
    (∀ v0, vw ≠ .falseV v0) ∧
    (vw = .trueV → vl = .trueV) ∧
    (∀ w', vw = .residual w' → IsEvTracker φ cs' w') := by
  induction h generalizing vw with
  | base s =>
      simp only [eventuallyResidual, step, evaluateEventually,
        deadlinePassed, Bool.false_eq_true, if_false] at hsw
      cases hF : evaluate env fuel (Formula.eventually φ none) t with
      | none => rw [hF] at hsw; simp at hsw
      | some vF =>
          rw [hF] at hsw
          simp only [Option.some.injEq] at hsw
          cases fuel with
          | zero => simp [evaluate] at hF
          | succ m =>
              simp only [evaluate, Option.map_none', deadlinePassed,
                Bool.false_eq_true, if_false] at hF
              cases hu : evaluate env m φ t with
              | none => rw [hu] at hF; simp at hF
              | some u =>
                  rw [hu] at hF
                  simp only [Option.some.injEq] at hF
                  have huφ : u = vφ :=
                    evaluate_agree env m φ t _ u vφ hu hvφ
                  subst huφ
                  subst hF
                  cases u with
                  | trueV =>
                      simp only [eventuallyCombine] at hsw
                      refine ⟨(by rw [← hsw]; intro v0 hcon; cases hcon),
                        fun _ => hTrue rfl, ?_⟩
                      intro w' hw'; rw [← hsw] at hw'; cases hw'
                  | falseV v0 =>
                      simp only [eventuallyCombine] at hsw
                      refine ⟨(by rw [← hsw]; intro v1 hcon; cases hcon),
                        (by rw [← hsw]; intro hcon; cases hcon), ?_⟩
                      intro w' hw'
                      rw [← hsw] at hw'
                      simp only [Value.residual.injEq] at hw'
                      subst hw'
                      exact IsEvTracker.node s _ _ []
                        (IsEvRes.base t) (by intro c hc; cases hc)
                        (IsEvTracker.base s)
                  | residual rφ =>
                      simp only [eventuallyCombine] at hsw
                      refine ⟨(by rw [← hsw]; intro v1 hcon; cases hcon),
                        (by rw [← hsw]; intro hcon; cases hcon), ?_⟩
                      intro w' hw'
                      rw [← hsw] at hw'
                      simp only [Value.residual.injEq] at hw'
                      subst hw'
                      refine IsEvTracker.node s _ _ [rφ]
                        (IsEvRes.node t rφ _ [] (IsEvRes.base t)) ?_
                        (IsEvTracker.base s)
                      intro c hc
                      rcases List.mem_singleton.mp hc with rfl
                      exact hc2 c rfl
  | node s ρ w1 ρcs hρ hsubρ htr ih =>
      simp only [step] at hsw
      cases hsρ : step env fuel ρ t with
      | none => rw [hsρ] at hsw; simp at hsw
      | some vρ =>
          cases hsw1 : step env fuel w1 t with
          | none => rw [hsρ, hsw1] at hsw; simp at hsw
          | some vw1 =>
              rw [hsρ, hsw1] at hsw
              simp only [Option.some.injEq] at hsw
              rw [evaluateOrEventually] at hsw
              simp only [deadlinePassed, Bool.false_eq_true,
                if_false] at hsw
              obtain ⟨vφρ, hvφρ, hnfρ, hiffρ, hresρ⟩ :=
                evres_step env fuel t hρ hsρ
              have hφeq : vφρ = vφ := by
                rw [hvφρ] at hvφ
                exact Option.some.inj hvφ
              subst hφeq
              obtain ⟨hnfw1, hTruew1, htrw1⟩ := ih hsw1
              cases vρ with
              | trueV =>
                  have hvl : vl = .trueV := by
                    rcases hiffρ.mp rfl with hT | ⟨c0, hc0, hsc0⟩
                    · exact hTrue hT
                    · exact hcomp c0 (hsubρ c0 hc0) hsc0
                  simp only [orEventuallyCombine] at hsw
                  refine ⟨(by rw [← hsw]; intro v0 hcon; cases hcon),
                    fun _ => hvl, ?_⟩
                  intro w' hw'; rw [← hsw] at hw'; cases hw'
              | falseV v0 =>
                  cases vw1 with
                  | trueV =>
                      simp only [orEventuallyCombine] at hsw
                      refine ⟨(by rw [← hsw]; intro v1 hcon; cases hcon),
                        fun _ => hTruew1 rfl, ?_⟩
                      intro w' hw'; rw [← hsw] at hw'; cases hw'
                  | falseV v1 => exact absurd rfl (hnfw1 v1)
                  | residual w'' =>
                      simp only [orEventuallyCombine] at hsw
                      refine ⟨(by rw [← hsw]; intro v1 hcon; cases hcon),
                        (by rw [← hsw]; intro hcon; cases hcon), ?_⟩
                      intro w' hw'
                      rw [← hsw] at hw'
                      simp only [Value.residual.injEq] at hw'
                      subst hw'
                      exact htrw1 w'' rfl
              | residual ρ' =>
                  cases vw1 with
                  | trueV =>
                      simp only [orEventuallyCombine] at hsw
                      refine ⟨(by rw [← hsw]; intro v1 hcon; cases hcon),
                        fun _ => hTruew1 rfl, ?_⟩
                      intro w' hw'; rw [← hsw] at hw'; cases hw'
                  | falseV v1 => exact absurd rfl (hnfw1 v1)
                  | residual w'' =>
                      simp only [orEventuallyCombine] at hsw
                      refine ⟨(by rw [← hsw]; intro v1 hcon; cases hcon),
                        (by rw [← hsw]; intro hcon; cases hcon), ?_⟩
                      intro w' hw'
                      rw [← hsw] at hw'
                      simp only [Value.residual.injEq] at hw'
                      subst hw'
                      obtain ⟨ρcs', hfamρ, hmemρ, hrφρ, hsubρ'⟩ :=
                        hresρ ρ' rfl
                      refine IsEvTracker.node s ρ' w'' ρcs' hfamρ ?_
                        (htrw1 w'' rfl)
                      intro c'' hc''
                      rcases hsubρ' c'' hc'' with ⟨c0, hc0, hsc0⟩ | hfresh
                      · exact hc1 c0 c'' (hsubρ c0 hc0) hsc0
                      · exact hc2 c'' hfresh

/-- The bisimulation invariant for `F φ ≡ F (F φ)`: the two values are
equal, or both are residual, the right being the outer monitor holding
the left's residual as its left child plus a tracker over the left's
components. -/
def InvFF {F : Type} (φ : Formula F) : Value F → Value F → Prop :=
  fun v w => v = w ∨
    ∃ s l cs wtr, IsEvRes φ l cs ∧ IsEvTracker φ cs wtr ∧
      v = .residual l ∧
      w = .residual (.orEventually (.eventually φ none) s none l wtr)

theorem InvFF_cmp {F : Type} (φ : Formula F) (v w : Value F)
    (h : InvFF φ v w) : vKind v = vKind w := by
  rcases h with rfl | ⟨s, l, cs, wtr, hfam, htr, rfl, rfl⟩
  · rfl
  · simp only [vKind, VKind.kResidual.injEq, collapseB]
    cases hwtr : collapseB wtr with
    | false => simp
    | true =>
        obtain ⟨c, hc, hcoll⟩ := evtracker_collapse htr hwtr
        rw [(evres_collapse hfam).mpr ⟨c, hc, hcoll⟩]
        simp

theorem InvFF_step {F : Type} (env : Env F) (φ : Formula F)
    (l r : Residual F) (t : Time) (fuel : Nat) (v' w' : Value F)
    (hinv : InvFF φ (.residual l) (.residual r))
    (hsl : step env fuel l t = some v')
    (hsr : step env fuel r t = some w') :
    InvFF φ v' w' := by
  rcases hinv with heq | ⟨s, l0, cs, wtr, hfam, htr, hv, hw⟩
  · cases heq
    rw [hsl] at hsr
    exact Or.inl (Option.some.inj hsr)
  · simp only [Value.residual.injEq] at hv hw
    subst hv
    subst hw
    simp only [step] at hsr
    cases hsl0 : step env fuel l t with
    | none => rw [hsl0] at hsr; simp at hsr
    | some a =>
        cases hswtr : step env fuel wtr t with
        | none => rw [hsl0, hswtr] at hsr; simp at hsr
        | some b =>
            rw [hsl0, hswtr] at hsr
            simp only [Option.some.injEq] at hsr
            have hav : a = v' := by
              rw [hsl0] at hsl
              exact Option.some.inj hsl
            subst hav
            rw [evaluateOrEventually] at hsr
            simp only [deadlinePassed, Bool.false_eq_true,
              if_false] at hsr
            obtain ⟨vφ, hvφ, hnf, hiff, hres⟩ :=
              evres_step env fuel t hfam hsl0
            cases a with
            | trueV =>
                simp only [orEventuallyCombine] at hsr
                exact Or.inl hsr
            | falseV v0 => exact absurd rfl (hnf v0)
            | residual l' =>
                obtain ⟨cs', hfam', hc1, hc2, _⟩ := hres l' rfl
                obtain ⟨hnfw, hTruew, htrw⟩ :=
                  evtracker_step env fuel t htr hswtr hvφ
                    (fun h => hiff.mpr (Or.inl h))
                    (fun c hc hstepc => hiff.mpr (Or.inr ⟨c, hc, hstepc⟩))
                    hc1 hc2
                cases b with
                | trueV =>
                    exact absurd (hTruew rfl) (by simp)
                | falseV v1 => exact absurd rfl (hnfw v1)
                | residual w'' =>
                    simp only [orEventuallyCombine] at hsr
                    refine Or.inr ⟨s, l', cs', w'', hfam', htrw w'' rfl,
                      rfl, hsr.symm⟩

theorem eventually_idempotent {F : Type} (env : Env F) (fuel : Nat)
    (φ : Syn F) (t0 : Time) (ticks : List Time)
    (vl vr : Value F) (tf : Time)
    (hrun : runPair env fuel (Syn.nnf (.eventually φ none))
      (Syn.nnf (.eventually (.eventually φ none) none)) t0 ticks =
      some (vl, vr, tf)) :
    valuesEqUpToViolations vl vr tf = true := by
  simp only [runPair, Syn.nnf, nnfGo, Bool.false_eq_true, if_false] at hrun
  cases hv0 : evaluate env fuel (Formula.eventually (nnfGo φ false) none)
      t0 with
  | none => rw [hv0] at hrun; simp at hrun
  | some v0 =>
      cases hw0 : evaluate env fuel
          (Formula.eventually
            (Formula.eventually (nnfGo φ false) none) none) t0 with
      | none => rw [hv0, hw0] at hrun; simp at hrun
      | some w0 =>
          rw [hv0, hw0] at hrun
          simp only at hrun
          refine runPairGo_valuesEq env (fun _ => InvFF (nnfGo φ false))
            (fun _ => InvFF_cmp _)
            (fun _ l r t fuel' v' w' hinv hsl hsr =>
              InvFF_step env _ l r t fuel' v' w' hinv hsl hsr)
            ticks fuel v0 w0 t0 vl vr tf ?_ hrun
          cases fuel with
          | zero => simp [evaluate] at hv0
          | succ m =>
              simp only [evaluate, Option.map_none', deadlinePassed,
                Bool.false_eq_true, if_false] at hw0
              cases hvin : evaluate env m
                  (Formula.eventually (nnfGo φ false) none) t0 with
              | none => rw [hvin] at hw0; simp at hw0
              | some vin =>
                  rw [hvin] at hw0
                  simp only [Option.some.injEq] at hw0
                  have hvin0 : vin = v0 :=
                    evaluate_agree env m _ t0 _ vin v0 hvin hv0
                  subst hvin0
                  simp only [evaluate, Option.map_none', deadlinePassed,
                    Bool.false_eq_true, if_false] at hv0
                  cases hu : evaluate env m (nnfGo φ false) t0 with
                  | none => rw [hu] at hv0; simp at hv0
                  | some u =>
                      rw [hu] at hv0
                      simp only [Option.some.injEq] at hv0
                      cases u with
                      | trueV =>
                          simp only [eventuallyCombine] at hv0
                          rw [← hv0] at hw0
                          simp only [eventuallyCombine] at hw0
                          rw [← hv0, ← hw0]
                          exact Or.inl rfl
                      | falseV v1 =>
                          simp only [eventuallyCombine] at hv0
                          rw [← hv0] at hw0
                          simp only [eventuallyCombine] at hw0
                          refine Or.inr ⟨t0, _, [], _, IsEvRes.base t0,
                            IsEvTracker.base t0, hv0.symm, hw0.symm⟩
                      | residual rφ =>
                          simp only [eventuallyCombine] at hv0
                          rw [← hv0] at hw0
                          simp only [eventuallyCombine] at hw0
                          refine Or.inr ⟨t0, _, [rφ], _,
                            IsEvRes.node t0 rφ _ [] (IsEvRes.base t0),
                            IsEvTracker.base t0, hv0.symm, hw0.symm⟩

/-! ## Idempotency of Always

The mirror machinery for `G G φ ≡ G φ`: `andAlways` spines whose left
components are pending subformula residuals (or `trueR` placeholders
left behind by resolved components) and whose rightmost node is the
`alwaysResidual` retry obligation. -/

/-- The spine of a running unbounded Always monitor over `φ`, together
with the list of its pending left components. -/
inductive IsAlRes {F : Type} (φ : Formula F) :
    Residual F → List (Residual F) → Prop where
  | base (s : Time) : IsAlRes φ (alwaysResidual φ s none) []
  | node (s : Time) (c w : Residual F) (cs : List (Residual F)) :
      IsAlRes φ w cs →
      IsAlRes φ (.andAlways φ s none c w) (c :: cs)

/-- The tracker spine of the outer monitor of `G (G φ)`. -/
inductive IsAlTracker {F : Type} (φ : Formula F)
    (cs : List (Residual F)) : Residual F → Prop where
  | base (s : Time) :
      IsAlTracker φ cs
        (alwaysResidual (Formula.always φ none) s none)
  | node (s : Time) (ρ w : Residual F) (ρcs : List (Residual F)) :
      IsAlRes φ ρ ρcs → (∀ c ∈ ρcs, c ∈ cs) →
      IsAlTracker φ cs w →
      IsAlTracker φ cs
        (.andAlways (Formula.always φ none) s none ρ w)

theorem alres_collapse {F : Type} {φ : Formula F} {l : Residual F}
    {cs : List (Residual F)} (h : IsAlRes φ l cs) :
    collapseB l = false ↔ ∃ c ∈ cs, collapseB c = false := by
  induction h with
  | base s => simp [alwaysResidual, collapseB]
  | node s c w cs hw ih =>
      simp only [collapseB, Bool.and_eq_false_iff, ih]
      constructor
      · rintro (hc | ⟨c0, hc0, hcoll⟩)
        · exact ⟨c, List.mem_cons_self c cs, hc⟩
        · exact ⟨c0, List.mem_cons_of_mem c hc0, hcoll⟩
      · rintro ⟨c0, hc0, hcoll⟩
        rcases List.mem_cons.mp hc0 with rfl | hc0
        · exact Or.inl hcoll
        · exact Or.inr ⟨c0, hc0, hcoll⟩

theorem altracker_collapse {F : Type} {φ : Formula F}
    {cs : List (Residual F)} {w : Residual F}
    (h : IsAlTracker φ cs w) (hc : collapseB w = false) :
    ∃ c ∈ cs, collapseB c = false := by
  induction h with
  | base s => simp [alwaysResidual, collapseB] at hc
  | node s ρ w ρcs hρ hsub hw ih =>
      simp only [collapseB, Bool.and_eq_false_iff] at hc
      rcases hc with hc | hc
      · obtain ⟨c, hcmem, hcoll⟩ := (alres_collapse hρ).mp hc
        exact ⟨c, hsub c hcmem, hcoll⟩
      · exact ih hc

/-- Stepping a running unbounded Always spine: the subformula is
evaluated once, the result is never `True`, it is `False` exactly when
the subformula or a pending component resolves `False`, and otherwise
the new spine's components are the stepped components (`trueR` standing
in for resolved ones) plus the fresh subformula residual. -/
theorem alres_step {F : Type} (env : Env F) (fuel : Nat) (t : Time)
    {φ : Formula F} {l : Residual F} {cs : List (Residual F)}
    {vl : Value F}
    (h : IsAlRes φ l cs) (hs : step env fuel l t = some vl) :
    ∃ vφ, evaluate env fuel φ t = some vφ ∧
      vl ≠ .trueV ∧
      ((∃ v0, vl = .falseV v0) ↔ ((∃ v1, vφ = .falseV v1) ∨
        ∃ c ∈ cs, ∃ v2, step env fuel c t = some (.falseV v2))) ∧
      (∀ l', vl = .residual l' → ∃ cs', IsAlRes φ l' cs' ∧
        (∀ c c', c ∈ cs → step env fuel c t = some (.residual c') →
          c' ∈ cs') ∧
        (∀ c, c ∈ cs → step env fuel c t = some .trueV →
          Residual.trueR ∈ cs') ∧
        (∀ rφ, vφ = .residual rφ → rφ ∈ cs') ∧
        (∀ c'', c'' ∈ cs' →
          (∃ c ∈ cs, step env fuel c t = some (.residual c'')) ∨
          (c'' = Residual.trueR ∧
            ∃ c ∈ cs, step env fuel c t = some .trueV) ∨
          vφ = .residual c'')) := by
  induction h generalizing vl with
  | base s =>
      simp only [alwaysResidual, step, evaluateAlways,
        deadlinePassed, Bool.false_eq_true, if_false] at hs
      cases hvφ : evaluate env fuel φ t with
      | none => rw [hvφ] at hs; simp at hs
      | some vφ =>
          rw [hvφ] at hs
          simp only [Option.some.injEq] at hs
          refine ⟨vφ, rfl, ?_⟩
          cases vφ with
          | trueV =>
              simp only [alwaysCombine] at hs
              refine ⟨(by rw [← hs]; intro hc; cases hc), ?_, ?_⟩
              · rw [← hs]
                constructor
                · rintro ⟨v0, hc⟩; cases hc
                · rintro (⟨v1, hc⟩ | ⟨c, hc, _⟩)
                  · cases hc
                  · cases hc
              · intro l' hl'
                rw [← hs] at hl'
                simp only [Value.residual.injEq] at hl'
                subst hl'
                refine ⟨[], IsAlRes.base s, ?_, ?_, ?_, ?_⟩
                · intro c c' hc; cases hc
                · intro c hc; cases hc
                · intro rφ hrφ; cases hrφ
                · intro c'' hc''; cases hc''
          | falseV v0 =>
              simp only [alwaysCombine] at hs
              refine ⟨(by rw [← hs]; intro hc; cases hc), ?_, ?_⟩
              · rw [← hs]
                exact ⟨fun _ => Or.inl ⟨v0, rfl⟩, fun _ => ⟨_, rfl⟩⟩
              · intro l' hl'; rw [← hs] at hl'; cases hl'
          | residual rφ =>
              simp only [alwaysCombine] at hs
              refine ⟨(by rw [← hs]; intro hc; cases hc), ?_, ?_⟩
              · rw [← hs]
                constructor
                · rintro ⟨v0, hc⟩; cases hc
                · rintro (⟨v1, hc⟩ | ⟨c, hc, _⟩)
                  · cases hc
                  · cases hc
              · intro l' hl'
                rw [← hs] at hl'
                simp only [Value.residual.injEq] at hl'
                subst hl'
                refine ⟨[rφ], IsAlRes.node s rφ _ [] (IsAlRes.base s),
                  ?_, ?_, ?_, ?_⟩
                · intro c c' hc; cases hc
                · intro c hc; cases hc
                · intro rφ' hrφ'
                  cases hrφ'
                  exact List.mem_singleton.mpr rfl
                · intro c'' hc''
                  rcases List.mem_singleton.mp hc'' with rfl
                  exact Or.inr (Or.inr rfl)
  | node s c w cs0 hw ih =>
      simp only [step] at hs
      cases hsc : step env fuel c t with
      | none => rw [hsc] at hs; simp at hs
      | some vc =>
          cases hsw : step env fuel w t with
          | none => rw [hsc, hsw] at hs; simp at hs
          | some vw0 =>
              rw [hsc, hsw] at hs
              simp only [Option.some.injEq] at hs
              obtain ⟨vφ, hvφ, hnt0, hiff0, hres0⟩ := ih hsw
              refine ⟨vφ, hvφ, ?_⟩
              rw [evaluateAndAlways] at hs
              simp only [deadlinePassed, Bool.false_eq_true,
                if_false] at hs
              cases vc with
              | falseV v0 =>
                  simp only [andAlwaysCombine] at hs
                  refine ⟨(by rw [← hs]; intro hcon; cases hcon),
                    ?_, ?_⟩
                  · rw [← hs]
                    exact ⟨fun _ => Or.inr ⟨c, List.mem_cons_self c cs0,
                      v0, hsc⟩, fun _ => ⟨_, rfl⟩⟩
                  · intro l' hl'; rw [← hs] at hl'; cases hl'
              | trueV =>
                  cases vw0 with
                  | trueV => exact absurd rfl hnt0
                  | falseV v1 =>
                      simp only [andAlwaysCombine] at hs
                      refine ⟨(by rw [← hs]; intro hcon; cases hcon),
                        ?_, ?_⟩
                      · rw [← hs]
                        refine ⟨fun _ => ?_, fun _ => ⟨_, rfl⟩⟩
                        rcases hiff0.mp ⟨v1, rfl⟩ with hF | ⟨c0, hc0, hsc0⟩
                        · exact Or.inl hF
                        · exact Or.inr ⟨c0, List.mem_cons_of_mem c hc0,
                            hsc0⟩
                      · intro l' hl'; rw [← hs] at hl'; cases hl'
                  | residual w' =>
                      simp only [andAlwaysCombine] at hs
                      refine ⟨(by rw [← hs]; intro hcon; cases hcon),
                        ?_, ?_⟩
                      · rw [← hs]
                        constructor
                        · rintro ⟨v0, hcon⟩; cases hcon
                        · rintro (⟨v1, hF⟩ | ⟨c0, hc0, v2, hsc0⟩)
                          · exact absurd (hiff0.mpr (Or.inl ⟨v1, hF⟩))
                              (by simp)
                          · rcases List.mem_cons.mp hc0 with rfl | hc0
                            · rw [hsc0] at hsc; simp at hsc
                            · exact absurd
                                (hiff0.mpr (Or.inr ⟨c0, hc0, v2, hsc0⟩))
                                (by simp)
                      · intro l' hl'
                        rw [← hs] at hl'
                        simp only [Value.residual.injEq] at hl'
                        subst hl'
                        obtain ⟨cs'', hfam, hmem, htru, hrφ, hsub⟩ :=
                          hres0 w' rfl
                        refine ⟨.trueR :: cs'',
                          IsAlRes.node s .trueR w' cs'' hfam,
                          ?_, ?_, ?_, ?_⟩
                        · intro c1 c1' hc1 hsc1
                          rcases List.mem_cons.mp hc1 with rfl | hc1
                          · rw [hsc1] at hsc; simp at hsc
                          · exact List.mem_cons_of_mem _
                              (hmem c1 c1' hc1 hsc1)
                        · intro c1 hc1 hsc1
                          exact List.mem_cons_self _ _
                        · intro rφ hrφ'
                          exact List.mem_cons_of_mem _ (hrφ rφ hrφ')
                        · intro c'' hc''
                          rcases List.mem_cons.mp hc'' with rfl | hc''
                          · exact Or.inr (Or.inl ⟨rfl,
                              c, List.mem_cons_self c cs0, hsc⟩)
                          · rcases hsub c'' hc'' with
                              ⟨c0, hc0, hsc0⟩ | ⟨heq, c0, hc0, hsc0⟩ |
                                hfresh
                            · exact Or.inl ⟨c0,
                                List.mem_cons_of_mem c hc0, hsc0⟩
                            · exact Or.inr (Or.inl ⟨heq, c0,
                                List.mem_cons_of_mem c hc0, hsc0⟩)
                            · exact Or.inr (Or.inr hfresh)
              | residual c' =>
                  cases vw0 with
                  | trueV => exact absurd rfl hnt0
                  | falseV v1 =>
                      simp only [andAlwaysCombine] at hs
                      refine ⟨(by rw [← hs]; intro hcon; cases hcon),
                        ?_, ?_⟩
                      · rw [← hs]
                        refine ⟨fun _ => ?_, fun _ => ⟨_, rfl⟩⟩
                        rcases hiff0.mp ⟨v1, rfl⟩ with hF | ⟨c0, hc0, hsc0⟩
                        · exact Or.inl hF
                        · exact Or.inr ⟨c0, List.mem_cons_of_mem c hc0,
                            hsc0⟩
                      · intro l' hl'; rw [← hs] at hl'; cases hl'
                  | residual w'' =>
                      simp only [andAlwaysCombine] at hs
                      refine ⟨(by rw [← hs]; intro hcon; cases hcon),
                        ?_, ?_⟩
                      · rw [← hs]
                        constructor
                        · rintro ⟨v0, hcon⟩; cases hcon
                        · rintro (⟨v1, hF⟩ | ⟨c0, hc0, v2, hsc0⟩)
                          · exact absurd (hiff0.mpr (Or.inl ⟨v1, hF⟩))
                              (by simp)
                          · rcases List.mem_cons.mp hc0 with rfl | hc0
                            · rw [hsc0] at hsc; simp at hsc
                            · exact absurd
                                (hiff0.mpr (Or.inr ⟨c0, hc0, v2, hsc0⟩))
                                (by simp)
                      · intro l' hl'
                        rw [← hs] at hl'
                        simp only [Value.residual.injEq] at hl'
                        subst hl'
                        obtain ⟨cs'', hfam, hmem, htru, hrφ, hsub⟩ :=
                          hres0 w'' rfl
                        refine ⟨c' :: cs'',
                          IsAlRes.node s c' w'' cs'' hfam,
                          ?_, ?_, ?_, ?_⟩
                        · intro c1 c1' hc1 hsc1
                          rcases List.mem_cons.mp hc1 with rfl | hc1
                          · rw [hsc1] at hsc
                            simp only [Option.some.injEq,
                              Value.residual.injEq] at hsc
                            rw [hsc]
                            exact List.mem_cons_self _ _
                          · exact List.mem_cons_of_mem c'
                              (hmem c1 c1' hc1 hsc1)
                        · intro c1 hc1 hsc1
                          rcases List.mem_cons.mp hc1 with rfl | hc1
                          · rw [hsc1] at hsc; simp at hsc
                          · exact List.mem_cons_of_mem c'
                              (htru c1 hc1 hsc1)
                        · intro rφ hrφ'
                          exact List.mem_cons_of_mem c' (hrφ rφ hrφ')
                        · intro c'' hc''
                          rcases List.mem_cons.mp hc'' with rfl | hc''
                          · exact Or.inl ⟨c, List.mem_cons_self c cs0, hsc⟩
                          · rcases hsub c'' hc'' with
                              ⟨c0, hc0, hsc0⟩ | ⟨heq, c0, hc0, hsc0⟩ |
                                hfresh
                            · exact Or.inl ⟨c0,
                                List.mem_cons_of_mem c hc0, hsc0⟩
                            · exact Or.inr (Or.inl ⟨heq, c0,
                                List.mem_cons_of_mem c hc0, hsc0⟩)
                            · exact Or.inr (Or.inr hfresh)

/-- Stepping the tracker of the outer `G (G φ)` monitor: the result is
never `True`; if it is `False` then the inner monitor's step is `False`
as well; and a residual result is again a tracker over any component
list `cs'` containing the stepped survivors of `cs`, `trueR` for
resolved ones, and the fresh subformula residual. -/
theorem altracker_step {F : Type} (env : Env F) (fuel : Nat) (t : Time)
    {φ : Formula F} {cs : List (Residual F)} {w : Residual F}
    {vw vφ vl : Value F} {cs' : List (Residual F)}
    (h : IsAlTracker φ cs w)
    (hsw : step env fuel w t = some vw)
    (hvφ : evaluate env fuel φ t = some vφ)
    (hFalse : ∀ v1, vφ = .falseV v1 → ∃ v2, vl = .falseV v2)
    (hcomp : ∀ c ∈ cs, ∀ v2, step env fuel c t = some (.falseV v2) →
      ∃ v3, vl = .falseV v3)
    (hc1 : ∀ c c', c ∈ cs → step env fuel c t = some (.residual c') →
      c' ∈ cs')
    (hc1b : ∀ c, c ∈ cs → step env fuel c t = some .trueV →
      Residual.trueR ∈ cs')
    (hc2 : ∀ rφ, vφ = .residual rφ → rφ ∈ cs') :
    (vw ≠ .trueV) ∧
    (∀ v0, vw = .falseV v0 → ∃ v1, vl = .falseV v1) ∧
    (∀ w', vw = .residual w' → IsAlTracker φ cs' w') := by
  induction h generalizing vw with
  | base s =>
      simp only [alwaysResidual, step, evaluateAlways,
        deadlinePassed, Bool.false_eq_true, if_false] at hsw
      cases hG : evaluate env fuel (Formula.always φ none) t with
      | none => rw [hG] at hsw; simp at hsw
      | some vG =>
          rw [hG] at hsw
          simp only [Option.some.injEq] at hsw
          cases fuel with
          | zero => simp [evaluate] at hG
          | succ m =>
              simp only [evaluate, Option.map_none', deadlinePassed,
                Bool.false_eq_true, if_false] at hG
              cases hu : evaluate env m φ t with
              | none => rw [hu] at hG; simp at hG
              | some u =>
                  rw [hu] at hG
                  simp only [Option.some.injEq] at hG
                  have huφ : u = vφ :=
                    evaluate_agree env m φ t _ u vφ hu hvφ
                  subst huφ
                  subst hG
                  cases u with
                  | falseV v0 =>
                      simp only [alwaysCombine] at hsw
                      refine ⟨(by rw [← hsw]; intro hcon; cases hcon),
                        (by intro v1 hv1; exact hFalse v0 rfl), ?_⟩
                      intro w' hw'; rw [← hsw] at hw'; cases hw'
                  | trueV =>
                      simp only [alwaysCombine] at hsw
                      refine ⟨(by rw [← hsw]; intro hcon; cases hcon),
                        (by rw [← hsw]; intro v1 hcon; cases hcon), ?_⟩
                      intro w' hw'
                      rw [← hsw] at hw'
                      simp only [Value.residual.injEq] at hw'
                      subst hw'
                      exact IsAlTracker.node s _ _ []
                        (IsAlRes.base t) (by intro c hc; cases hc)
                        (IsAlTracker.base s)
                  | residual rφ =>
                      simp only [alwaysCombine] at hsw
                      refine ⟨(by rw [← hsw]; intro hcon; cases hcon),
                        (by rw [← hsw]; intro v1 hcon; cases hcon), ?_⟩
                      intro w' hw'
                      rw [← hsw] at hw'
                      simp only [Value.residual.injEq] at hw'
                      subst hw'
                      refine IsAlTracker.node s _ _ [rφ]
                        (IsAlRes.node t rφ _ [] (IsAlRes.base t)) ?_
                        (IsAlTracker.base s)
                      intro c hc
                      rcases List.mem_singleton.mp hc with rfl
                      exact hc2 c rfl
  | node s ρ w1 ρcs hρ hsubρ htr ih =>
      simp only [step] at hsw
      cases hsρ : step env fuel ρ t with
      | none => rw [hsρ] at hsw; simp at hsw
      | some vρ =>
          cases hsw1 : step env fuel w1 t with
          | none => rw [hsρ, hsw1] at hsw; simp at hsw
          | some vw1 =>
              rw [hsρ, hsw1] at hsw
              simp only [Option.some.injEq] at hsw
              rw [evaluateAndAlways] at hsw
              simp only [deadlinePassed, Bool.false_eq_true,
                if_false] at hsw
              obtain ⟨vφρ, hvφρ, hntρ, hiffρ, hresρ⟩ :=
                alres_step env fuel t hρ hsρ
              have hφeq : vφρ = vφ := by
                rw [hvφρ] at hvφ
                exact Option.some.inj hvφ
              subst hφeq
              obtain ⟨hntw1, hFalsew1, htrw1⟩ := ih hsw1
              cases vρ with
              | falseV v0 =>
                  have hvl : ∃ v3, vl = .falseV v3 := by
                    rcases hiffρ.mp ⟨v0, rfl⟩ with ⟨v1, hF⟩ |
                      ⟨c0, hc0, v2, hsc0⟩
                    · exact hFalse v1 hF
                    · exact hcomp c0 (hsubρ c0 hc0) v2 hsc0
                  simp only [andAlwaysCombine] at hsw
                  refine ⟨(by rw [← hsw]; intro hcon; cases hcon),
                    fun _ _ => hvl, ?_⟩
                  intro w' hw'; rw [← hsw] at hw'; cases hw'
              | trueV => exact absurd rfl hntρ
              | residual ρ' =>
                  cases vw1 with
                  | trueV => exact absurd rfl hntw1
                  | falseV v1 =>
                      simp only [andAlwaysCombine] at hsw
                      refine ⟨(by rw [← hsw]; intro hcon; cases hcon),
                        fun _ _ => hFalsew1 v1 rfl, ?_⟩
                      intro w' hw'; rw [← hsw] at hw'; cases hw'
                  | residual w'' =>
                      simp only [andAlwaysCombine] at hsw
                      refine ⟨(by rw [← hsw]; intro hcon; cases hcon),
                        (by rw [← hsw]; intro v1 hcon; cases hcon), ?_⟩
                      intro w' hw'
                      rw [← hsw] at hw'
                      simp only [Value.residual.injEq] at hw'
                      subst hw'
                      obtain ⟨ρcs', hfamρ, hmemρ, htruρ, hrφρ, hsubρ'⟩ :=
                        hresρ ρ' rfl
                      refine IsAlTracker.node s ρ' w'' ρcs' hfamρ ?_
                        (htrw1 w'' rfl)
                      intro c'' hc''
                      rcases hsubρ' c'' hc'' with ⟨c0, hc0, hsc0⟩ |
                        ⟨heq, c0, hc0, hsc0⟩ | hfresh
                      · exact hc1 c0 c'' (hsubρ c0 hc0) hsc0
                      · rw [heq]
                        exact hc1b c0 (hsubρ c0 hc0) hsc0
                      · exact hc2 c'' hfresh

/-- The bisimulation invariant for `G φ ≡ G (G φ)`. -/
def InvGG {F : Type} (φ : Formula F) : Value F → Value F → Prop :=
  fun v w => v = w ∨
    (∃ a b, v = .falseV a ∧ w = .falseV b) ∨
    ∃ s l cs wtr, IsAlRes φ l cs ∧ IsAlTracker φ cs wtr ∧
      v = .residual l ∧
      w = .residual (.andAlways (.always φ none) s none l wtr)

theorem InvGG_cmp {F : Type} (φ : Formula F) (v w : Value F)
    (h : InvGG φ v w) : vKind v = vKind w := by
  rcases h with rfl | ⟨a, b, rfl, rfl⟩ |
    ⟨s, l, cs, wtr, hfam, htr, rfl, rfl⟩
  · rfl
  · rfl
  · simp only [vKind, VKind.kResidual.injEq, collapseB]
    cases hwtr : collapseB wtr with
    | true => simp
    | false =>
        obtain ⟨c, hc, hcoll⟩ := altracker_collapse htr hwtr
        rw [(alres_collapse hfam).mpr ⟨c, hc, hcoll⟩]
        simp

theorem InvGG_step {F : Type} (env : Env F) (φ : Formula F)
    (l r : Residual F) (t : Time) (fuel : Nat) (v' w' : Value F)
    (hinv : InvGG φ (.residual l) (.residual r))
    (hsl : step env fuel l t = some v')
    (hsr : step env fuel r t = some w') :
    InvGG φ v' w' := by
  rcases hinv with heq | ⟨a, b, hva, hwb⟩ |
    ⟨s, l0, cs, wtr, hfam, htr, hv, hw⟩
  · cases heq
    rw [hsl] at hsr
    exact Or.inl (Option.some.inj hsr)
  · cases hva
  · simp only [Value.residual.injEq] at hv hw
    subst hv
    subst hw
    simp only [step] at hsr
    cases hsl0 : step env fuel l t with
    | none => rw [hsl0] at hsr; simp at hsr
    | some a =>
        cases hswtr : step env fuel wtr t with
        | none => rw [hsl0, hswtr] at hsr; simp at hsr
        | some b =>
            rw [hsl0, hswtr] at hsr
            simp only [Option.some.injEq] at hsr
            have hav : a = v' := by
              rw [hsl0] at hsl
              exact Option.some.inj hsl
            subst hav
            rw [evaluateAndAlways] at hsr
            simp only [deadlinePassed, Bool.false_eq_true,
              if_false] at hsr
            obtain ⟨vφ, hvφ, hnt, hiff, hres⟩ :=
              alres_step env fuel t hfam hsl0
            cases a with
            | trueV => exact absurd rfl hnt
            | falseV v0 =>
                simp only [andAlwaysCombine] at hsr
                exact Or.inr (Or.inl ⟨v0, _, rfl, hsr.symm⟩)
            | residual l' =>
                obtain ⟨cs', hfam', hc1, hc1b, hc2, _⟩ := hres l' rfl
                obtain ⟨hntw, hFalsew, htrw⟩ :=
                  altracker_step env fuel t htr hswtr hvφ
                    (fun v1 h => hiff.mpr (Or.inl ⟨v1, h⟩))
                    (fun c hc v2 hstepc =>
                      hiff.mpr (Or.inr ⟨c, hc, v2, hstepc⟩))
                    hc1 hc1b hc2
                cases b with
                | trueV => exact absurd rfl hntw
                | falseV v1 =>
                    exact absurd (hFalsew v1 rfl) (by simp)
                | residual w'' =>
                    simp only [andAlwaysCombine] at hsr
                    refine Or.inr (Or.inr ⟨s, l', cs', w'', hfam',
                      htrw w'' rfl, rfl, hsr.symm⟩)

theorem always_idempotent {F : Type} (env : Env F) (fuel : Nat)
    (φ : Syn F) (t0 : Time) (ticks : List Time)
    (vl vr : Value F) (tf : Time)
    (hrun : runPair env fuel (Syn.nnf (.always φ none))
      (Syn.nnf (.always (.always φ none) none)) t0 ticks =
      some (vl, vr, tf)) :
    valuesEqUpToViolations vl vr tf = true := by
  simp only [runPair, Syn.nnf, nnfGo, Bool.false_eq_true, if_false] at hrun
  cases hv0 : evaluate env fuel (Formula.always (nnfGo φ false) none)
      t0 with
  | none => rw [hv0] at hrun; simp at hrun
  | some v0 =>
      cases hw0 : evaluate env fuel
          (Formula.always
            (Formula.always (nnfGo φ false) none) none) t0 with
      | none => rw [hv0, hw0] at hrun; simp at hrun
      | some w0 =>
          rw [hv0, hw0] at hrun
          simp only at hrun
          refine runPairGo_valuesEq env (fun _ => InvGG (nnfGo φ false))
            (fun _ => InvGG_cmp _)
            (fun _ l r t fuel' v' w' hinv hsl hsr =>
              InvGG_step env _ l r t fuel' v' w' hinv hsl hsr)
            ticks fuel v0 w0 t0 vl vr tf ?_ hrun
          cases fuel with
          | zero => simp [evaluate] at hv0
          | succ m =>
              simp only [evaluate, Option.map_none', deadlinePassed,
                Bool.false_eq_true, if_false] at hw0
              cases hvin : evaluate env m
                  (Formula.always (nnfGo φ false) none) t0 with
              | none => rw [hvin] at hw0; simp at hw0
              | some vin =>
                  rw [hvin] at hw0
                  simp only [Option.some.injEq] at hw0
                  have hvin0 : vin = v0 :=
                    evaluate_agree env m _ t0 _ vin v0 hvin hv0
                  subst hvin0
                  simp only [evaluate, Option.map_none', deadlinePassed,
                    Bool.false_eq_true, if_false] at hv0
                  cases hu : evaluate env m (nnfGo φ false) t0 with
                  | none => rw [hu] at hv0; simp at hv0
                  | some u =>
                      rw [hu] at hv0
                      simp only [Option.some.injEq] at hv0
                      cases u with
                      | falseV v1 =>
                          simp only [alwaysCombine] at hv0
                          rw [← hv0] at hw0
                          simp only [alwaysCombine] at hw0
                          exact Or.inr (Or.inl ⟨_, _, hv0.symm, hw0.symm⟩)
                      | trueV =>
                          simp only [alwaysCombine] at hv0
                          rw [← hv0] at hw0
                          simp only [alwaysCombine] at hw0
                          refine Or.inr (Or.inr ⟨t0, _, [], _,
                            IsAlRes.base t0, IsAlTracker.base t0,
                            hv0.symm, hw0.symm⟩)
                      | residual rφ =>
                          simp only [alwaysCombine] at hv0
                          rw [← hv0] at hw0
                          simp only [alwaysCombine] at hw0
                          refine Or.inr (Or.inr ⟨t0, _, [rφ], _,
                            IsAlRes.node t0 rφ _ [] (IsAlRes.base t0),
                            IsAlTracker.base t0, hv0.symm, hw0.symm⟩)

/-! ## Distributivity of Eventually over Or

Machinery for `F (φ ∨ ψ) ≡ F φ ∨ F ψ` with a shared optional deadline.
The two sides' monitors share birth time and deadline; the left
monitor's pending components are or-combinations of the right
monitors' pending components. -/

/-- The spine of a running Eventually monitor with deadline `E`. -/
inductive IsEvResB {F : Type} (χ : Formula F) (E : Option Time) :
    Residual F → List (Residual F) → Prop where
  | base (s : Time) : IsEvResB χ E (eventuallyResidual χ s E) []
  | node (s : Time) (c w : Residual F) (cs : List (Residual F)) :
      IsEvResB χ E w cs →
      IsEvResB χ E (.orEventually χ s E c w) (c :: cs)

theorem evresB_collapse {F : Type} {χ : Formula F} {E : Option Time}
    {l : Residual F} {cs : List (Residual F)} (h : IsEvResB χ E l cs) :
    collapseB l = true ↔ ∃ c ∈ cs, collapseB c = true := by
  induction h with
  | base s => simp [eventuallyResidual, collapseB]
  | node s c w cs hw ih =>
      simp only [collapseB, Bool.or_eq_true, ih]
      constructor
      · rintro (hc | ⟨c0, hc0, hcoll⟩)
        · exact ⟨c, List.mem_cons_self c cs, hc⟩
        · exact ⟨c0, List.mem_cons_of_mem c hc0, hcoll⟩
      · rintro ⟨c0, hc0, hcoll⟩
        rcases List.mem_cons.mp hc0 with rfl | hc0
        · exact Or.inl hcoll
        · exact Or.inr ⟨c0, hc0, hcoll⟩

/-- Stepping an Eventually spine strictly past its deadline yields
`False` with a `TimedOut` violation, no matter the components. -/
theorem evresB_step_deadline {F : Type} (env : Env F) (fuel : Nat)
    (t : Time) {χ : Formula F} {E : Option Time} {l : Residual F}
    {cs : List (Residual F)} {vl : Value F}
    (h : IsEvResB χ E l cs) (hE : deadlinePassed E t = true)
    (hs : step env fuel l t = some vl) :
    vl = .falseV (.eventually χ (.timedOut t)) := by
  induction h generalizing vl with
  | base s =>
      simp only [eventuallyResidual, step, evaluateEventually, hE,
        if_true, Option.some.injEq] at hs
      exact hs.symm
  | node s c w cs hw ih =>
      simp only [step] at hs
      cases hsc : step env fuel c t with
      | none => rw [hsc] at hs; simp at hs
      | some vc =>
          cases hsw : step env fuel w t with
          | none => rw [hsc, hsw] at hs; simp at hs
          | some vw0 =>
              rw [hsc, hsw] at hs
              simp only [Option.some.injEq, evaluateOrEventually, hE,
                if_true] at hs
              exact hs.symm

/-- Stepping an Eventually spine inside its window: mirror of
`evres_step`, additionally recording that every pending component was
stepped successfully. -/
theorem evresB_step {F : Type} (env : Env F) (fuel : Nat) (t : Time)
    {χ : Formula F} {E : Option Time} {l : Residual F}
    {cs : List (Residual F)} {vl : Value F}
    (h : IsEvResB χ E l cs) (hE : deadlinePassed E t = false)
    (hs : step env fuel l t = some vl) :
    ∃ vχ, evaluate env fuel χ t = some vχ ∧
      (∀ c ∈ cs, ∃ vc, step env fuel c t = some vc) ∧
      (∀ v0, vl ≠ .falseV v0) ∧
      (vl = .trueV ↔ (vχ = .trueV ∨
        ∃ c ∈ cs, step env fuel c t = some .trueV)) ∧
      (∀ l', vl = .residual l' → ∃ cs', IsEvResB χ E l' cs' ∧
        (∀ c c', c ∈ cs → step env fuel c t = some (.residual c') →
          c' ∈ cs') ∧
        (∀ rχ, vχ = .residual rχ → rχ ∈ cs') ∧
        (∀ c'', c'' ∈ cs' →
          (∃ c ∈ cs, step env fuel c t = some (.residual c'')) ∨
            vχ = .residual c'')) := by
  induction h generalizing vl with
  | base s =>
      simp only [eventuallyResidual, step, evaluateEventually, hE,
        Bool.false_eq_true, if_false] at hs
      cases hvχ : evaluate env fuel χ t with
      | none => rw [hvχ] at hs; simp at hs
      | some vχ =>
          rw [hvχ] at hs
          simp only [Option.some.injEq] at hs
          refine ⟨vχ, rfl, (by intro c hc; cases hc), ?_⟩
          cases vχ with
          | trueV =>
              simp only [eventuallyCombine] at hs
              refine ⟨(by rw [← hs]; intro v0 hc; cases hc), ?_, ?_⟩
              · rw [← hs]; exact ⟨fun _ => Or.inl rfl, fun _ => rfl⟩
              · intro l' hl'; rw [← hs] at hl'; cases hl'
          | falseV v0 =>
              simp only [eventuallyCombine] at hs
              refine ⟨(by rw [← hs]; intro v1 hc; cases hc), ?_, ?_⟩
              · rw [← hs]
                constructor
                · intro hc; cases hc
                · rintro (hc | ⟨c, hc, _⟩)
                  · cases hc
                  · cases hc
              · intro l' hl'
                rw [← hs] at hl'
                simp only [Value.residual.injEq] at hl'
                subst hl'
                refine ⟨[], IsEvResB.base s, ?_, ?_, ?_⟩
                · intro c c' hc; cases hc
                · intro rχ hrχ; cases hrχ
                · intro c'' hc''; cases hc''
          | residual rχ =>
              simp only [eventuallyCombine] at hs
              refine ⟨(by rw [← hs]; intro v1 hc; cases hc), ?_, ?_⟩
              · rw [← hs]
                constructor
                · intro hc; cases hc
                · rintro (hc | ⟨c, hc, _⟩)
                  · cases hc
                  · cases hc
              · intro l' hl'
                rw [← hs] at hl'
                simp only [Value.residual.injEq] at hl'
                subst hl'
                refine ⟨[rχ], IsEvResB.node s rχ _ [] (IsEvResB.base s),
                  ?_, ?_, ?_⟩
                · intro c c' hc; cases hc
                · intro rχ' hrχ'
                  cases hrχ'
                  exact List.mem_singleton.mpr rfl
                · intro c'' hc''
                  rcases List.mem_singleton.mp hc'' with rfl
                  exact Or.inr rfl
  | node s c w cs0 hw ih =>
      simp only [step] at hs
      cases hsc : step env fuel c t with
      | none => rw [hsc] at hs; simp at hs
      | some vc =>
          cases hsw : step env fuel w t with
          | none => rw [hsc, hsw] at hs; simp at hs
          | some vw0 =>
              rw [hsc, hsw] at hs
              simp only [Option.some.injEq] at hs
              obtain ⟨vχ, hvχ, hdef0, hnf0, hiff0, hres0⟩ := ih hsw
              refine ⟨vχ, hvχ, ?_, ?_⟩
              · intro c1 hc1
                rcases List.mem_cons.mp hc1 with rfl | hc1
                · exact ⟨vc, hsc⟩
                · exact hdef0 c1 hc1
              rw [evaluateOrEventually] at hs
              simp only [hE, Bool.false_eq_true, if_false] at hs
              cases vc with
              | trueV =>
                  simp only [orEventuallyCombine] at hs
                  refine ⟨(by rw [← hs]; intro v0 hcon; cases hcon),
                    ?_, ?_⟩
                  · rw [← hs]
                    exact ⟨fun _ => Or.inr ⟨c, List.mem_cons_self c cs0,
                      hsc⟩, fun _ => rfl⟩
                  · intro l' hl'; rw [← hs] at hl'; cases hl'
              | falseV v0 =>
                  cases vw0 with
                  | trueV =>
                      simp only [orEventuallyCombine] at hs
                      refine ⟨(by rw [← hs]; intro v1 hcon; cases hcon),
                        ?_, ?_⟩
                      · rw [← hs]
                        refine ⟨fun _ => ?_, fun _ => rfl⟩
                        rcases (hiff0.mp rfl) with hT | ⟨c0, hc0, hsc0⟩
                        · exact Or.inl hT
                        · exact Or.inr ⟨c0, List.mem_cons_of_mem c hc0,
                            hsc0⟩
                      · intro l' hl'; rw [← hs] at hl'; cases hl'
                  | falseV v1 => exact absurd rfl (hnf0 v1)
                  | residual w' =>
                      simp only [orEventuallyCombine] at hs
                      refine ⟨(by rw [← hs]; intro v1 hcon; cases hcon),
                        ?_, ?_⟩
                      · rw [← hs]
                        constructor
                        · intro hcon; cases hcon
                        · rintro (hT | ⟨c0, hc0, hsc0⟩)
                          · exact absurd (hiff0.mpr (Or.inl hT))
                              (by simp)
                          · rcases List.mem_cons.mp hc0 with rfl | hc0
                            · rw [hsc0] at hsc; simp at hsc
                            · exact absurd
                                (hiff0.mpr (Or.inr ⟨c0, hc0, hsc0⟩))
                                (by simp)
                      · intro l' hl'
                        rw [← hs] at hl'
                        obtain ⟨cs', hfam, hmem, hrχ, hsub⟩ :=
                          hres0 l' hl'
                        refine ⟨cs', hfam, ?_, hrχ, ?_⟩
                        · intro c1 c1' hc1 hsc1
                          rcases List.mem_cons.mp hc1 with rfl | hc1
                          · rw [hsc1] at hsc; simp at hsc
                          · exact hmem c1 c1' hc1 hsc1
                        · intro c'' hc''
                          rcases hsub c'' hc'' with ⟨c0, hc0, hsc0⟩ |
                            hfresh
                          · exact Or.inl ⟨c0, List.mem_cons_of_mem c hc0,
                              hsc0⟩
                          · exact Or.inr hfresh
              | residual c' =>
                  cases vw0 with
                  | trueV =>
                      simp only [orEventuallyCombine] at hs
                      refine ⟨(by rw [← hs]; intro v1 hcon; cases hcon),
                        ?_, ?_⟩
                      · rw [← hs]
                        refine ⟨fun _ => ?_, fun _ => rfl⟩
                        rcases (hiff0.mp rfl) with hT | ⟨c0, hc0, hsc0⟩
                        · exact Or.inl hT
                        · exact Or.inr ⟨c0, List.mem_cons_of_mem c hc0,
                            hsc0⟩
                      · intro l' hl'; rw [← hs] at hl'; cases hl'
                  | falseV v1 => exact absurd rfl (hnf0 v1)
                  | residual w'' =>
                      simp only [orEventuallyCombine] at hs
                      refine ⟨(by rw [← hs]; intro v1 hcon; cases hcon),
                        ?_, ?_⟩
                      · rw [← hs]
                        constructor
                        · intro hcon; cases hcon
                        · rintro (hT | ⟨c0, hc0, hsc0⟩)
                          · exact absurd (hiff0.mpr (Or.inl hT))
                              (by simp)
                          · rcases List.mem_cons.mp hc0 with rfl | hc0
                            · rw [hsc0] at hsc; simp at hsc
                            · exact absurd
                                (hiff0.mpr (Or.inr ⟨c0, hc0, hsc0⟩))
                                (by simp)
                      · intro l' hl'
                        rw [← hs] at hl'
                        simp only [Value.residual.injEq] at hl'
                        subst hl'
                        obtain ⟨cs'', hfam, hmem, hrχ, hsub⟩ :=
                          hres0 w'' rfl
                        refine ⟨c' :: cs'',
                          IsEvResB.node s c' w'' cs'' hfam, ?_, ?_, ?_⟩
                        · intro c1 c1' hc1 hsc1
                          rcases List.mem_cons.mp hc1 with rfl | hc1
                          · rw [hsc1] at hsc
                            simp only [Option.some.injEq,
                              Value.residual.injEq] at hsc
                            rw [hsc]
                            exact List.mem_cons_self _ _
                          · exact List.mem_cons_of_mem c'
                              (hmem c1 c1' hc1 hsc1)
                        · intro rχ hrχ'
                          exact List.mem_cons_of_mem c' (hrχ rχ hrχ')
                        · intro c'' hc''
                          rcases List.mem_cons.mp hc'' with rfl | hc''
                          · exact Or.inl ⟨c, List.mem_cons_self c cs0,
                              hsc⟩
                          · rcases hsub c'' hc'' with ⟨c0, hc0, hsc0⟩ |
                              hfresh
                            · exact Or.inl ⟨c0,
                                List.mem_cons_of_mem c hc0, hsc0⟩
                            · exact Or.inr hfresh

/-- The bisimulation invariant for `F (α ∨ β) ≡ F α ∨ F β` with a
shared deadline: the left monitor's components are or-combinations (or
plain copies) of the right monitors' components, and every right
component occurs in some left component. -/
def InvFdist {F : Type} (α β : Formula F) :
    Value F → Value F → Prop := fun v w =>
  v = w ∨ (∃ a b, v = .falseV a ∧ w = .falseV b) ∨
  ∃ E L csL Lα csα Lβ csβ,
    IsEvResB (.or α β) E L csL ∧ IsEvResB α E Lα csα ∧
    IsEvResB β E Lβ csβ ∧
    (∀ c ∈ csL,
      (∃ a ∈ csα, ∃ b ∈ csβ, c = .or a b) ∨ c ∈ csα ∨ c ∈ csβ) ∧
    (∀ a ∈ csα, ∃ c ∈ csL, c = a ∨ ∃ b, c = .or a b) ∧
    (∀ b ∈ csβ, ∃ c ∈ csL, c = b ∨ ∃ a, c = .or a b) ∧
    v = .residual L ∧ w = .residual (.or Lα Lβ)

theorem InvFdist_cmp {F : Type} (α β : Formula F) (v w : Value F)
    (h : InvFdist α β v w) : vKind v = vKind w := by
  rcases h with rfl | ⟨a, b, rfl, rfl⟩ |
    ⟨E, L, csL, Lα, csα, Lβ, csβ, hL, hLα, hLβ, ht1, ht2, ht3, rfl, rfl⟩
  · rfl
  · rfl
  · simp only [vKind, VKind.kResidual.injEq, collapseB]
    have hforward : collapseB L = true →
        (collapseB Lα || collapseB Lβ) = true := by
      intro hTL
      obtain ⟨c, hc, hcoll⟩ := (evresB_collapse hL).mp hTL
      rcases ht1 c hc with ⟨a, ha, b, hb, rfl⟩ | hcα | hcβ
      · simp only [collapseB, Bool.or_eq_true] at hcoll
        rcases hcoll with hca | hcb
        · rw [(evresB_collapse hLα).mpr ⟨a, ha, hca⟩]; simp
        · rw [(evresB_collapse hLβ).mpr ⟨b, hb, hcb⟩]; simp
      · rw [(evresB_collapse hLα).mpr ⟨c, hcα, hcoll⟩]; simp
      · rw [(evresB_collapse hLβ).mpr ⟨c, hcβ, hcoll⟩]; simp
    have hbackα : collapseB Lα = true → collapseB L = true := by
      intro hTα
      obtain ⟨a, ha, hcoll⟩ := (evresB_collapse hLα).mp hTα
      obtain ⟨c, hc, hshape⟩ := ht2 a ha
      refine (evresB_collapse hL).mpr ⟨c, hc, ?_⟩
      rcases hshape with rfl | ⟨b, rfl⟩
      · exact hcoll
      · simp [collapseB, hcoll]
    have hbackβ : collapseB Lβ = true → collapseB L = true := by
      intro hTβ
      obtain ⟨b, hb, hcoll⟩ := (evresB_collapse hLβ).mp hTβ
      obtain ⟨c, hc, hshape⟩ := ht3 b hb
      refine (evresB_collapse hL).mpr ⟨c, hc, ?_⟩
      rcases hshape with rfl | ⟨a, rfl⟩
      · exact hcoll
      · simp [collapseB, hcoll]
    cases hcl : collapseB L with
    | true => exact (hforward hcl).symm
    | false =>
        cases hca : collapseB Lα with
        | true => rw [hbackα hca] at hcl; cases hcl
        | false =>
            cases hcb : collapseB Lβ with
            | true => rw [hbackβ hcb] at hcl; cases hcl
            | false => rfl

theorem step_or_some {F : Type} (env : Env F) (fuel : Nat) (t : Time)
    {a b : Residual F} {vc : Value F}
    (h : step env fuel (.or a b) t = some vc) :
    ∃ sa sb, step env fuel a t = some sa ∧ step env fuel b t = some sb ∧
      evaluateOr sa sb = vc := by
  simp only [step] at h
  cases hsa : step env fuel a t with
  | none => rw [hsa] at h; simp at h
  | some sa =>
      cases hsb : step env fuel b t with
      | none => rw [hsa, hsb] at h; simp at h
      | some sb =>
          rw [hsa, hsb] at h
          exact ⟨sa, sb, rfl, rfl, Option.some.inj h⟩

theorem evaluateOr_eq_trueV {F : Type} {x y : Value F} :
    evaluateOr x y = .trueV ↔ x = .trueV ∨ y = .trueV := by
  cases x <;> cases y <;> simp [evaluateOr]

theorem evaluateOr_eq_residual {F : Type} {x y : Value F}
    {c : Residual F} (h : evaluateOr x y = .residual c) :
    (∃ ra rb, x = .residual ra ∧ y = .residual rb ∧ c = .or ra rb) ∨
    (x = .residual c ∧ ∃ v, y = .falseV v) ∨
    ((∃ v, x = .falseV v) ∧ y = .residual c) := by
  cases x with
  | trueV => simp [evaluateOr] at h
  | falseV va =>
      cases y with
      | trueV => simp [evaluateOr] at h
      | falseV vb => simp [evaluateOr] at h
      | residual rb =>
          simp only [evaluateOr, Value.residual.injEq] at h
          exact Or.inr (Or.inr ⟨⟨va, rfl⟩, by rw [h]⟩)
  | residual ra =>
      cases y with
      | trueV => simp [evaluateOr] at h
      | falseV vb =>
          simp only [evaluateOr, Value.residual.injEq] at h
          exact Or.inr (Or.inl ⟨by rw [h], vb, rfl⟩)
      | residual rb =>
          simp only [evaluateOr, Value.residual.injEq] at h
          exact Or.inl ⟨ra, rb, rfl, rfl, h.symm⟩

theorem InvFdist_step {F : Type} (env : Env F) (α β : Formula F)
    (l r : Residual F) (t : Time) (fuel : Nat) (v' w' : Value F)
    (hinv : InvFdist α β (.residual l) (.residual r))
    (hsl : step env fuel l t = some v')
    (hsr : step env fuel r t = some w') :
    InvFdist α β v' w' := by
  rcases hinv with heq | ⟨a, b, hva, _⟩ |
    ⟨E, L, csL, Lα, csα, Lβ, csβ, hL, hLα, hLβ, ht1, ht2, ht3, hv, hw⟩
  · cases heq
    rw [hsl] at hsr
    exact Or.inl (Option.some.inj hsr)
  · cases hva
  · simp only [Value.residual.injEq] at hv hw
    subst hv
    subst hw
    obtain ⟨vα', vβ', hsα, hsβ, hcomb⟩ := step_or_some env fuel t hsr
    by_cases hE : deadlinePassed E t = true
    · have h1 := evresB_step_deadline env fuel t hL hE hsl
      have h2 := evresB_step_deadline env fuel t hLα hE hsα
      have h3 := evresB_step_deadline env fuel t hLβ hE hsβ
      subst h2
      subst h3
      simp only [evaluateOr] at hcomb
      exact Or.inr (Or.inl ⟨_, _, h1, hcomb.symm⟩)
    · replace hE : deadlinePassed E t = false := by
        cases hdp : deadlinePassed E t with
        | true => exact absurd hdp hE
        | false => rfl
      obtain ⟨uχ, huχ, hdefL, hnfL, hiffL, hresL⟩ :=
        evresB_step env fuel t hL hE hsl
      obtain ⟨uα, huα, hdefα, hnfα, hiffα, hresα⟩ :=
        evresB_step env fuel t hLα hE hsα
      obtain ⟨uβ, huβ, hdefβ, hnfβ, hiffβ, hresβ⟩ :=
        evresB_step env fuel t hLβ hE hsβ
      cases fuel with
      | zero => simp [evaluate] at huχ
      | succ m =>
          have huχ2 : evaluateOr uα uβ = uχ := by
            simp only [evaluate] at huχ
            cases hu1 : evaluate env m α t with
            | none => rw [hu1] at huχ; simp at huχ
            | some u1 =>
                cases hu2 : evaluate env m β t with
                | none => rw [hu1, hu2] at huχ; simp at huχ
                | some u2 =>
                    rw [hu1, hu2] at huχ
                    simp only [Option.some.injEq] at huχ
                    rw [evaluate_agree env m α t (m + 1) u1 uα hu1 huα,
                      evaluate_agree env m β t (m + 1) u2 uβ hu2 huβ]
                      at huχ
                    exact huχ
          cases v' with
          | falseV v0 => exact absurd rfl (hnfL v0)
          | trueV =>
              have hwT : vα' = .trueV ∨ vβ' = .trueV := by
                rcases hiffL.mp rfl with hχT | ⟨c, hc, hscT⟩
                · rw [hχT] at huχ2
                  rcases evaluateOr_eq_trueV.mp huχ2 with hα | hβ
                  · exact Or.inl (hiffα.mpr (Or.inl hα))
                  · exact Or.inr (hiffβ.mpr (Or.inl hβ))
                · rcases ht1 c hc with ⟨a, ha, b, hb, rfl⟩ | hcα | hcβ
                  · obtain ⟨sa, sb, hsa, hsb, hsab⟩ :=
                      step_or_some env (m + 1) t hscT
                    rcases evaluateOr_eq_trueV.mp hsab with hta | htb
                    · rw [hta] at hsa
                      exact Or.inl (hiffα.mpr (Or.inr ⟨a, ha, hsa⟩))
                    · rw [htb] at hsb
                      exact Or.inr (hiffβ.mpr (Or.inr ⟨b, hb, hsb⟩))
                  · exact Or.inl (hiffα.mpr (Or.inr ⟨c, hcα, hscT⟩))
                  · exact Or.inr (hiffβ.mpr (Or.inr ⟨c, hcβ, hscT⟩))
              refine Or.inl ?_
              rcases hwT with hta | htb
              · rw [hta] at hcomb
                rw [← hcomb]
                cases vβ' <;> rfl
              · rw [htb] at hcomb
                rw [← hcomb]
                cases vα' <;> rfl
          | residual L' =>
              obtain ⟨csL', hfamL, hmemL, hrχL, hsubL⟩ := hresL L' rfl
              cases vα' with
              | falseV v0 => exact absurd rfl (hnfα v0)
              | trueV =>
                  exfalso
                  rcases hiffα.mp rfl with hαT | ⟨a, ha, hsaT⟩
                  · have : uχ = .trueV := by
                      rw [← huχ2, hαT]
                      cases uβ <;> rfl
                    exact absurd (hiffL.mpr (Or.inl this)) (by simp)
                  · obtain ⟨c, hc, hshape⟩ := ht2 a ha
                    rcases hshape with rfl | ⟨b, rfl⟩
                    · exact absurd (hiffL.mpr (Or.inr ⟨c, hc, hsaT⟩))
                        (by simp)
                    · obtain ⟨vc, hvc⟩ := hdefL _ hc
                      obtain ⟨sa, sb, hsa, hsb, hsab⟩ :=
                        step_or_some env (m + 1) t hvc
                      rw [hsaT] at hsa
                      have hsaT2 : sa = .trueV := Option.some.inj hsa.symm
                      have : vc = .trueV := by
                        rw [← hsab, hsaT2]
                        cases sb <;> rfl
                      rw [this] at hvc
                      exact absurd (hiffL.mpr (Or.inr ⟨_, hc, hvc⟩))
                        (by simp)
              | residual Lα' =>
                  cases vβ' with
                  | falseV v0 => exact absurd rfl (hnfβ v0)
                  | trueV =>
                      exfalso
                      rcases hiffβ.mp rfl with hβT | ⟨b, hb, hsbT⟩
                      · have : uχ = .trueV := by
                          rw [← huχ2, hβT]
                          cases uα <;> rfl
                        exact absurd (hiffL.mpr (Or.inl this)) (by simp)
                      · obtain ⟨c, hc, hshape⟩ := ht3 b hb
                        rcases hshape with rfl | ⟨a, rfl⟩
                        · exact absurd (hiffL.mpr (Or.inr ⟨c, hc, hsbT⟩))
                            (by simp)
                        · obtain ⟨vc, hvc⟩ := hdefL _ hc
                          obtain ⟨sa, sb, hsa, hsb, hsab⟩ :=
                            step_or_some env (m + 1) t hvc
                          rw [hsbT] at hsb
                          have hsbT2 : sb = .trueV :=
                            Option.some.inj hsb.symm
                          have : vc = .trueV := by
                            rw [← hsab, hsbT2]
                            cases sa <;> rfl
                          rw [this] at hvc
                          exact absurd (hiffL.mpr (Or.inr ⟨_, hc, hvc⟩))
                            (by simp)
                  | residual Lβ' =>
                      obtain ⟨csα', hfamα, hmemα, hrχα, hsubα⟩ :=
                        hresα Lα' rfl
                      obtain ⟨csβ', hfamβ, hmemβ, hrχβ, hsubβ⟩ :=
                        hresβ Lβ' rfl
                      simp only [evaluateOr] at hcomb
                      refine Or.inr (Or.inr ⟨E, L', csL', Lα', csα',
                        Lβ', csβ', hfamL, hfamα, hfamβ, ?_, ?_, ?_,
                        rfl, hcomb.symm⟩)
                      · -- t1 preservation
                        intro c' hc'
                        rcases hsubL c' hc' with ⟨c, hc, hscRes⟩ | hfresh
                        · rcases ht1 c hc with ⟨a, ha, b, hb, rfl⟩ |
                            hcα | hcβ
                          · obtain ⟨sa, sb, hsa, hsb, hsab⟩ :=
                              step_or_some env (m + 1) t hscRes
                            rcases evaluateOr_eq_residual hsab with
                              ⟨ra, rb, hra, hrb, rfl⟩ |
                              ⟨hra, vb0, hrb⟩ | ⟨⟨va0, hra⟩, hrb⟩
                            · rw [hra] at hsa
                              rw [hrb] at hsb
                              exact Or.inl ⟨ra, hmemα a ra ha hsa, rb,
                                hmemβ b rb hb hsb, rfl⟩
                            · rw [hra] at hsa
                              exact Or.inr (Or.inl (hmemα a c' ha hsa))
                            · rw [hrb] at hsb
                              exact Or.inr (Or.inr (hmemβ b c' hb hsb))
                          · exact Or.inr (Or.inl (hmemα c c' hcα hscRes))
                          · exact Or.inr (Or.inr (hmemβ c c' hcβ hscRes))
                        · rw [hfresh] at huχ2
                          rcases evaluateOr_eq_residual huχ2 with
                            ⟨ra, rb, hra, hrb, rfl⟩ |
                            ⟨hra, vb0, hrb⟩ | ⟨⟨va0, hra⟩, hrb⟩
                          · exact Or.inl ⟨ra, hrχα ra hra, rb,
                              hrχβ rb hrb, rfl⟩
                          · exact Or.inr (Or.inl (hrχα c' hra))
                          · exact Or.inr (Or.inr (hrχβ c' hrb))
                      · -- t2 preservation
                        intro a' ha'
                        rcases hsubα a' ha' with ⟨a, ha, hsaRes⟩ | hfresh
                        · obtain ⟨c, hc, hshape⟩ := ht2 a ha
                          rcases hshape with rfl | ⟨b, rfl⟩
                          · exact ⟨a', hmemL c a' hc hsaRes, Or.inl rfl⟩
                          · obtain ⟨vc, hvc⟩ := hdefL _ hc
                            obtain ⟨sa, sb, hsa, hsb, hsab⟩ :=
                              step_or_some env (m + 1) t hvc
                            rw [hsaRes] at hsa
                            have hsa2 : sa = .residual a' :=
                              Option.some.inj hsa.symm
                            subst hsa2
                            cases sb with
                            | trueV =>
                                exfalso
                                have : vc = .trueV := by
                                  rw [← hsab]; rfl
                                rw [this] at hvc
                                exact absurd
                                  (hiffL.mpr (Or.inr ⟨_, hc, hvc⟩))
                                  (by simp)
                            | falseV vb0 =>
                                have : vc = .residual a' := by
                                  rw [← hsab]; rfl
                                rw [this] at hvc
                                exact ⟨a', hmemL _ a' hc hvc, Or.inl rfl⟩
                            | residual b'' =>
                                have : vc = .residual (.or a' b'') := by
                                  rw [← hsab]; rfl
                                rw [this] at hvc
                                exact ⟨.or a' b'', hmemL _ _ hc hvc,
                                  Or.inr ⟨b'', rfl⟩⟩
                        · rw [hfresh] at huχ2
                          cases uβ with
                          | trueV =>
                              exfalso
                              have : uχ = .trueV := by rw [← huχ2]; rfl
                              exact absurd (hiffL.mpr (Or.inl this))
                                (by simp)
                          | falseV vb0 =>
                              have : uχ = .residual a' := by
                                rw [← huχ2]; rfl
                              exact ⟨a', hrχL a' this, Or.inl rfl⟩
                          | residual rb =>
                              have : uχ = .residual (.or a' rb) := by
                                rw [← huχ2]; rfl
                              exact ⟨.or a' rb, hrχL _ this,
                                Or.inr ⟨rb, rfl⟩⟩
                      · -- t3 preservation
                        intro b' hb'
                        rcases hsubβ b' hb' with ⟨b, hb, hsbRes⟩ | hfresh
                        · obtain ⟨c, hc, hshape⟩ := ht3 b hb
                          rcases hshape with rfl | ⟨a, rfl⟩
                          · exact ⟨b', hmemL c b' hc hsbRes, Or.inl rfl⟩
                          · obtain ⟨vc, hvc⟩ := hdefL _ hc
                            obtain ⟨sa, sb, hsa, hsb, hsab⟩ :=
                              step_or_some env (m + 1) t hvc
                            rw [hsbRes] at hsb
                            have hsb2 : sb = .residual b' :=
                              Option.some.inj hsb.symm
                            subst hsb2
                            cases sa with
                            | trueV =>
                                exfalso
                                have : vc = .trueV := by
                                  rw [← hsab]; rfl
                                rw [this] at hvc
                                exact absurd
                                  (hiffL.mpr (Or.inr ⟨_, hc, hvc⟩))
                                  (by simp)
                            | falseV va0 =>
                                have : vc = .residual b' := by
                                  rw [← hsab]; rfl
                                rw [this] at hvc
                                exact ⟨b', hmemL _ b' hc hvc, Or.inl rfl⟩
                            | residual a'' =>
                                have : vc = .residual (.or a'' b') := by
                                  rw [← hsab]; rfl
                                rw [this] at hvc
                                exact ⟨.or a'' b', hmemL _ _ hc hvc,
                                  Or.inr ⟨a'', rfl⟩⟩
                        · rw [hfresh] at huχ2
                          cases uα with
                          | trueV =>
                              exfalso
                              have : uχ = .trueV := by rw [← huχ2]; rfl
                              exact absurd (hiffL.mpr (Or.inl this))
                                (by simp)
                          | falseV va0 =>
                              have : uχ = .residual b' := by
                                rw [← huχ2]; rfl
                              exact ⟨b', hrχL b' this, Or.inl rfl⟩
                          | residual ra =>
                              have : uχ = .residual (.or ra b') := by
                                rw [← huχ2]; rfl
                              exact ⟨.or ra b', hrχL _ this,
                                Or.inr ⟨ra, rfl⟩⟩

theorem deadline_birth (b : Option Dur) (t : Time) :
    deadlinePassed (b.map (fun d => t + d)) t = false := by
  cases b with
  | none => rfl
  | some d => simp [deadlinePassed, Option.map]

theorem eventually_or_distributes {F : Type} (env : Env F) (fuel : Nat)
    (φ ψ : Syn F) (b : Option Dur) (t0 : Time) (ticks : List Time)
    (vl vr : Value F) (tf : Time)
    (hrun : runPair env fuel (Syn.nnf (.eventually (.or φ ψ) b))
      (Syn.nnf (.or (.eventually φ b) (.eventually ψ b))) t0 ticks =
      some (vl, vr, tf)) :
    valuesEqUpToViolations vl vr tf = true := by
  simp only [runPair, Syn.nnf, nnfGo, Bool.false_eq_true, if_false] at hrun
  cases hv0 : evaluate env fuel
      (Formula.eventually (.or (nnfGo φ false) (nnfGo ψ false)) b) t0 with
  | none => rw [hv0] at hrun; simp at hrun
  | some v0 =>
      cases hw0 : evaluate env fuel
          (Formula.or (.eventually (nnfGo φ false) b)
            (.eventually (nnfGo ψ false) b)) t0 with
      | none => rw [hv0, hw0] at hrun; simp at hrun
      | some w0 =>
          rw [hv0, hw0] at hrun
          simp only at hrun
          refine runPairGo_valuesEq env
            (fun _ => InvFdist (nnfGo φ false) (nnfGo ψ false))
            (fun _ => InvFdist_cmp _ _)
            (fun _ l r t fuel' v' w' hinv hsl hsr =>
              InvFdist_step env _ _ l r t fuel' v' w' hinv hsl hsr)
            ticks fuel v0 w0 t0 vl vr tf ?_ hrun
          cases fuel with
          | zero => simp [evaluate] at hv0
          | succ m =>
          cases m with
          | zero =>
              simp [evaluate, deadline_birth, evaluate] at hv0
          | succ k =>
              simp only [evaluate, deadline_birth, Bool.false_eq_true,
                if_false] at hv0 hw0
              cases hua : evaluate env k (nnfGo φ false) t0 with
              | none => rw [hua] at hv0; simp [evaluate] at hv0 hw0
              | some ua =>
                  cases hub : evaluate env k (nnfGo ψ false) t0 with
                  | none =>
                      simp only [evaluate, hua, hub] at hv0
                      simp at hv0
                  | some ub =>
                      simp only [evaluate, hua, hub,
                        deadline_birth, Bool.false_eq_true,
                        if_false] at hv0 hw0
                      simp only [Option.some.injEq] at hv0 hw0
                      cases ua with
                      | trueV =>
                          simp only [evaluateOr, eventuallyCombine]
                            at hv0 hw0
                          rw [← hv0, ← hw0]
                          cases ub <;> exact Or.inl rfl
                      | falseV va =>
                          cases ub with
                          | trueV =>
                              simp only [evaluateOr, eventuallyCombine]
                                at hv0 hw0
                              rw [← hv0, ← hw0]
                              exact Or.inl rfl
                          | falseV vb =>
                              simp only [evaluateOr, eventuallyCombine]
                                at hv0 hw0
                              refine Or.inr (Or.inr
                                ⟨b.map (fun d => t0 + d), _, [], _, [],
                                 _, [], IsEvResB.base t0,
                                 IsEvResB.base t0, IsEvResB.base t0,
                                 ?_, ?_, ?_, hv0.symm, hw0.symm⟩)
                              · intro c hc; cases hc
                              · intro a ha; cases ha
                              · intro b2 hb2; cases hb2
                          | residual rb =>
                              simp only [evaluateOr, eventuallyCombine]
                                at hv0 hw0
                              refine Or.inr (Or.inr
                                ⟨b.map (fun d => t0 + d), _, [rb], _, [],
                                 _, [rb],
                                 IsEvResB.node t0 rb _ []
                                   (IsEvResB.base t0),
                                 IsEvResB.base t0,
                                 IsEvResB.node t0 rb _ []
                                   (IsEvResB.base t0),
                                 ?_, ?_, ?_, hv0.symm, hw0.symm⟩)
                              · intro c hc
                                rcases List.mem_singleton.mp hc with rfl
                                exact Or.inr (Or.inr
                                  (List.mem_singleton.mpr rfl))
                              · intro a ha; cases ha
                              · intro b2 hb2
                                rcases List.mem_singleton.mp hb2 with rfl
                                exact ⟨b2, List.mem_singleton.mpr rfl,
                                  Or.inl rfl⟩
                      | residual ra =>
                          cases ub with
                          | trueV =>
                              simp only [evaluateOr, eventuallyCombine]
                                at hv0 hw0
                              rw [← hv0, ← hw0]
                              exact Or.inl rfl
                          | falseV vb =>
                              simp only [evaluateOr, eventuallyCombine]
                                at hv0 hw0
                              refine Or.inr (Or.inr
                                ⟨b.map (fun d => t0 + d), _, [ra], _,
                                 [ra], _, [],
                                 IsEvResB.node t0 ra _ []
                                   (IsEvResB.base t0),
                                 IsEvResB.node t0 ra _ []
                                   (IsEvResB.base t0),
                                 IsEvResB.base t0,
                                 ?_, ?_, ?_, hv0.symm, hw0.symm⟩)
                              · intro c hc
                                rcases List.mem_singleton.mp hc with rfl
                                exact Or.inr (Or.inl
                                  (List.mem_singleton.mpr rfl))
                              · intro a ha
                                rcases List.mem_singleton.mp ha with rfl
                                exact ⟨a, List.mem_singleton.mpr rfl,
                                  Or.inl rfl⟩
                              · intro b2 hb2; cases hb2
                          | residual rb =>
                              simp only [evaluateOr, eventuallyCombine]
                                at hv0 hw0
                              refine Or.inr (Or.inr
                                ⟨b.map (fun d => t0 + d), _,
                                 [.or ra rb], _, [ra], _, [rb],
                                 IsEvResB.node t0 (.or ra rb) _ []
                                   (IsEvResB.base t0),
                                 IsEvResB.node t0 ra _ []
                                   (IsEvResB.base t0),
                                 IsEvResB.node t0 rb _ []
                                   (IsEvResB.base t0),
                                 ?_, ?_, ?_, hv0.symm, hw0.symm⟩)
                              · intro c hc
                                rcases List.mem_singleton.mp hc with rfl
                                exact Or.inl ⟨ra,
                                  List.mem_singleton.mpr rfl, rb,
                                  List.mem_singleton.mpr rfl, rfl⟩
                              · intro a ha
                                rcases List.mem_singleton.mp ha with rfl
                                exact ⟨.or a rb,
                                  List.mem_singleton.mpr rfl,
                                  Or.inr ⟨rb, rfl⟩⟩
                              · intro b2 hb2
                                rcases List.mem_singleton.mp hb2 with rfl
                                exact ⟨.or ra b2,
                                  List.mem_singleton.mpr rfl,
                                  Or.inr ⟨ra, rfl⟩⟩

/-! ## Distributivity of Always over And

Machinery for `G (α ∧ β) ≡ G α ∧ G β` with a shared optional
deadline. -/

/-- The spine of a running Always monitor with deadline `E`. -/
inductive IsAlResB {F : Type} (χ : Formula F) (E : Option Time) :
    Residual F → List (Residual F) → Prop where
  | base (s : Time) : IsAlResB χ E (alwaysResidual χ s E) []
  | node (s : Time) (c w : Residual F) (cs : List (Residual F)) :
      IsAlResB χ E w cs →
      IsAlResB χ E (.andAlways χ s E c w) (c :: cs)

theorem alresB_collapse {F : Type} {χ : Formula F} {E : Option Time}
    {l : Residual F} {cs : List (Residual F)} (h : IsAlResB χ E l cs) :
    collapseB l = false ↔ ∃ c ∈ cs, collapseB c = false := by
  induction h with
  | base s => simp [alwaysResidual, collapseB]
  | node s c w cs hw ih =>
      simp only [collapseB, Bool.and_eq_false_iff, ih]
      constructor
      · rintro (hc | ⟨c0, hc0, hcoll⟩)
        · exact ⟨c, List.mem_cons_self c cs, hc⟩
        · exact ⟨c0, List.mem_cons_of_mem c hc0, hcoll⟩
      · rintro ⟨c0, hc0, hcoll⟩
        rcases List.mem_cons.mp hc0 with rfl | hc0
        · exact Or.inl hcoll
        · exact Or.inr ⟨c0, hc0, hcoll⟩

/-- Stepping an Always spine strictly past its deadline yields `True`,
no matter the components. -/
theorem alresB_step_deadline {F : Type} (env : Env F) (fuel : Nat)
    (t : Time) {χ : Formula F} {E : Option Time} {l : Residual F}
    {cs : List (Residual F)} {vl : Value F}
    (h : IsAlResB χ E l cs) (hE : deadlinePassed E t = true)
    (hs : step env fuel l t = some vl) : vl = .trueV := by
  induction h generalizing vl with
  | base s =>
      simp only [alwaysResidual, step, evaluateAlways, hE, if_true,
        Option.some.injEq] at hs
      exact hs.symm
  | node s c w cs hw ih =>
      simp only [step] at hs
      cases hsc : step env fuel c t with
      | none => rw [hsc] at hs; simp at hs
      | some vc =>
          cases hsw : step env fuel w t with
          | none => rw [hsc, hsw] at hs; simp at hs
          | some vw0 =>
              rw [hsc, hsw] at hs
              simp only [Option.some.injEq, evaluateAndAlways, hE,
                if_true] at hs
              exact hs.symm

/-- Stepping an Always spine inside its window: mirror of
`alres_step`, additionally recording that every pending component was
stepped successfully. -/
theorem alresB_step {F : Type} (env : Env F) (fuel : Nat) (t : Time)
    {χ : Formula F} {E : Option Time} {l : Residual F}
    {cs : List (Residual F)} {vl : Value F}
    (h : IsAlResB χ E l cs) (hE : deadlinePassed E t = false)
    (hs : step env fuel l t = some vl) :
    ∃ vχ, evaluate env fuel χ t = some vχ ∧
      (∀ c ∈ cs, ∃ vc, step env fuel c t = some vc) ∧
      vl ≠ .trueV ∧
      ((∃ v0, vl = .falseV v0) ↔ ((∃ v1, vχ = .falseV v1) ∨
        ∃ c ∈ cs, ∃ v2, step env fuel c t = some (.falseV v2))) ∧
      (∀ l', vl = .residual l' → ∃ cs', IsAlResB χ E l' cs' ∧
        (∀ c c', c ∈ cs → step env fuel c t = some (.residual c') →
          c' ∈ cs') ∧
        (∀ c, c ∈ cs → step env fuel c t = some .trueV →
          Residual.trueR ∈ cs') ∧
        (∀ rχ, vχ = .residual rχ → rχ ∈ cs') ∧
        (∀ c'', c'' ∈ cs' →
          (∃ c ∈ cs, step env fuel c t = some (.residual c'')) ∨
          (c'' = Residual.trueR ∧
            ∃ c ∈ cs, step env fuel c t = some .trueV) ∨
          vχ = .residual c'')) := by
  induction h generalizing vl with
  | base s =>
      simp only [alwaysResidual, step, evaluateAlways, hE,
        Bool.false_eq_true, if_false] at hs
      cases hvχ : evaluate env fuel χ t with
      | none => rw [hvχ] at hs; simp at hs
      | some vχ =>
          rw [hvχ] at hs
          simp only [Option.some.injEq] at hs
          refine ⟨vχ, rfl, (by intro c hc; cases hc), ?_⟩
          cases vχ with
          | trueV =>
              simp only [alwaysCombine] at hs
              refine ⟨(by rw [← hs]; intro hc; cases hc), ?_, ?_⟩
              · rw [← hs]
                constructor
                · rintro ⟨v0, hc⟩; cases hc
                · rintro (⟨v1, hc⟩ | ⟨c, hc, _⟩)
                  · cases hc
                  · cases hc
              · intro l' hl'
                rw [← hs] at hl'
                simp only [Value.residual.injEq] at hl'
                subst hl'
                refine ⟨[], IsAlResB.base s, ?_, ?_, ?_, ?_⟩
                · intro c c' hc; cases hc
                · intro c hc; cases hc
                · intro rχ hrχ; cases hrχ
                · intro c'' hc''; cases hc''
          | falseV v0 =>
              simp only [alwaysCombine] at hs
              refine ⟨(by rw [← hs]; intro hc; cases hc), ?_, ?_⟩
              · rw [← hs]
                exact ⟨fun _ => Or.inl ⟨v0, rfl⟩, fun _ => ⟨_, rfl⟩⟩
              · intro l' hl'; rw [← hs] at hl'; cases hl'
          | residual rχ =>
              simp only [alwaysCombine] at hs
              refine ⟨(by rw [← hs]; intro hc; cases hc), ?_, ?_⟩
              · rw [← hs]
                constructor
                · rintro ⟨v0, hc⟩; cases hc
                · rintro (⟨v1, hc⟩ | ⟨c, hc, _⟩)
                  · cases hc
                  · cases hc
              · intro l' hl'
                rw [← hs] at hl'
                simp only [Value.residual.injEq] at hl'
                subst hl'
                refine ⟨[rχ], IsAlResB.node s rχ _ [] (IsAlResB.base s),
                  ?_, ?_, ?_, ?_⟩
                · intro c c' hc; cases hc
                · intro c hc; cases hc
                · intro rχ' hrχ'
                  cases hrχ'
                  exact List.mem_singleton.mpr rfl
                · intro c'' hc''
                  rcases List.mem_singleton.mp hc'' with rfl
                  exact Or.inr (Or.inr rfl)
  | node s c w cs0 hw ih =>
      simp only [step] at hs
      cases hsc : step env fuel c t with
      | none => rw [hsc] at hs; simp at hs
      | some vc =>
          cases hsw : step env fuel w t with
          | none => rw [hsc, hsw] at hs; simp at hs
          | some vw0 =>
              rw [hsc, hsw] at hs
              simp only [Option.some.injEq] at hs
              obtain ⟨vχ, hvχ, hdef0, hnt0, hiff0, hres0⟩ := ih hsw
              refine ⟨vχ, hvχ, ?_, ?_⟩
              · intro c1 hc1
                rcases List.mem_cons.mp hc1 with rfl | hc1
                · exact ⟨vc, hsc⟩
                · exact hdef0 c1 hc1
              rw [evaluateAndAlways] at hs
              simp only [hE, Bool.false_eq_true, if_false] at hs
              cases vc with
              | falseV v0 =>
                  simp only [andAlwaysCombine] at hs
                  refine ⟨(by rw [← hs]; intro hcon; cases hcon),
                    ?_, ?_⟩
                  · rw [← hs]
                    exact ⟨fun _ => Or.inr ⟨c, List.mem_cons_self c cs0,
                      v0, hsc⟩, fun _ => ⟨_, rfl⟩⟩
                  · intro l' hl'; rw [← hs] at hl'; cases hl'
              | trueV =>
                  cases vw0 with
                  | trueV => exact absurd rfl hnt0
                  | falseV v1 =>
                      simp only [andAlwaysCombine] at hs
                      refine ⟨(by rw [← hs]; intro hcon; cases hcon),
                        ?_, ?_⟩
                      · rw [← hs]
                        refine ⟨fun _ => ?_, fun _ => ⟨_, rfl⟩⟩
                        rcases hiff0.mp ⟨v1, rfl⟩ with hF | ⟨c0, hc0, hsc0⟩
                        · exact Or.inl hF
                        · exact Or.inr ⟨c0, List.mem_cons_of_mem c hc0,
                            hsc0⟩
                      · intro l' hl'; rw [← hs] at hl'; cases hl'
                  | residual w' =>
                      simp only [andAlwaysCombine] at hs
                      refine ⟨(by rw [← hs]; intro hcon; cases hcon),
                        ?_, ?_⟩
                      · rw [← hs]
                        constructor
                        · rintro ⟨v0, hcon⟩; cases hcon
                        · rintro (⟨v1, hF⟩ | ⟨c0, hc0, v2, hsc0⟩)
                          · exact absurd (hiff0.mpr (Or.inl ⟨v1, hF⟩))
                              (by simp)
                          · rcases List.mem_cons.mp hc0 with rfl | hc0
                            · rw [hsc0] at hsc; simp at hsc
                            · exact absurd
                                (hiff0.mpr (Or.inr ⟨c0, hc0, v2, hsc0⟩))
                                (by simp)
                      · intro l' hl'
                        rw [← hs] at hl'
                        simp only [Value.residual.injEq] at hl'
                        subst hl'
                        obtain ⟨cs'', hfam, hmem, htru, hrχ, hsub⟩ :=
                          hres0 w' rfl
                        refine ⟨.trueR :: cs'',
                          IsAlResB.node s .trueR w' cs'' hfam,
                          ?_, ?_, ?_, ?_⟩
                        · intro c1 c1' hc1 hsc1
                          rcases List.mem_cons.mp hc1 with rfl | hc1
                          · rw [hsc1] at hsc; simp at hsc
                          · exact List.mem_cons_of_mem _
                              (hmem c1 c1' hc1 hsc1)
                        · intro c1 hc1 hsc1
                          exact List.mem_cons_self _ _
                        · intro rχ hrχ'
                          exact List.mem_cons_of_mem _ (hrχ rχ hrχ')
                        · intro c'' hc''
                          rcases List.mem_cons.mp hc'' with rfl | hc''
                          · exact Or.inr (Or.inl ⟨rfl,
                              c, List.mem_cons_self c cs0, hsc⟩)
                          · rcases hsub c'' hc'' with
                              ⟨c0, hc0, hsc0⟩ | ⟨heq, c0, hc0, hsc0⟩ |
                                hfresh
                            · exact Or.inl ⟨c0,
                                List.mem_cons_of_mem c hc0, hsc0⟩
                            · exact Or.inr (Or.inl ⟨heq, c0,
                                List.mem_cons_of_mem c hc0, hsc0⟩)
                            · exact Or.inr (Or.inr hfresh)
              | residual c' =>
                  cases vw0 with
                  | trueV => exact absurd rfl hnt0
                  | falseV v1 =>
                      simp only [andAlwaysCombine] at hs
                      refine ⟨(by rw [← hs]; intro hcon; cases hcon),
                        ?_, ?_⟩
                      · rw [← hs]
                        refine ⟨fun _ => ?_, fun _ => ⟨_, rfl⟩⟩
                        rcases hiff0.mp ⟨v1, rfl⟩ with hF | ⟨c0, hc0, hsc0⟩
                        · exact Or.inl hF
                        · exact Or.inr ⟨c0, List.mem_cons_of_mem c hc0,
                            hsc0⟩
                      · intro l' hl'; rw [← hs] at hl'; cases hl'
                  | residual w'' =>
                      simp only [andAlwaysCombine] at hs
                      refine ⟨(by rw [← hs]; intro hcon; cases hcon),
                        ?_, ?_⟩
                      · rw [← hs]
                        constructor
                        · rintro ⟨v0, hcon⟩; cases hcon
                        · rintro (⟨v1, hF⟩ | ⟨c0, hc0, v2, hsc0⟩)
                          · exact absurd (hiff0.mpr (Or.inl ⟨v1, hF⟩))
                              (by simp)
                          · rcases List.mem_cons.mp hc0 with rfl | hc0
                            · rw [hsc0] at hsc; simp at hsc
                            · exact absurd
                                (hiff0.mpr (Or.inr ⟨c0, hc0, v2, hsc0⟩))
                                (by simp)
                      · intro l' hl'
                        rw [← hs] at hl'
                        simp only [Value.residual.injEq] at hl'
                        subst hl'
                        obtain ⟨cs'', hfam, hmem, htru, hrχ, hsub⟩ :=
                          hres0 w'' rfl
                        refine ⟨c' :: cs'',
                          IsAlResB.node s c' w'' cs'' hfam,
                          ?_, ?_, ?_, ?_⟩
                        · intro c1 c1' hc1 hsc1
                          rcases List.mem_cons.mp hc1 with rfl | hc1
                          · rw [hsc1] at hsc
                            simp only [Option.some.injEq,
                              Value.residual.injEq] at hsc
                            rw [hsc]
                            exact List.mem_cons_self _ _
                          · exact List.mem_cons_of_mem c'
                              (hmem c1 c1' hc1 hsc1)
                        · intro c1 hc1 hsc1
                          rcases List.mem_cons.mp hc1 with rfl | hc1
                          · rw [hsc1] at hsc; simp at hsc
                          · exact List.mem_cons_of_mem c'
                              (htru c1 hc1 hsc1)
                        · intro rχ hrχ'
                          exact List.mem_cons_of_mem c' (hrχ rχ hrχ')
                        · intro c'' hc''
                          rcases List.mem_cons.mp hc'' with rfl | hc''
                          · exact Or.inl ⟨c, List.mem_cons_self c cs0,
                              hsc⟩
                          · rcases hsub c'' hc'' with
                              ⟨c0, hc0, hsc0⟩ | ⟨heq, c0, hc0, hsc0⟩ |
                                hfresh
                            · exact Or.inl ⟨c0,
                                List.mem_cons_of_mem c hc0, hsc0⟩
                            · exact Or.inr (Or.inl ⟨heq, c0,
                                List.mem_cons_of_mem c hc0, hsc0⟩)
                            · exact Or.inr (Or.inr hfresh)

/-- The bisimulation invariant for `G (α ∧ β) ≡ G α ∧ G β` with a
shared deadline: the left monitor's components are and-combinations
(or plain copies, or discharged `True` placeholders) of the right
monitors' components, and every right component is a placeholder or
occurs in some left component. -/
def InvGdist {F : Type} (α β : Formula F) :
    Value F → Value F → Prop := fun v w =>
  v = w ∨ (∃ a b, v = .falseV a ∧ w = .falseV b) ∨
  ∃ E L csL Lα csα Lβ csβ,
    IsAlResB (.and α β) E L csL ∧ IsAlResB α E Lα csα ∧
    IsAlResB β E Lβ csβ ∧
    (∀ c ∈ csL, (∃ a ∈ csα, ∃ b ∈ csβ, c = .and a b) ∨ c ∈ csα ∨
      c ∈ csβ ∨ c = Residual.trueR) ∧
    (∀ a ∈ csα, a = Residual.trueR ∨
      ∃ c ∈ csL, c = a ∨ ∃ b, c = .and a b) ∧
    (∀ b ∈ csβ, b = Residual.trueR ∨
      ∃ c ∈ csL, c = b ∨ ∃ a, c = .and a b) ∧
    v = .residual L ∧ w = .residual (.and Lα Lβ)

theorem InvGdist_cmp {F : Type} (α β : Formula F) (v w : Value F)
    (h : InvGdist α β v w) : vKind v = vKind w := by
  rcases h with rfl | ⟨a, b, rfl, rfl⟩ |
    ⟨E, L, csL, Lα, csα, Lβ, csβ, hL, hLα, hLβ, ht1, ht2, ht3, rfl, rfl⟩
  · rfl
  · rfl
  · simp only [vKind, VKind.kResidual.injEq, collapseB]
    have hforward : collapseB L = false →
        (collapseB Lα && collapseB Lβ) = false := by
      intro hFL
      obtain ⟨c, hc, hcoll⟩ := (alresB_collapse hL).mp hFL
      rcases ht1 c hc with ⟨a, ha, b, hb, rfl⟩ | hcα | hcβ | rfl
      · simp only [collapseB, Bool.and_eq_false_iff] at hcoll
        rcases hcoll with hca | hcb
        · rw [(alresB_collapse hLα).mpr ⟨a, ha, hca⟩]; simp
        · rw [(alresB_collapse hLβ).mpr ⟨b, hb, hcb⟩]; simp
      · rw [(alresB_collapse hLα).mpr ⟨c, hcα, hcoll⟩]; simp
      · rw [(alresB_collapse hLβ).mpr ⟨c, hcβ, hcoll⟩]; simp
      · cases hcoll
    have hbackα : collapseB Lα = false → collapseB L = false := by
      intro hFα
      obtain ⟨a, ha, hcoll⟩ := (alresB_collapse hLα).mp hFα
      rcases ht2 a ha with rfl | ⟨c, hc, hshape⟩
      · cases hcoll
      refine (alresB_collapse hL).mpr ⟨c, hc, ?_⟩
      rcases hshape with rfl | ⟨b, rfl⟩
      · exact hcoll
      · simp [collapseB, hcoll]
    have hbackβ : collapseB Lβ = false → collapseB L = false := by
      intro hFβ
      obtain ⟨b, hb, hcoll⟩ := (alresB_collapse hLβ).mp hFβ
      rcases ht3 b hb with rfl | ⟨c, hc, hshape⟩
      · cases hcoll
      refine (alresB_collapse hL).mpr ⟨c, hc, ?_⟩
      rcases hshape with rfl | ⟨a, rfl⟩
      · exact hcoll
      · simp [collapseB, hcoll]
    cases hcl : collapseB L with
    | false => exact (hforward hcl).symm
    | true =>
        cases hca : collapseB Lα with
        | false => rw [hbackα hca] at hcl; cases hcl
        | true =>
            cases hcb : collapseB Lβ with
            | false => rw [hbackβ hcb] at hcl; cases hcl
            | true => rfl

theorem step_and_some {F : Type} (env : Env F) (fuel : Nat) (t : Time)
    {a b : Residual F} {vc : Value F}
    (h : step env fuel (.and a b) t = some vc) :
    ∃ sa sb, step env fuel a t = some sa ∧ step env fuel b t = some sb ∧
      evaluateAnd sa sb = vc := by
  simp only [step] at h
  cases hsa : step env fuel a t with
  | none => rw [hsa] at h; simp at h
  | some sa =>
      cases hsb : step env fuel b t with
      | none => rw [hsa, hsb] at h; simp at h
      | some sb =>
          rw [hsa, hsb] at h
          exact ⟨sa, sb, rfl, rfl, Option.some.inj h⟩

theorem evaluateAnd_eq_trueV {F : Type} {x y : Value F} :
    evaluateAnd x y = .trueV ↔ x = .trueV ∧ y = .trueV := by
  cases x <;> cases y <;> simp [evaluateAnd]

theorem evaluateAnd_eq_falseV {F : Type} {x y : Value F} :
    (∃ v, evaluateAnd x y = .falseV v) ↔
      (∃ va, x = .falseV va) ∨ ∃ vb, y = .falseV vb := by
  cases x <;> cases y <;> simp [evaluateAnd]

theorem evaluateAnd_eq_residual {F : Type} {x y : Value F}
    {c : Residual F} (h : evaluateAnd x y = .residual c) :
    (∃ ra rb, x = .residual ra ∧ y = .residual rb ∧ c = .and ra rb) ∨
    (x = .residual c ∧ y = .trueV) ∨
    (x = .trueV ∧ y = .residual c) := by
  cases x with
  | trueV =>
      cases y with
      | trueV => simp [evaluateAnd] at h
      | falseV vb => simp [evaluateAnd] at h
      | residual rb =>
          simp only [evaluateAnd, Value.residual.injEq] at h
          exact Or.inr (Or.inr ⟨rfl, by rw [h]⟩)
  | falseV va => cases y <;> simp [evaluateAnd] at h
  | residual ra =>
      cases y with
      | trueV =>
          simp only [evaluateAnd, Value.residual.injEq] at h
          exact Or.inr (Or.inl ⟨by rw [h], rfl⟩)
      | falseV vb => simp [evaluateAnd] at h
      | residual rb =>
          simp only [evaluateAnd, Value.residual.injEq] at h
          exact Or.inl ⟨ra, rb, rfl, rfl, h.symm⟩

theorem InvGdist_step {F : Type} (env : Env F) (α β : Formula F)
    (l r : Residual F) (t : Time) (fuel : Nat) (v' w' : Value F)
    (hinv : InvGdist α β (.residual l) (.residual r))
    (hsl : step env fuel l t = some v')
    (hsr : step env fuel r t = some w') :
    InvGdist α β v' w' := by
  rcases hinv with heq | ⟨a, b, hva, _⟩ |
    ⟨E, L, csL, Lα, csα, Lβ, csβ, hL, hLα, hLβ, ht1, ht2, ht3, hv, hw⟩
  · cases heq
    rw [hsl] at hsr
    exact Or.inl (Option.some.inj hsr)
  · cases hva
  · simp only [Value.residual.injEq] at hv hw
    subst hv
    subst hw
    obtain ⟨vα', vβ', hsα, hsβ, hcomb⟩ := step_and_some env fuel t hsr
    by_cases hE : deadlinePassed E t = true
    · have h1 := alresB_step_deadline env fuel t hL hE hsl
      have h2 := alresB_step_deadline env fuel t hLα hE hsα
      have h3 := alresB_step_deadline env fuel t hLβ hE hsβ
      subst h1
      subst h2
      subst h3
      simp only [evaluateAnd] at hcomb
      exact Or.inl hcomb
    · replace hE : deadlinePassed E t = false := by
        cases hdp : deadlinePassed E t with
        | true => exact absurd hdp hE
        | false => rfl
      obtain ⟨uχ, huχ, hdefL, hntL, hiffL, hresL⟩ :=
        alresB_step env fuel t hL hE hsl
      obtain ⟨uα, huα, hdefα, hntα, hiffα, hresα⟩ :=
        alresB_step env fuel t hLα hE hsα
      obtain ⟨uβ, huβ, hdefβ, hntβ, hiffβ, hresβ⟩ :=
        alresB_step env fuel t hLβ hE hsβ
      cases fuel with
      | zero => simp [evaluate] at huχ
      | succ m =>
          have huχ2 : evaluateAnd uα uβ = uχ := by
            simp only [evaluate] at huχ
            cases hu1 : evaluate env m α t with
            | none => rw [hu1] at huχ; simp at huχ
            | some u1 =>
                cases hu2 : evaluate env m β t with
                | none => rw [hu1, hu2] at huχ; simp at huχ
                | some u2 =>
                    rw [hu1, hu2] at huχ
                    simp only [Option.some.injEq] at huχ
                    rw [evaluate_agree env m α t (m + 1) u1 uα hu1 huα,
                      evaluate_agree env m β t (m + 1) u2 uβ hu2 huβ]
                      at huχ
                    exact huχ
          cases v' with
          | trueV => exact absurd rfl hntL
          | falseV v0 =>
              have hwF : ∃ v1, w' = .falseV v1 := by
                rw [← hcomb]
                refine evaluateAnd_eq_falseV.mpr ?_
                rcases hiffL.mp ⟨v0, rfl⟩ with ⟨v1, hχF⟩ |
                  ⟨c, hc, v2, hscF⟩
                · rw [hχF] at huχ2
                  rcases evaluateAnd_eq_falseV.mp ⟨v1, huχ2⟩ with
                    ⟨va, hva⟩ | ⟨vb, hvb⟩
                  · exact Or.inl (hiffα.mpr (Or.inl ⟨va, hva⟩))
                  · exact Or.inr (hiffβ.mpr (Or.inl ⟨vb, hvb⟩))
                · rcases ht1 c hc with ⟨a, ha, b, hb, rfl⟩ | hcα |
                    hcβ | rfl
                  · obtain ⟨sa, sb, hsa, hsb, hsab⟩ :=
                      step_and_some env (m + 1) t hscF
                    rcases evaluateAnd_eq_falseV.mp ⟨v2, hsab⟩ with
                      ⟨va, hva⟩ | ⟨vb, hvb⟩
                    · rw [hva] at hsa
                      exact Or.inl
                        (hiffα.mpr (Or.inr ⟨a, ha, va, hsa⟩))
                    · rw [hvb] at hsb
                      exact Or.inr
                        (hiffβ.mpr (Or.inr ⟨b, hb, vb, hsb⟩))
                  · exact Or.inl (hiffα.mpr (Or.inr ⟨c, hcα, v2, hscF⟩))
                  · exact Or.inr (hiffβ.mpr (Or.inr ⟨c, hcβ, v2, hscF⟩))
                  · simp [step] at hscF
              obtain ⟨v1, hv1⟩ := hwF
              exact Or.inr (Or.inl ⟨v0, v1, rfl, hv1⟩)
          | residual L' =>
              obtain ⟨csL', hfamL, hmemL, htruL, hrχL, hsubL⟩ :=
                hresL L' rfl
              cases vα' with
              | trueV => exact absurd rfl hntα
              | falseV v0 =>
                  refine absurd (hiffL.mpr ?_) (by simp)
                  rcases hiffα.mp ⟨v0, rfl⟩ with ⟨v1, hαF⟩ |
                    ⟨a, ha, v2, hsaF⟩
                  · obtain ⟨v2, hv2⟩ := (@evaluateAnd_eq_falseV F uα
                      uβ).mpr (Or.inl ⟨v1, hαF⟩)
                    rw [huχ2] at hv2
                    exact Or.inl ⟨v2, hv2⟩
                  · rcases ht2 a ha with rfl | ⟨c, hc, hshape⟩
                    · simp [step] at hsaF
                    rcases hshape with rfl | ⟨b, rfl⟩
                    · exact Or.inr ⟨c, hc, v2, hsaF⟩
                    · obtain ⟨vc, hvc⟩ := hdefL _ hc
                      obtain ⟨sa, sb, hsa, hsb, hsab⟩ :=
                        step_and_some env (m + 1) t hvc
                      rw [hsaF] at hsa
                      obtain ⟨v3, hv3⟩ := (@evaluateAnd_eq_falseV F sa
                        sb).mpr (Or.inl ⟨v2, Option.some.inj hsa.symm⟩)
                      rw [hsab] at hv3
                      rw [hv3] at hvc
                      exact Or.inr ⟨_, hc, v3, hvc⟩
              | residual Lα' =>
                  cases vβ' with
                  | trueV => exact absurd rfl hntβ
                  | falseV v0 =>
                      refine absurd (hiffL.mpr ?_) (by simp)
                      rcases hiffβ.mp ⟨v0, rfl⟩ with ⟨v1, hβF⟩ |
                        ⟨b, hb, v2, hsbF⟩
                      · obtain ⟨v2, hv2⟩ := (@evaluateAnd_eq_falseV F uα
                          uβ).mpr (Or.inr ⟨v1, hβF⟩)
                        rw [huχ2] at hv2
                        exact Or.inl ⟨v2, hv2⟩
                      · rcases ht3 b hb with rfl | ⟨c, hc, hshape⟩
                        · simp [step] at hsbF
                        rcases hshape with rfl | ⟨a, rfl⟩
                        · exact Or.inr ⟨c, hc, v2, hsbF⟩
                        · obtain ⟨vc, hvc⟩ := hdefL _ hc
                          obtain ⟨sa, sb, hsa, hsb, hsab⟩ :=
                            step_and_some env (m + 1) t hvc
                          rw [hsbF] at hsb
                          obtain ⟨v3, hv3⟩ := (@evaluateAnd_eq_falseV F sa
                            sb).mpr (Or.inr ⟨v2, Option.some.inj hsb.symm⟩)
                          rw [hsab] at hv3
                          rw [hv3] at hvc
                          exact Or.inr ⟨_, hc, v3, hvc⟩
                  | residual Lβ' =>
                      obtain ⟨csα', hfamα, hmemα, htruα, hrχα, hsubα⟩ :=
                        hresα Lα' rfl
                      obtain ⟨csβ', hfamβ, hmemβ, htruβ, hrχβ, hsubβ⟩ :=
                        hresβ Lβ' rfl
                      simp only [evaluateAnd] at hcomb
                      refine Or.inr (Or.inr ⟨E, L', csL', Lα', csα',
                        Lβ', csβ', hfamL, hfamα, hfamβ, ?_, ?_, ?_,
                        rfl, hcomb.symm⟩)
                      · -- t1 preservation
                        intro c' hc'
                        rcases hsubL c' hc' with ⟨c, hc, hscRes⟩ |
                          ⟨rfl, c, hc, hscT⟩ | hfresh
                        · rcases ht1 c hc with ⟨a, ha, b, hb, rfl⟩ |
                            hcα | hcβ | rfl
                          · obtain ⟨sa, sb, hsa, hsb, hsab⟩ :=
                              step_and_some env (m + 1) t hscRes
                            rcases evaluateAnd_eq_residual hsab with
                              ⟨ra, rb, hra, hrb, rfl⟩ |
                              ⟨hra, hrb⟩ | ⟨hra, hrb⟩
                            · rw [hra] at hsa
                              rw [hrb] at hsb
                              exact Or.inl ⟨ra, hmemα a ra ha hsa, rb,
                                hmemβ b rb hb hsb, rfl⟩
                            · rw [hra] at hsa
                              exact Or.inr (Or.inl (hmemα a c' ha hsa))
                            · rw [hrb] at hsb
                              exact Or.inr (Or.inr
                                (Or.inl (hmemβ b c' hb hsb)))
                          · exact Or.inr (Or.inl (hmemα c c' hcα hscRes))
                          · exact Or.inr (Or.inr
                              (Or.inl (hmemβ c c' hcβ hscRes)))
                          · simp [step] at hscRes
                        · exact Or.inr (Or.inr (Or.inr rfl))
                        · rw [hfresh] at huχ2
                          rcases evaluateAnd_eq_residual huχ2 with
                            ⟨ra, rb, hra, hrb, rfl⟩ |
                            ⟨hra, hrb⟩ | ⟨hra, hrb⟩
                          · exact Or.inl ⟨ra, hrχα ra hra, rb,
                              hrχβ rb hrb, rfl⟩
                          · exact Or.inr (Or.inl (hrχα c' hra))
                          · exact Or.inr (Or.inr (Or.inl (hrχβ c' hrb)))
                      · -- t2 preservation
                        intro a' ha'
                        rcases hsubα a' ha' with ⟨a, ha, hsaRes⟩ |
                          ⟨rfl, a, ha, hsaT⟩ | hfresh
                        · rcases ht2 a ha with rfl | ⟨c, hc, hshape⟩
                          · simp [step] at hsaRes
                          rcases hshape with rfl | ⟨b, rfl⟩
                          · exact Or.inr ⟨a', hmemL c a' hc hsaRes,
                              Or.inl rfl⟩
                          · obtain ⟨vc, hvc⟩ := hdefL _ hc
                            obtain ⟨sa, sb, hsa, hsb, hsab⟩ :=
                              step_and_some env (m + 1) t hvc
                            rw [hsaRes] at hsa
                            have hsa2 : sa = .residual a' :=
                              Option.some.inj hsa.symm
                            subst hsa2
                            cases sb with
                            | trueV =>
                                have : vc = .residual a' := by
                                  rw [← hsab]; rfl
                                rw [this] at hvc
                                exact Or.inr ⟨a', hmemL _ a' hc hvc,
                                  Or.inl rfl⟩
                            | falseV vb0 =>
                                exfalso
                                have : vc = .falseV vb0 := by
                                  rw [← hsab]; rfl
                                rw [this] at hvc
                                exact absurd
                                  (hiffL.mpr (Or.inr ⟨_, hc, vb0, hvc⟩))
                                  (by simp)
                            | residual b'' =>
                                have : vc = .residual (.and a' b'') := by
                                  rw [← hsab]; rfl
                                rw [this] at hvc
                                exact Or.inr ⟨.and a' b'',
                                  hmemL _ _ hc hvc, Or.inr ⟨b'', rfl⟩⟩
                        · exact Or.inl rfl
                        · rw [hfresh] at huχ2
                          cases uβ with
                          | trueV =>
                              have : uχ = .residual a' := by
                                rw [← huχ2]; rfl
                              exact Or.inr ⟨a', hrχL a' this,
                                Or.inl rfl⟩
                          | falseV vb0 =>
                              exfalso
                              have : uχ = .falseV vb0 := by
                                rw [← huχ2]; rfl
                              exact absurd
                                (hiffL.mpr (Or.inl ⟨vb0, this⟩))
                                (by simp)
                          | residual rb =>
                              have : uχ = .residual (.and a' rb) := by
                                rw [← huχ2]; rfl
                              exact Or.inr ⟨.and a' rb, hrχL _ this,
                                Or.inr ⟨rb, rfl⟩⟩
                      · -- t3 preservation
                        intro b' hb'
                        rcases hsubβ b' hb' with ⟨b, hb, hsbRes⟩ |
                          ⟨rfl, b, hb, hsbT⟩ | hfresh
                        · rcases ht3 b hb with rfl | ⟨c, hc, hshape⟩
                          · simp [step] at hsbRes
                          rcases hshape with rfl | ⟨a, rfl⟩
                          · exact Or.inr ⟨b', hmemL c b' hc hsbRes,
                              Or.inl rfl⟩
                          · obtain ⟨vc, hvc⟩ := hdefL _ hc
                            obtain ⟨sa, sb, hsa, hsb, hsab⟩ :=
                              step_and_some env (m + 1) t hvc
                            rw [hsbRes] at hsb
                            have hsb2 : sb = .residual b' :=
                              Option.some.inj hsb.symm
                            subst hsb2
                            cases sa with
                            | trueV =>
                                have : vc = .residual b' := by
                                  rw [← hsab]; rfl
                                rw [this] at hvc
                                exact Or.inr ⟨b', hmemL _ b' hc hvc,
                                  Or.inl rfl⟩
                            | falseV va0 =>
                                exfalso
                                have : vc = .falseV va0 := by
                                  rw [← hsab]; rfl
                                rw [this] at hvc
                                exact absurd
                                  (hiffL.mpr (Or.inr ⟨_, hc, va0, hvc⟩))
                                  (by simp)
                            | residual a'' =>
                                have : vc = .residual (.and a'' b') := by
                                  rw [← hsab]; rfl
                                rw [this] at hvc
                                exact Or.inr ⟨.and a'' b',
                                  hmemL _ _ hc hvc, Or.inr ⟨a'', rfl⟩⟩
                        · exact Or.inl rfl
                        · rw [hfresh] at huχ2
                          cases uα with
                          | trueV =>
                              have : uχ = .residual b' := by
                                rw [← huχ2]; rfl
                              exact Or.inr ⟨b', hrχL b' this,
                                Or.inl rfl⟩
                          | falseV va0 =>
                              exfalso
                              have : uχ = .falseV va0 := by
                                rw [← huχ2]; rfl
                              exact absurd
                                (hiffL.mpr (Or.inl ⟨va0, this⟩))
                                (by simp)
                          | residual ra =>
                              have : uχ = .residual (.and ra b') := by
                                rw [← huχ2]; rfl
                              exact Or.inr ⟨.and ra b', hrχL _ this,
                                Or.inr ⟨ra, rfl⟩⟩

theorem always_and_distributes {F : Type} (env : Env F) (fuel : Nat)
    (φ ψ : Syn F) (b : Option Dur) (t0 : Time) (ticks : List Time)
    (vl vr : Value F) (tf : Time)
    (hrun : runPair env fuel (Syn.nnf (.always (.and φ ψ) b))
      (Syn.nnf (.and (.always φ b) (.always ψ b))) t0 ticks =
      some (vl, vr, tf)) :
    valuesEqUpToViolations vl vr tf = true := by
  simp only [runPair, Syn.nnf, nnfGo, Bool.false_eq_true, if_false] at hrun
  cases hv0 : evaluate env fuel
      (Formula.always (.and (nnfGo φ false) (nnfGo ψ false)) b) t0 with
  | none => rw [hv0] at hrun; simp at hrun
  | some v0 =>
      cases hw0 : evaluate env fuel
          (Formula.and (.always (nnfGo φ false) b)
            (.always (nnfGo ψ false) b)) t0 with
      | none => rw [hv0, hw0] at hrun; simp at hrun
      | some w0 =>
          rw [hv0, hw0] at hrun
          simp only at hrun
          refine runPairGo_valuesEq env
            (fun _ => InvGdist (nnfGo φ false) (nnfGo ψ false))
            (fun _ => InvGdist_cmp _ _)
            (fun _ l r t fuel' v' w' hinv hsl hsr =>
              InvGdist_step env _ _ l r t fuel' v' w' hinv hsl hsr)
            ticks fuel v0 w0 t0 vl vr tf ?_ hrun
          cases fuel with
          | zero => simp [evaluate] at hv0
          | succ m =>
          cases m with
          | zero =>
              simp [evaluate, deadline_birth, evaluate] at hv0
          | succ k =>
              simp only [evaluate, deadline_birth, Bool.false_eq_true,
                if_false] at hv0 hw0
              cases hua : evaluate env k (nnfGo φ false) t0 with
              | none => rw [hua] at hv0; simp [evaluate] at hv0 hw0
              | some ua =>
                  cases hub : evaluate env k (nnfGo ψ false) t0 with
                  | none =>
                      simp only [evaluate, hua, hub] at hv0
                      simp at hv0
                  | some ub =>
                      simp only [evaluate, hua, hub,
                        deadline_birth, Bool.false_eq_true,
                        if_false] at hv0 hw0
                      simp only [Option.some.injEq] at hv0 hw0
                      cases ua with
                      | trueV =>
                          cases ub with
                          | trueV =>
                              simp only [evaluateAnd, alwaysCombine]
                                at hv0 hw0
                              refine Or.inr (Or.inr
                                ⟨b.map (fun d => t0 + d), _, [], _, [],
                                 _, [], IsAlResB.base t0,
                                 IsAlResB.base t0, IsAlResB.base t0,
                                 ?_, ?_, ?_, hv0.symm, hw0.symm⟩)
                              · intro c hc; cases hc
                              · intro a ha; cases ha
                              · intro b2 hb2; cases hb2
                          | falseV vb =>
                              simp only [evaluateAnd, alwaysCombine]
                                at hv0 hw0
                              exact Or.inr (Or.inl
                                ⟨_, _, hv0.symm, hw0.symm⟩)
                          | residual rb =>
                              simp only [evaluateAnd, alwaysCombine]
                                at hv0 hw0
                              refine Or.inr (Or.inr
                                ⟨b.map (fun d => t0 + d), _, [rb], _, [],
                                 _, [rb],
                                 IsAlResB.node t0 rb _ []
                                   (IsAlResB.base t0),
                                 IsAlResB.base t0,
                                 IsAlResB.node t0 rb _ []
                                   (IsAlResB.base t0),
                                 ?_, ?_, ?_, hv0.symm, hw0.symm⟩)
                              · intro c hc
                                rcases List.mem_singleton.mp hc with rfl
                                exact Or.inr (Or.inr (Or.inl
                                  (List.mem_singleton.mpr rfl)))
                              · intro a ha; cases ha
                              · intro b2 hb2
                                rcases List.mem_singleton.mp hb2 with rfl
                                exact Or.inr ⟨b2,
                                  List.mem_singleton.mpr rfl,
                                  Or.inl rfl⟩
                      | falseV va =>
                          cases ub with
                          | trueV =>
                              simp only [evaluateAnd, alwaysCombine]
                                at hv0 hw0
                              exact Or.inr (Or.inl
                                ⟨_, _, hv0.symm, hw0.symm⟩)
                          | falseV vb =>
                              simp only [evaluateAnd, alwaysCombine]
                                at hv0 hw0
                              exact Or.inr (Or.inl
                                ⟨_, _, hv0.symm, hw0.symm⟩)
                          | residual rb =>
                              simp only [evaluateAnd, alwaysCombine]
                                at hv0 hw0
                              exact Or.inr (Or.inl
                                ⟨_, _, hv0.symm, hw0.symm⟩)
                      | residual ra =>
                          cases ub with
                          | trueV =>
                              simp only [evaluateAnd, alwaysCombine]
                                at hv0 hw0
                              refine Or.inr (Or.inr
                                ⟨b.map (fun d => t0 + d), _, [ra], _,
                                 [ra], _, [],
                                 IsAlResB.node t0 ra _ []
                                   (IsAlResB.base t0),
                                 IsAlResB.node t0 ra _ []
                                   (IsAlResB.base t0),
                                 IsAlResB.base t0,
                                 ?_, ?_, ?_, hv0.symm, hw0.symm⟩)
                              · intro c hc
                                rcases List.mem_singleton.mp hc with rfl
                                exact Or.inr (Or.inl
                                  (List.mem_singleton.mpr rfl))
                              · intro a ha
                                rcases List.mem_singleton.mp ha with rfl
                                exact Or.inr ⟨a,
                                  List.mem_singleton.mpr rfl,
                                  Or.inl rfl⟩
                              · intro b2 hb2; cases hb2
                          | falseV vb =>
                              simp only [evaluateAnd, alwaysCombine]
                                at hv0 hw0
                              exact Or.inr (Or.inl
                                ⟨_, _, hv0.symm, hw0.symm⟩)
                          | residual rb =>
                              simp only [evaluateAnd, alwaysCombine]
                                at hv0 hw0
                              refine Or.inr (Or.inr
                                ⟨b.map (fun d => t0 + d), _,
                                 [.and ra rb], _, [ra], _, [rb],
                                 IsAlResB.node t0 (.and ra rb) _ []
                                   (IsAlResB.base t0),
                                 IsAlResB.node t0 ra _ []
                                   (IsAlResB.base t0),
                                 IsAlResB.node t0 rb _ []
                                   (IsAlResB.base t0),
                                 ?_, ?_, ?_, hv0.symm, hw0.symm⟩)
                              · intro c hc
                                rcases List.mem_singleton.mp hc with rfl
                                exact Or.inl ⟨ra,
                                  List.mem_singleton.mpr rfl, rb,
                                  List.mem_singleton.mpr rfl, rfl⟩
                              · intro a ha
                                rcases List.mem_singleton.mp ha with rfl
                                exact Or.inr ⟨.and a rb,
                                  List.mem_singleton.mpr rfl,
                                  Or.inr ⟨rb, rfl⟩⟩
                              · intro b2 hb2
                                rcases List.mem_singleton.mp hb2 with rfl
                                exact Or.inr ⟨.and ra b2,
                                  List.mem_singleton.mpr rfl,
                                  Or.inr ⟨ra, rfl⟩⟩

/-! ## Browser session state machine (`src/browser.rs`) -/

/-- Console entries are buffered opaquely by the state machine (it never
inspects their fields), so they are modelled as bare tokens. -/
abbrev ConsoleEntry := Nat

/-- Browser actions are carried opaquely through the state machine. -/
abbrev BrowserAction := Nat

/-- A JSON value, as much of `serde_json::Value` as the `Paused` branch
of `process_event` inspects. -/
inductive Json where
  | null
  | boolJ (b : Bool)
  | num (n : Int)
  | str (s : String)
  | obj (fields : List (String × Json))
deriving Repr

/-- Field lookup on a JSON object's field list, modelling
`serde_json::Map::get`. -/
def Json.get (fields : List (String × Json)) (key : String) : Option Json :=
  fields.lookup key

/-- `debugger::PausedReason` of the debug protocol. -/
inductive PausedReason where
  | ambiguous
  | assert
  | cspViolation
  | debugCommand
  | dom
  | eventListener
  | exception
  | instrumentation
  | oom
  | other
  | promiseRejection
  | xhr
deriving Repr, DecidableEq

/-- `Exception` from `src/browser/state.rs` as `process_event` builds
it. -/
inductive Exception where
  | uncaughtException (value : Json)
  | unhandledPromiseRejection (value : Json)
deriving Repr

/-- `page::NavigationType` of the debug protocol (the variants
`process_event` distinguishes). -/
inductive NavigationType where
  | navigation
  | backForwardCacheRestore
deriving Repr, DecidableEq

/-- `NodeModification` from `src/browser.rs`. -/
inductive NodeModification where
  | childNodeInserted (parent : Nat) (child : Nat)
  | childNodeCountUpdated (parent : Nat) (count : Nat)
  | childNodeRemoved (parent : Nat) (child : Nat)
  | attributeModified (node : Nat) (name : String) (value : String)
deriving Repr

/-- `InnerEvent` from `src/browser.rs`.  Note that `StateRequested`
carries no data at all: the machine has no generation counter. -/
inductive InnerEvent where
  | stateRequested
  | loaded
  | paused (reason : PausedReason) (exception : Option Json)
      (callFrameId : Option Nat)
  | resumed
  | frameRequestedNavigation (frame : Nat) (reason : String) (url : String)
  | frameNavigated (frame : Nat) (navigationType : NavigationType)
  | targetDestroyed (target : Nat)
  | nodeTreeModified (modification : NodeModification)
  | consoleEntry (entry : ConsoleEntry)
  | actionApplied (action : BrowserAction)
deriving Repr

/-- `InnerState` from `src/browser.rs`: the six states of the session
state machine. -/
inductive InnerState where
  | pausing (consoleEntries : List ConsoleEntry)
  | paused
  | resuming (action : BrowserAction)
  | navigating
  | loading (consoleEntries : List ConsoleEntry)
  | running (consoleEntries : List ConsoleEntry)
deriving Repr

/-- The context fields of `BrowserContext` that `process_event`
compares events against. -/
structure BrowserContext where
  frameId : Nat
  pageTargetId : Nat
deriving Repr

/-- The externally visible actions `process_event` performs, in program
order: protocol commands it issues, events it publishes, tasks it
spawns. -/
inductive Effect where
  | requestChildNodes (parent : Nat)
  | spawnPause
  | captureState (callFrameId : Nat)
      (consoleEntries : List ConsoleEntry) (exception : Option Exception)
  | sendStateChanged
  | executeResume
  | spawnApplyAction (action : BrowserAction)
  | sendStateRequested
  | getDocument
deriving Repr

/-- The console entries each state hands to a `Paused` or `Loaded`
transition (the `match &state` blocks in `process_event`). -/
def bufferedConsoleEntries : InnerState → List ConsoleEntry
  | .pausing consoleEntries => consoleEntries
  | .paused => []
  | .resuming _ => []
  | .navigating => []
  | .loading consoleEntries => consoleEntries
  | .running consoleEntries => consoleEntries

/-- `handle_node_modification` from `src/browser.rs`: child-node
expansion is requested on insertions and count updates only. -/
def nodeModificationEffects : NodeModification → List Effect
  | .childNodeInserted parent _ => [.requestChildNodes parent]
  | .childNodeCountUpdated parent _ => [.requestChildNodes parent]
  | .childNodeRemoved _ _ => []
  | .attributeModified _ _ _ => []

/-- The `match reason` block of `process_event`'s `Paused` arm:
extract the exception payload, failing on unexpected shapes and on any
reason other than `Exception`, `PromiseRejection` or `Other`. -/
def extractException (reason : PausedReason) (exception : Option Json) :
    Except String (Option Exception) :=
  match reason with
  | .exception =>
      match exception with
      | some (.obj fields) =>
          .ok (some (.uncaughtException
            ((Json.get fields "description").getD (.obj fields))))
      | _ => .error "unexpected exception data"
  | .promiseRejection =>
      match exception with
      | some (.obj fields) =>
          .ok (some (.unhandledPromiseRejection
            (((Json.get fields "value").orElse
                (fun _ => Json.get fields "description")).getD
              (.obj fields))))
      | _ => .error "unexpected promise rejection data"
  | .other => .ok none
  | _ => .error "unexpected pause reason"

/-- `process_event` from `src/browser.rs`.  The match arms appear in
source order (first match wins); an `Except.error` models the `bail!`
paths, which make the state-machine task post a single `Error` event
and terminate. -/
def process_event (context : BrowserContext) (state : InnerState)
    (event : InnerEvent) : Except String (InnerState × List Effect) :=
  match state, event with
  | .running consoleEntries, .stateRequested =>
      .ok (.pausing consoleEntries, [.spawnPause])
  | .running consoleEntries, .nodeTreeModified modification =>
      .ok (.pausing consoleEntries,
        nodeModificationEffects modification ++ [.spawnPause])
  | state, .stateRequested => .ok (state, [])
  | state, .nodeTreeModified modification =>
      .ok (state, nodeModificationEffects modification)
  | state, .paused reason exception callFrameId =>
      let consoleEntries := bufferedConsoleEntries state
      match extractException reason exception with
      | .error e => .error e
      | .ok exc =>
          match callFrameId with
          | none => .error "no call frame id at breakpoint"
          | some callFrame =>
              .ok (.paused,
                [.captureState callFrame consoleEntries exc,
                 .sendStateChanged])
  | .paused, .actionApplied action =>
      .ok (.resuming action, [.executeResume])
  | .running _, .resumed => .ok (.running [], [])
  | .resuming action, .resumed =>
      .ok (.running [], [.spawnApplyAction action])
  | state, .loaded =>
      .ok (.running (bufferedConsoleEntries state), [.sendStateRequested])
  | state, .frameRequestedNavigation frame _ _ =>
      if frame = context.frameId then .ok (.navigating, [])
      else .ok (state, [])
  | .loading consoleEntries, .consoleEntry entry =>
      .ok (.loading (consoleEntries ++ [entry]), [])
  | .running consoleEntries, .consoleEntry entry =>
      .ok (.running (consoleEntries ++ [entry]), [])
  | .pausing consoleEntries, .consoleEntry entry =>
      .ok (.pausing (consoleEntries ++ [entry]), [])
  | .navigating, .consoleEntry _ => .ok (.navigating, [])
  | state, .frameNavigated frame navigationType =>
      if frame = context.frameId then
        match navigationType with
        | .navigation => .ok (.loading [], [.getDocument])
        | .backForwardCacheRestore =>
            .ok (.running [], [.getDocument, .sendStateRequested])
      else .ok (state, [])
  | state, .targetDestroyed target =>
      if target = context.pageTargetId then
        .error "page target was destroyed"
      else .ok (state, [])
  | _, _ => .error "unhandled transition"

/-! ## Navigation history slicing (`src/browser/state.rs`) -/

/-- `NavigationEntry` from `src/browser/state.rs`. -/
structure NavigationEntry where
  id : Nat
  title : String
  url : String
deriving Repr, DecidableEq

/-- `NavigationHistory` from `src/browser/state.rs`. -/
structure NavigationHistory where
  back : List NavigationEntry
  current : NavigationEntry
  forward : List NavigationEntry
deriving Repr, DecidableEq

/-- The navigation-history construction in `BrowserState::current`
(`src/browser/state.rs`): `back = entries[0..index]`,
`current = entries[index]`, `forward = entries[index..]`. -/
def navigationHistoryOf (entries : List NavigationEntry) (index : Nat)
    (h : index < entries.length) : NavigationHistory :=
  { back := entries.take index
    current := entries.get ⟨index, h⟩
    forward := entries.drop index }

/-! ## AFL-style bucketing and coverage delta (`src/browser/state.rs`,
`src/runner.rs`) -/

/-- The `msb` loop of the in-page `bucket` function: shift right until
zero, counting the shifts.  Fuel-structural; `fuel = n` is always
enough. -/
def bucketMsbGo : Nat → Nat → Nat → Nat
  | 0, _, msb => msb
  | fuel + 1, n, msb =>
      if n = 0 then msb else bucketMsbGo fuel (n / 2) (msb + 1)

/-- The in-page `bucket` function from `BrowserState::current`
(`src/browser/state.rs`): identity up to 3, otherwise
`min(msb + 1, 8)` where `msb` is the bit length of the count. -/
def bucket (hits : Nat) : Nat :=
  if hits ≤ 3 then hits else min (bucketMsbGo hits hits 0 + 1) 8

/-- The coverage-difference computation of the in-page script: bucket
the current hit counts, then report every index whose bucketed value
differs from the previous array. -/
def coverageDelta (edgesCurrent edgesPrevious : List Nat) :
    List (Nat × Nat) :=
  (((edgesCurrent.map bucket).zip edgesPrevious).enum).filterMap
    fun e => if e.2.1 ≠ e.2.2 then some (e.1, e.2.1) else none

/-- The global max-merge of `src/runner.rs`:
`edges[index] = max(edges[index], bucket)` for each reported pair. -/
def updateGlobalEdges (edges : List Nat) (delta : List (Nat × Nat)) :
    List Nat :=
  delta.foldl (fun es e => es.set e.1 (max (es.getD e.1 0) e.2)) edges

/-! ## Script instrumentation error handling (`src/instrumentation/js.rs`,
`src/proxy.rs`, `src/browser.rs`) -/

/-- `InstrumentationError` from `src/instrumentation/js.rs`:
diagnostics are abstracted to strings. -/
inductive InstrumentationError where
  | parseErrors (diagnostics : List String)
  | semanticErrors (diagnostics : List String)
deriving Repr, DecidableEq

/-- The oxc parse and semantic-analysis outcome for one source: the
inputs `instrument_source_code` branches on, with the code it would
emit on success. -/
structure ParseResult where
  panicked : Bool
  errors : List String
  semanticErrors : List String
  instrumentedCode : String
deriving Repr, DecidableEq

/-- The control skeleton of `instrument_source_code` from
`src/instrumentation/js.rs`: a parser panic yields `ParseErrors` with
the parse diagnostics, non-empty semantic errors yield
`SemanticErrors` with those diagnostics, otherwise the instrumented
code. -/
def instrument_source_code (r : ParseResult) :
    Except InstrumentationError String :=
  if r.panicked then .error (.parseErrors r.errors)
  else if r.semanticErrors.isEmpty then .ok r.instrumentedCode
  else .error (.semanticErrors r.semanticErrors)

/-- What `proxy_with_instrumentation` (`src/proxy.rs`) answers the
request with. -/
inductive ProxyBody where
  | original
  | originalBytes
  | instrumented (code : String)
deriving Repr, DecidableEq

/-- The body-selection logic of `proxy_with_instrumentation`
(`src/proxy.rs`, lines 241–279): `node_modules` paths and
non-JavaScript content types pass the body through; JavaScript bodies
are instrumented, falling back to the collected original bytes when
instrumentation fails; a non-UTF-8 body or a missing `content-length`
header aborts the handler with an error instead. -/
def proxyBodySelection (pathHasNodeModules contentTypeJs utf8Ok
    hasContentLength : Bool) (r : ParseResult) :
    Except String ProxyBody :=
  if pathHasNodeModules then .ok .original
  else if contentTypeJs then
    if utf8Ok then
      match instrument_source_code r with
      | .ok code =>
          if hasContentLength then .ok (.instrumented code)
          else .error "no content-length"
      | .error _ => .ok .originalBytes
    else .error "from_utf8"
  else .ok .original

/-- How the fetch interceptor of `instrument_coverage`
(`src/browser.rs`) answers an intercepted script response. -/
inductive InterceptOutcome where
  | continuedOriginal
  | fulfilledInstrumented (code : String)
  | failed (error : InstrumentationError)
deriving Repr, DecidableEq

/-- The `intercept` closure of `instrument_coverage`
(`src/browser.rs`): a non-200 upstream status is continued unchanged;
otherwise the body is instrumented and the request fulfilled with the
instrumented code — an instrumentation error propagates out of
`intercept`, where the event loop only logs it, leaving the paused
request unanswered. -/
def intercept (responseStatus : Option Nat) (r : ParseResult) :
    InterceptOutcome :=
  match responseStatus with
  | some status =>
      if status ≠ 200 then .continuedOriginal
      else
        match instrument_source_code r with
        | .ok code => .fulfilledInstrumented code
        | .error e => .failed e
  | none =>
      match instrument_source_code r with
      | .ok code => .fulfilledInstrumented code
      | .error e => .failed e

/-! ## HTML inline-script instrumentation
(`src/instrumentation/html.rs`, `src/instrumentation/source_id.rs`) -/

/-- `SourceId` from `src/instrumentation/source_id.rs`, over an
abstract pair hash standing for `DefaultHasher`. -/
structure SourceId where
  val : Nat
deriving Repr, DecidableEq

/-- `SourceId::add`: hash-chain the id with an input. -/
def SourceId.add (hashPair : Nat → Nat → Nat) (s : SourceId)
    (input : Nat) : SourceId :=
  ⟨hashPair s.val input⟩

/-- One `<script>` element as the DOM walk of
`transform_inline_scripts` sees it: its `src` and `type` attributes
(the `type` defaulting to the empty string) and its text children. -/
structure ScriptElement where
  src : Option String
  typeAttr : String
  texts : List String
deriving Repr, DecidableEq

/-- The `is_inline_javascript` test of `transform_inline_scripts`
(`src/instrumentation/html.rs`): no `src` attribute and a `type` that
is empty or `text/javascript`.  `module` is not included. -/
def is_inline_javascript (s : ScriptElement) : Bool :=
  s.src == none && (s.typeAttr == "" || s.typeAttr == "text/javascript")

/-- Instrument the text children of one inline script, threading the
document-wide text-node counter `scripts_count`: each text node is
rewritten with `source_id.add(scripts_count)` and the counter is
incremented per text node. -/
def instrumentTexts (hashPair : Nat → Nat → Nat)
    (instr : SourceId → String → String) (sourceId : SourceId) :
    List String → Nat → List String × Nat
  | [], count => ([], count)
  | text :: rest, count =>
      let r := instrumentTexts hashPair instr sourceId rest (count + 1)
      (instr (sourceId.add hashPair count) text :: r.1, r.2)

/-- `transform_inline_scripts` from `src/instrumentation/html.rs` over
the flattened list of script elements: rewrite the text children of
inline-JavaScript scripts with chained per-text ids, pass every other
script element through untouched. -/
def transform_inline_scripts (hashPair : Nat → Nat → Nat)
    (instr : SourceId → String → String) (sourceId : SourceId) :
    List ScriptElement → Nat → List ScriptElement
  | [], _ => []
  | s :: rest, count =>
      if is_inline_javascript s then
        let r := instrumentTexts hashPair instr sourceId s.texts count
        { s with texts := r.1 } ::
          transform_inline_scripts hashPair instr sourceId rest r.2
      else
        s :: transform_inline_scripts hashPair instr sourceId rest count

/-! ## Bounded-window Eventually runs over definitive subformulas -/

theorem runFrom_trueV {F : Type} (env : Env F) (fuel : Nat)
    (ticks : List Time) :
    runFrom env fuel (.trueV : Value F) ticks = some .trueV := by
  cases ticks <;> rfl

theorem runFrom_falseV {F : Type} (env : Env F) (fuel : Nat)
    (v : Violation F) (ticks : List Time) :
    runFrom env fuel (.falseV v) ticks = some (.falseV v) := by
  cases ticks <;> rfl

/-- Driving a bounded Eventually monitor whose subformula always
evaluates definitively walks exactly `evExpectedRun`. -/
theorem evDefRun {F : Type} (env : Env F) (fuel n0 : Nat)
    (φ : Formula F) (p : Time → Bool) (viol : Time → Violation F)
    (hφ : ∀ n t, n0 ≤ n → evaluate env n φ t =
      some (if p t then Value.trueV else .falseV (viol t)))
    (hfuel : n0 ≤ fuel) (start E : Time) :
    ∀ ticks : List Time,
      runFrom env fuel
        (.residual (eventuallyResidual φ start (some E))) ticks =
      some (evExpectedRun φ start E p ticks) := by
  intro ticks
  induction ticks with
  | nil => rfl
  | cons t rest ih =>
      by_cases hE : E < t
      · have hstep : step env fuel (eventuallyResidual φ start (some E)) t
            = some (.falseV (.eventually φ (.timedOut t))) := by
          simp [eventuallyResidual, step, evaluateEventually,
            deadlinePassed, hE]
        simp only [runFrom, hstep, runFrom_falseV, evExpectedRun,
          if_pos hE]
      · by_cases hp : p t = true
        · have hstep :
              step env fuel (eventuallyResidual φ start (some E)) t =
                some .trueV := by
            simp [eventuallyResidual, step, evaluateEventually,
              deadlinePassed, hE, hφ fuel t hfuel, hp, eventuallyCombine]
          simp only [runFrom, hstep, runFrom_trueV, evExpectedRun,
            if_neg hE, hp, if_true]
        · replace hp : p t = false := by
            cases hpt : p t with
            | true => exact absurd hpt hp
            | false => rfl
          have hstep :
              step env fuel (eventuallyResidual φ start (some E)) t =
                some (.residual (eventuallyResidual φ start (some E))) := by
            simp [eventuallyResidual, step, evaluateEventually,
              deadlinePassed, hE, hφ fuel t hfuel, hp, eventuallyCombine]
          simp only [runFrom, hstep]
          rw [ih]
          simp only [evExpectedRun, if_neg hE, hp, Bool.false_eq_true,
            if_false]

/-- Over sorted ticks that reach past the deadline, the expected walk
times out exactly when the subformula never held inside the window. -/
theorem evExpectedRun_timedOut {F : Type} (φ : Formula F)
    (start E : Time) (p : Time → Bool) :
    ∀ ticks : List Time, List.Pairwise (· ≤ ·) ticks →
      (∃ t ∈ ticks, E < t) →
      ((∃ T, evExpectedRun φ start E p ticks =
          .falseV (.eventually φ (.timedOut T))) ↔
        ∀ t ∈ ticks, t ≤ E → p t = false) := by
  intro ticks
  induction ticks with
  | nil =>
      rintro _ ⟨t, ht, _⟩
      cases ht
  | cons t rest ih =>
      intro hsorted hreach
      rcases List.pairwise_cons.mp hsorted with ⟨hle, hsorted2⟩
      by_cases hE : E < t
      · constructor
        · intro _ t2 ht2 hwin
          rcases List.mem_cons.mp ht2 with rfl | ht2
          · exact absurd hE (Nat.not_lt.mpr hwin)
          · exact absurd hE
              (Nat.not_lt.mpr (Nat.le_trans (hle t2 ht2) hwin))
        · intro _
          exact ⟨t, by simp [evExpectedRun, hE]⟩
      · cases hp : p t with
        | true =>
            constructor
            · rintro ⟨T, hT⟩
              simp [evExpectedRun, hE, hp] at hT
            · intro hall
              have := hall t (List.mem_cons_self t rest)
                (Nat.not_lt.mp hE)
              rw [hp] at this
              cases this
        | false =>
            have hreach2 : ∃ t2 ∈ rest, E < t2 := by
              rcases hreach with ⟨t1, ht1, hEt1⟩
              rcases List.mem_cons.mp ht1 with rfl | ht1
              · exact absurd hEt1 hE
              · exact ⟨t1, ht1, hEt1⟩
            have hiff := ih hsorted2 hreach2
            simp only [evExpectedRun, if_neg hE, hp, Bool.false_eq_true,
              if_false]
            constructor
            · intro hT t2 ht2
              rcases List.mem_cons.mp ht2 with rfl | ht2
              · intro _
                exact hp
              · exact hiff.mp hT t2 ht2
            · intro hall
              exact hiff.mpr
                (fun t2 ht2 => hall t2 (List.mem_cons_of_mem t ht2))

/-- The expected walk's only possible residual value is the undecided
Eventually node, whose leaning is `AssumeFalse(TestEnded)`. -/
theorem evExpectedRun_residual {F : Type} (φ : Formula F)
    (start E : Time) (p : Time → Bool) :
    ∀ (ticks : List Time) (r : Residual F),
      evExpectedRun φ start E p ticks = .residual r →
      r = eventuallyResidual φ start (some E) := by
  intro ticks
  induction ticks with
  | nil =>
      intro r hr
      simp only [evExpectedRun, Value.residual.injEq] at hr
      exact hr.symm
  | cons t rest ih =>
      intro r hr
      simp only [evExpectedRun] at hr
      by_cases hE : E < t
      · rw [if_pos hE] at hr
        cases hr
      · rw [if_neg hE] at hr
        cases hp : p t with
        | true =>
            rw [hp, if_pos rfl] at hr
            cases hr
        | false =>
            rw [hp] at hr
            simp only [Bool.false_eq_true, if_false] at hr
            exact ih r hr

/-! ## Claim theorems -/

/-- C1: bounded-window LTL semantics.  Deadlines are strict
(`end < time`); `evaluate_eventually`/`evaluate_always` strictly past
the deadline short-circuit to `False(TimedOut)` / `True`, and so does
stepping the corresponding residual nodes.  For a subformula that
evaluates definitively at every time (a predicate thunk, as written
`p`), a monitor `eventually(φ).within(d)` born at `t0` (deadline
`t0 + d`) and driven through sorted ticks reaching past the deadline
returns `False(TimedOut)` if and only if no evaluation of the
subformula at a step time in `[t0, t0+d]` returned `True`, and while
undecided its value is the residual leaning
`AssumeFalse(Eventually(TestEnded))`.  In particular, with the
extractor producing `0,1,…,9` at 1 ms ticks,
`eventually(() => foo.current === 9).within(3 ms)` born at 0 is that
residual at t = 0, 1, 2, 3 and `False(Eventually::TimedOut)` at
t = 4. -/
theorem claim_C1_bounded_window_semantics :
    (∀ e t : Time, deadlinePassed (some e) t = decide (e < t) ∧
      deadlinePassed none t = false) ∧
    (∀ (F : Type) (env : Env F) (fuel : Nat) (φ : Formula F)
      (start : Time) (endT : Option Time) (time : Time),
      deadlinePassed endT time = true →
      evaluateEventually env fuel φ start endT time =
        some (.falseV (.eventually φ (.timedOut time))) ∧
      evaluateAlways env fuel φ start endT time = some .trueV) ∧
    (∀ (F : Type) (env : Env F) (fuel : Nat) (φ : Formula F)
      (start : Time) (endT : Option Time) (t : Time) (l : Leaning F),
      deadlinePassed endT t = true →
      step env fuel (.derived (.eventually start endT φ) l) t =
        some (.falseV (.eventually φ (.timedOut t))) ∧
      step env fuel (.derived (.always start endT φ) l) t =
        some .trueV) ∧
    (∀ (F : Type) (env : Env F) (n0 fuel : Nat) (φ : Formula F)
      (p : Time → Bool) (viol : Time → Violation F) (d t0 : Time)
      (ticks : List Time) (res : Value F),
      (∀ n t, n0 ≤ n → evaluate env n φ t =
        some (if p t then Value.trueV else .falseV (viol t))) →
      n0 + 1 ≤ fuel →
      List.Pairwise (· ≤ ·) ticks →
      (∃ t ∈ ticks, t0 + d < t) →
      runFormula env fuel (.eventually φ (some d)) t0 ticks =
        some res →
      ((∃ T, res = .falseV (.eventually φ (.timedOut T))) ↔
        (p t0 = false ∧ ∀ t ∈ ticks, t ≤ t0 + d → p t = false)) ∧
      (∀ r, res = .residual r →
        r = .derived (.eventually t0 (some (t0 + d)) φ)
          (.assumeFalse (.eventually φ .testEnded)))) ∧
    (∀ ticks : List Time, ticks = [1] ∨ ticks = [1, 2] ∨
      ticks = [1, 2, 3] →
      runFormula (fun t (_ : Unit) => Syn.pureS (t == 9)
          "foo.current === 9") 6
        (Syn.nnf (.eventually (.thunk ()) (some 3))) 0 ticks =
      some (.residual (.derived
        (.eventually 0 (some 3) (.thunk () false))
        (.assumeFalse (.eventually (.thunk () false) .testEnded))))) ∧
    runFormula (fun t (_ : Unit) => Syn.pureS (t == 9)
        "foo.current === 9") 6
      (Syn.nnf (.eventually (.thunk ()) (some 3))) 0 [1, 2, 3, 4] =
    some (.falseV (.eventually (.thunk () false) (.timedOut 4))) := by
  refine ⟨fun e t => ⟨rfl, rfl⟩, ?_, ?_, ?_, ?_, rfl⟩
  · intro F env fuel φ start endT time h
    exact ⟨by simp [evaluateEventually, h], by simp [evaluateAlways, h]⟩
  · intro F env fuel φ start endT t l h
    exact ⟨by simp [step, evaluateEventually, h],
      by simp [step, evaluateAlways, h]⟩
  · intro F env n0 fuel φ p viol d t0 ticks res hφ hfuel hsorted
      hreach hrun
    cases fuel with
    | zero => exact absurd hfuel (Nat.not_succ_le_zero n0)
    | succ m =>
        have hm : n0 ≤ m := Nat.le_of_succ_le_succ hfuel
        have hdb : deadlinePassed (some (t0 + d)) t0 = false := by
          have : ¬ (t0 + d < t0) :=
            Nat.not_lt.mpr (Nat.le_add_right t0 d)
          simp [deadlinePassed, this]
        simp only [runFormula, evaluate, Option.map_some', hdb,
          Bool.false_eq_true, if_false, hφ m t0 hm] at hrun
        cases hp0 : p t0 with
        | true =>
            rw [hp0] at hrun
            simp only [if_true, eventuallyCombine, runFrom_trueV,
              Option.some.injEq] at hrun
            subst hrun
            refine ⟨⟨?_, ?_⟩, ?_⟩
            · rintro ⟨T, hT⟩
              cases hT
            · rintro ⟨h1, -⟩
              cases h1
            · intro r hr
              cases hr
        | false =>
            rw [hp0] at hrun
            simp only [Bool.false_eq_true, if_false, eventuallyCombine]
              at hrun
            rw [evDefRun env (m + 1) n0 φ p viol hφ
              (Nat.le_succ_of_le hm) t0 (t0 + d) ticks] at hrun
            replace hrun := Option.some.inj hrun
            subst hrun
            refine ⟨?_, ?_⟩
            · rw [evExpectedRun_timedOut φ t0 (t0 + d) p ticks hsorted
                hreach]
              simp
            · intro r hr
              exact evExpectedRun_residual φ t0 (t0 + d) p ticks r hr
  · rintro ticks (rfl | rfl | rfl) <;> rfl

/-- Witness for C1: the hypothesis-bearing conjuncts applied at
concrete inputs — a deadline passed at time 5 with bound 3, and the
spec's extractor scenario driven through ticks `[1, 2, 3, 4]`. -/
theorem claim_C1_bounded_window_semantics_witness :
    (evaluateEventually (fun _ (_ : Unit) => Syn.pureS true "t") 3
        (.pureF true "p") 0 (some 3) 5 =
      some (.falseV (.eventually (.pureF true "p") (.timedOut 5))) ∧
     evaluateAlways (fun _ (_ : Unit) => Syn.pureS true "t") 3
        (.pureF true "p") 0 (some 3) 5 = some .trueV) ∧
    (step (fun _ (_ : Unit) => Syn.pureS true "t") 3
        (.derived (.eventually 0 (some 3) (.pureF true "p"))
          .assumeTrue) 5 =
      some (.falseV (.eventually (.pureF true "p") (.timedOut 5))) ∧
     step (fun _ (_ : Unit) => Syn.pureS true "t") 3
        (.derived (.always 0 (some 3) (.pureF true "p"))
          .assumeTrue) 5 = some .trueV) ∧
    (((∃ T, (Value.falseV (.eventually (.thunk () false)
          (.timedOut 4)) : Value Unit) =
        .falseV (.eventually (.thunk () false) (.timedOut T))) ↔
      ((fun t => t == 9) 0 = false ∧
        ∀ t ∈ [1, 2, 3, 4], t ≤ 0 + 3 →
          (fun t => t == 9) t = false)) ∧
     (∀ r, (Value.falseV (.eventually (.thunk () false)
          (.timedOut 4)) : Value Unit) = .residual r →
        r = .derived (.eventually 0 (some (0 + 3)) (.thunk () false))
          (.assumeFalse (.eventually (.thunk () false) .testEnded)))) ∧
    runFormula (fun t (_ : Unit) => Syn.pureS (t == 9)
        "foo.current === 9") 6
      (Syn.nnf (.eventually (.thunk ()) (some 3))) 0 [1, 2, 3] =
    some (.residual (.derived
      (.eventually 0 (some 3) (.thunk () false))
      (.assumeFalse (.eventually (.thunk () false) .testEnded)))) :=
  ⟨claim_C1_bounded_window_semantics.2.1 Unit
      (fun _ _ => Syn.pureS true "t") 3 (.pureF true "p") 0 (some 3) 5
      rfl,
   claim_C1_bounded_window_semantics.2.2.1 Unit
      (fun _ _ => Syn.pureS true "t") 3 (.pureF true "p") 0 (some 3) 5
      .assumeTrue rfl,
   claim_C1_bounded_window_semantics.2.2.2.1 Unit
      (fun t _ => Syn.pureS (t == 9) "foo.current === 9") 2 6
      (.thunk () false) (fun t => t == 9)
      (fun t => .falseV t "foo.current === 9") 3 0 [1, 2, 3, 4]
      (.falseV (.eventually (.thunk () false) (.timedOut 4)))
      (fun n t hn => by
        cases n with
        | zero => exact absurd hn (by omega)
        | succ k =>
            cases k with
            | zero => exact absurd hn (by omega)
            | succ k2 => rfl)
      (by omega) (by decide) (by decide) rfl,
   claim_C1_bounded_window_semantics.2.2.2.2.1 [1, 2, 3]
      (Or.inr (Or.inr rfl))⟩

/-- C2: the eight LTL algebraic identities hold modulo violation
payloads.  For all subformulas, bounds, birth times and finite
timestamped traces, evaluating and then stepping the NNF of the left
and right sides of `X(φ∨ψ) = Xφ∨Xψ`, `X(φ∧ψ) = Xφ∧Xψ`,
`G(φ∧ψ) = Gφ∧Gψ`, `F(φ∨ψ) = Fφ∨Fψ`, `X¬φ = ¬Xφ`, `G¬φ = ¬Fφ`,
`FFφ = Fφ` and `GGφ = Gφ` through the `check_equivalence` harness
yields the same verdict: both `True`, both `False`, or residuals with
the same `stop_default` collapse — equality ignoring the structure of
violation witnesses. -/
theorem claim_C2_ltl_algebraic_identities :
    (∀ (F : Type) (env : Env F) (fuel : Nat) (φ ψ : Syn F) (t0 : Time)
      (ticks : List Time) (vl vr : Value F) (tf : Time),
      runPair env fuel (Syn.nnf (.next (.or φ ψ)))
        (Syn.nnf (.or (.next φ) (.next ψ))) t0 ticks =
        some (vl, vr, tf) →
      valuesEqUpToViolations vl vr tf = true) ∧
    (∀ (F : Type) (env : Env F) (fuel : Nat) (φ ψ : Syn F) (t0 : Time)
      (ticks : List Time) (vl vr : Value F) (tf : Time),
      runPair env fuel (Syn.nnf (.next (.and φ ψ)))
        (Syn.nnf (.and (.next φ) (.next ψ))) t0 ticks =
        some (vl, vr, tf) →
      valuesEqUpToViolations vl vr tf = true) ∧
    (∀ (F : Type) (env : Env F) (fuel : Nat) (φ ψ : Syn F)
      (b : Option Dur) (t0 : Time) (ticks : List Time)
      (vl vr : Value F) (tf : Time),
      runPair env fuel (Syn.nnf (.always (.and φ ψ) b))
        (Syn.nnf (.and (.always φ b) (.always ψ b))) t0 ticks =
        some (vl, vr, tf) →
      valuesEqUpToViolations vl vr tf = true) ∧
    (∀ (F : Type) (env : Env F) (fuel : Nat) (φ ψ : Syn F)
      (b : Option Dur) (t0 : Time) (ticks : List Time)
      (vl vr : Value F) (tf : Time),
      runPair env fuel (Syn.nnf (.eventually (.or φ ψ) b))
        (Syn.nnf (.or (.eventually φ b) (.eventually ψ b))) t0 ticks =
        some (vl, vr, tf) →
      valuesEqUpToViolations vl vr tf = true) ∧
    (∀ (F : Type) (env : Env F) (fuel : Nat) (φ : Syn F) (t0 : Time)
      (ticks : List Time) (vl vr : Value F) (tf : Time),
      runPair env fuel (Syn.nnf (.next (.notS φ)))
        (Syn.nnf (.notS (.next φ))) t0 ticks = some (vl, vr, tf) →
      valuesEqUpToViolations vl vr tf = true) ∧
    (∀ (F : Type) (env : Env F) (fuel : Nat) (φ : Syn F)
      (b : Option Dur) (t0 : Time) (ticks : List Time)
      (vl vr : Value F) (tf : Time),
      runPair env fuel (Syn.nnf (.always (.notS φ) b))
        (Syn.nnf (.notS (.eventually φ b))) t0 ticks =
        some (vl, vr, tf) →
      valuesEqUpToViolations vl vr tf = true) ∧
    (∀ (F : Type) (env : Env F) (fuel : Nat) (φ : Syn F) (t0 : Time)
      (ticks : List Time) (vl vr : Value F) (tf : Time),
      runPair env fuel (Syn.nnf (.eventually φ none))
        (Syn.nnf (.eventually (.eventually φ none) none)) t0 ticks =
        some (vl, vr, tf) →
      valuesEqUpToViolations vl vr tf = true) ∧
    (∀ (F : Type) (env : Env F) (fuel : Nat) (φ : Syn F) (t0 : Time)
      (ticks : List Time) (vl vr : Value F) (tf : Time),
      runPair env fuel (Syn.nnf (.always φ none))
        (Syn.nnf (.always (.always φ none) none)) t0 ticks =
        some (vl, vr, tf) →
      valuesEqUpToViolations vl vr tf = true) := by
  refine ⟨?_, ?_, ?_, ?_, ?_, ?_, ?_, ?_⟩
  · intro F env fuel φ ψ t0 ticks vl vr tf hrun
    exact next_or_distributes env fuel φ ψ t0 ticks vl vr tf hrun
  · intro F env fuel φ ψ t0 ticks vl vr tf hrun
    exact next_and_distributes env fuel φ ψ t0 ticks vl vr tf hrun
  · intro F env fuel φ ψ b t0 ticks vl vr tf hrun
    exact always_and_distributes env fuel φ ψ b t0 ticks vl vr tf hrun
  · intro F env fuel φ ψ b t0 ticks vl vr tf hrun
    exact eventually_or_distributes env fuel φ ψ b t0 ticks vl vr tf hrun
  · intro F env fuel φ t0 ticks vl vr tf hrun
    exact runPair_same_valuesEq env fuel _ _ t0 ticks vl vr tf
      (nnf_next_not φ) hrun
  · intro F env fuel φ b t0 ticks vl vr tf hrun
    exact runPair_same_valuesEq env fuel _ _ t0 ticks vl vr tf
      (nnf_always_not_eventually φ b) hrun
  · intro F env fuel φ t0 ticks vl vr tf hrun
    exact eventually_idempotent env fuel φ t0 ticks vl vr tf hrun
  · intro F env fuel φ t0 ticks vl vr tf hrun
    exact always_idempotent env fuel φ t0 ticks vl vr tf hrun

/-- Witness for C2: each of the eight identities applied to a concrete
run over pure formulas, with the `runPair` hypothesis discharged by
computation. -/
theorem claim_C2_ltl_algebraic_identities_witness :
    valuesEqUpToViolations (Value.trueV : Value Unit) .trueV 1 = true ∧
    valuesEqUpToViolations
      (Value.falseV (.falseV 1 "q") : Value Unit)
      (.falseV (.falseV 1 "q")) 1 = true ∧
    valuesEqUpToViolations
      (Value.falseV (.always (.falseV 0 "q")
        (.and (.pureF true "p") (.pureF false "q")) 0 (some 1) 0) :
          Value Unit)
      (.falseV (.always (.falseV 0 "q") (.pureF false "q") 0 (some 1) 0))
      0 = true ∧
    valuesEqUpToViolations (Value.trueV : Value Unit) .trueV 0 = true ∧
    valuesEqUpToViolations
      (Value.falseV (.falseV 1 "p") : Value Unit)
      (.falseV (.falseV 1 "p")) 1 = true ∧
    valuesEqUpToViolations
      (Value.falseV (.always (.falseV 0 "p") (.pureF false "p") 0
        (some 1) 0) : Value Unit)
      (.falseV (.always (.falseV 0 "p") (.pureF false "p") 0
        (some 1) 0)) 0 = true ∧
    valuesEqUpToViolations (Value.trueV : Value Unit) .trueV 0 = true ∧
    valuesEqUpToViolations
      (Value.falseV (.always (.falseV 0 "p") (.pureF false "p") 0
        none 0) : Value Unit)
      (.falseV (.always
        (.always (.falseV 0 "p") (.pureF false "p") 0 none 0)
        (.always (.pureF false "p") none) 0 none 0)) 0 = true :=
  ⟨claim_C2_ltl_algebraic_identities.1 Unit
      (fun _ _ => Syn.pureS true "t") 8 (.pureS true "p")
      (.pureS false "q") 0 [1] _ _ _ rfl,
   claim_C2_ltl_algebraic_identities.2.1 Unit
      (fun _ _ => Syn.pureS true "t") 8 (.pureS true "p")
      (.pureS false "q") 0 [1] _ _ _ rfl,
   claim_C2_ltl_algebraic_identities.2.2.1 Unit
      (fun _ _ => Syn.pureS true "t") 8 (.pureS true "p")
      (.pureS false "q") (some 1) 0 [] _ _ _ rfl,
   claim_C2_ltl_algebraic_identities.2.2.2.1 Unit
      (fun _ _ => Syn.pureS true "t") 8 (.pureS true "p")
      (.pureS false "q") (some 1) 0 [] _ _ _ rfl,
   claim_C2_ltl_algebraic_identities.2.2.2.2.1 Unit
      (fun _ _ => Syn.pureS true "t") 8 (.pureS true "p") 0 [1]
      _ _ _ rfl,
   claim_C2_ltl_algebraic_identities.2.2.2.2.2.1 Unit
      (fun _ _ => Syn.pureS true "t") 8 (.pureS true "p") (some 1) 0 []
      _ _ _ rfl,
   claim_C2_ltl_algebraic_identities.2.2.2.2.2.2.1 Unit
      (fun _ _ => Syn.pureS true "t") 8 (.pureS true "p") 0 []
      _ _ _ rfl,
   claim_C2_ltl_algebraic_identities.2.2.2.2.2.2.2 Unit
      (fun _ _ => Syn.pureS true "t") 8 (.pureS false "p") 0 []
      _ _ _ rfl⟩

/-- C3: NNF conversion pushes `Not` inward.  `Not(Always(φ, b))`
becomes `Eventually` of the normalized negation with the same bound and
dually for `Eventually`; `Not(Implies(p, q))` becomes
`And(nnf p, nnf (Not q))`; `And`/`Or` are rewritten by De Morgan under
negation; a negated `Pure` flips its boolean; a thunk keeps a `negated`
flag, and when the thunk is evaluated its returned syntactic subformula
is re-normalized with the pending negation.  The target type `Formula`
has no negation node (negation survives only as the thunk flag), so the
result is negation-free by construction. -/
theorem claim_C3_nnf_pushes_not_inward :
    ∀ (F : Type) (φ ψ : Syn F) (b : Option Dur) (value : Bool)
      (pretty : String) (f : F) (negated : Bool) (env : Env F)
      (fuel : Nat) (time : Time),
      Syn.nnf (.notS (.always φ b)) =
        .eventually (Syn.nnf (.notS φ)) b ∧
      Syn.nnf (.notS (.eventually φ b)) =
        .always (Syn.nnf (.notS φ)) b ∧
      Syn.nnf (.notS (.implies φ ψ)) =
        .and (Syn.nnf φ) (Syn.nnf (.notS ψ)) ∧
      Syn.nnf (.notS (.and φ ψ)) =
        .or (Syn.nnf (.notS φ)) (Syn.nnf (.notS ψ)) ∧
      Syn.nnf (.notS (.or φ ψ)) =
        .and (Syn.nnf (.notS φ)) (Syn.nnf (.notS ψ)) ∧
      Syn.nnf (.notS (.pureS value pretty : Syn F)) =
        .pureF (!value) pretty ∧
      Syn.nnf (.notS (.thunk f)) = .thunk f true ∧
      Syn.nnf (Syn.thunk f) = .thunk f false ∧
      Syn.nnf (.notS (.notS φ)) = Syn.nnf φ ∧
      (∀ s : Syn F, nnfGo (.notS s) negated = nnfGo s (!negated)) ∧
      evaluate env (fuel + 1) (.thunk f negated) time =
        evaluate env fuel
          (Syn.nnf (if negated then .notS (env time f)
            else env time f)) time := by
  intro F φ ψ b value pretty f negated env fuel time
  exact ⟨rfl, rfl, rfl, rfl, rfl, rfl, rfl, rfl, rfl,
    fun s => rfl, rfl⟩

/-- C4 (amended): the session state machine fails fatally (posts a
single Error event and terminates) on a `Paused` debug event exactly
when its reason is none of `Other`, `Exception` and
`PromiseRejection`, in every state.  A pause with reason `Exception`
or `PromiseRejection` carrying an object payload, or with reason
`Other`, and a call frame id, does produce a `BrowserState` capture.
The code treats uncaught-exception and promise-rejection pauses as
expected, not only the driver's own `debugger.pause`. -/
theorem claim_C4_paused_reason_fatal :
    (∀ (context : BrowserContext) (state : InnerState)
      (reason : PausedReason) (exception : Option Json)
      (callFrameId : Option Nat),
      reason ≠ .other → reason ≠ .exception →
      reason ≠ .promiseRejection →
      process_event context state
        (.paused reason exception callFrameId) =
        .error "unexpected pause reason") ∧
    (∀ (context : BrowserContext) (state : InnerState)
      (fields : List (String × Json)) (cf : Nat),
      process_event context state
        (.paused .exception (some (.obj fields)) (some cf)) =
        .ok (.paused,
          [.captureState cf (bufferedConsoleEntries state)
            (some (.uncaughtException
              ((Json.get fields "description").getD (.obj fields)))),
           .sendStateChanged]) ∧
      process_event context state
        (.paused .promiseRejection (some (.obj fields)) (some cf)) =
        .ok (.paused,
          [.captureState cf (bufferedConsoleEntries state)
            (some (.unhandledPromiseRejection
              (((Json.get fields "value").orElse
                  (fun _ => Json.get fields "description")).getD
                (.obj fields)))),
           .sendStateChanged]) ∧
      ∀ exception : Option Json,
        process_event context state (.paused .other exception (some cf)) =
        .ok (.paused,
          [.captureState cf (bufferedConsoleEntries state) none,
           .sendStateChanged])) := by
  constructor
  · intro context state reason exception callFrameId h1 h2 h3
    cases reason with
    | other => exact absurd rfl h1
    | exception => exact absurd rfl h2
    | promiseRejection => exact absurd rfl h3
    | ambiguous => cases state <;> rfl
    | assert => cases state <;> rfl
    | cspViolation => cases state <;> rfl
    | debugCommand => cases state <;> rfl
    | dom => cases state <;> rfl
    | eventListener => cases state <;> rfl
    | instrumentation => cases state <;> rfl
    | oom => cases state <;> rfl
    | xhr => cases state <;> rfl
  · intro context state fields cf
    refine ⟨?_, ?_, fun exception => ?_⟩ <;> cases state <;> rfl

/-- Counterexample for C4 as claimed: a pause whose reason is
`Exception` — not `Other` — does not fail fatally; it produces a state
capture carrying the uncaught exception. -/
theorem claim_C4_paused_reason_fatal_counterexample :
    (PausedReason.exception ≠ PausedReason.other) ∧
    process_event ⟨0, 0⟩ (.running [])
      (.paused .exception (some (.obj [("description", .str "boom")]))
        (some 7)) =
      .ok (.paused,
        [.captureState 7 [] (some (.uncaughtException (.str "boom"))),
         .sendStateChanged]) :=
  ⟨by decide, rfl⟩

/-- Witness for C4: a pause with reason `Assert` in the `Paused` state
fails fatally. -/
theorem claim_C4_paused_reason_fatal_witness :
    process_event ⟨0, 0⟩ .paused (.paused .assert none none) =
      .error "unexpected pause reason" :=
  claim_C4_paused_reason_fatal.1 ⟨0, 0⟩ .paused .assert none none
    (by decide) (by decide) (by decide)

/-- C5 (amended): whether a `StateRequested` event is dropped depends
on the machine state, not on a generation counter (the code has none):
in `Running` it initiates a capture (transition to `Pausing` plus a
spawned pause request); in every other state it is a no-op — the state
is unchanged and no effect is issued. -/
theorem claim_C5_state_requested_drop :
    (∀ (context : BrowserContext) (entries : List ConsoleEntry),
      process_event context (.running entries) .stateRequested =
        .ok (.pausing entries, [.spawnPause])) ∧
    (∀ (context : BrowserContext) (state : InnerState),
      (∀ entries, state ≠ .running entries) →
      process_event context state .stateRequested = .ok (state, [])) := by
  constructor
  · intro context entries
    rfl
  · intro context state hstate
    cases state with
    | running entries => exact absurd rfl (hstate entries)
    | pausing entries => rfl
    | paused => rfl
    | resuming action => rfl
    | navigating => rfl
    | loading entries => rfl

/-- Counterexample for C5 as claimed: there is no generation to be
stale, and the same `StateRequested` event is dropped in `Paused` but
initiates a capture in `Running` — the drop criterion is the state, not
staleness. -/
theorem claim_C5_state_requested_drop_counterexample :
    process_event ⟨0, 0⟩ .paused .stateRequested = .ok (.paused, []) ∧
    process_event ⟨0, 0⟩ (.running []) .stateRequested =
      .ok (.pausing [], [.spawnPause]) :=
  ⟨rfl, rfl⟩

/-- Witness for C5: a `StateRequested` in the `Navigating` state is a
no-op. -/
theorem claim_C5_state_requested_drop_witness :
    process_event ⟨0, 0⟩ .navigating .stateRequested =
      .ok (.navigating, []) :=
  claim_C5_state_requested_drop.2 ⟨0, 0⟩ .navigating
    (fun entries h => by cases h)

/-- The slicing `BrowserState::current` actually performs: `back` and
`forward` together rebuild the whole entry list, because `forward`
starts at the current index. -/
theorem navigationHistoryOf_back_append_forward
    (entries : List NavigationEntry) (index : Nat)
    (h : index < entries.length) :
    (navigationHistoryOf entries index h).back ++
      (navigationHistoryOf entries index h).forward = entries := by
  simp [navigationHistoryOf]

/-- C6: the navigation-history slicing is off by one.  `forward` is
`entries[index..]`, which still contains the current entry, so `back`,
`current` and `forward` do not partition the entry list: with two
entries and current index 0, `forward` is the whole list, `current`
is a member of `forward`, and `back ++ [current] ++ forward` is not
the entry list. -/
theorem claim_C6_navigation_forward_overlap :
    (navigationHistoryOf [⟨0, "a", "ua"⟩, ⟨1, "b", "ub"⟩] 0
        (by decide)).forward = [⟨0, "a", "ua"⟩, ⟨1, "b", "ub"⟩] ∧
    (navigationHistoryOf [⟨0, "a", "ua"⟩, ⟨1, "b", "ub"⟩] 0
        (by decide)).current = ⟨0, "a", "ua"⟩ ∧
    (navigationHistoryOf [⟨0, "a", "ua"⟩, ⟨1, "b", "ub"⟩] 0
        (by decide)).current ∈
      (navigationHistoryOf [⟨0, "a", "ua"⟩, ⟨1, "b", "ub"⟩] 0
        (by decide)).forward ∧
    (navigationHistoryOf [⟨0, "a", "ua"⟩, ⟨1, "b", "ub"⟩] 0
        (by decide)).back ++
      [(navigationHistoryOf [⟨0, "a", "ua"⟩, ⟨1, "b", "ub"⟩] 0
        (by decide)).current] ++
      (navigationHistoryOf [⟨0, "a", "ua"⟩, ⟨1, "b", "ub"⟩] 0
        (by decide)).forward ≠ [⟨0, "a", "ua"⟩, ⟨1, "b", "ub"⟩] := by
  exact ⟨rfl, rfl, by decide, by decide⟩

/-- Auxiliary: `bucketMsbGo` on 0 stops immediately. -/
theorem bucketMsbGo_zero (f msb : Nat) : bucketMsbGo f 0 msb = msb := by
  cases f <;> rfl

/-- Auxiliary: the `msb` loop computes the bit length,
`Nat.log2 n + 1` for positive `n`, given enough fuel. -/
theorem bucketMsbGo_eq_log2 :
    ∀ fuel n msb : Nat, n ≠ 0 → n ≤ fuel →
      bucketMsbGo fuel n msb = msb + Nat.log2 n + 1 := by
  intro fuel
  induction fuel with
  | zero =>
      intro n msb hn hle
      exact absurd (Nat.le_zero.mp hle) hn
  | succ f ih =>
      intro n msb hn hle
      simp only [bucketMsbGo, if_neg hn]
      by_cases h2 : n / 2 = 0
      · have hn1 : n = 1 := by omega
        subst hn1
        have hl : Nat.log2 1 = 0 := by rw [Nat.log2]; simp
        simp [bucketMsbGo_zero, hl]
      · have h2' : 2 ≤ n := by omega
        rw [ih (n / 2) (msb + 1) h2 (by omega)]
        have hlog : Nat.log2 n = Nat.log2 (n / 2) + 1 := by
          rw [Nat.log2]
          simp [h2']
        rw [hlog]
        omega

/-- C7 (amended): the in-page bucket function is the identity on
`1..=3` and equals `min(⌊log2 n⌋ + 2, 8)` — the bit length plus one,
capped at 8 — for `n ≥ 4`: `4..7 ↦ 4`, `8..15 ↦ 5`, …, saturating at 8
from `n = 64`.  The bucketed values are what the per-capture coverage
delta and the global max-merged edge map are computed from. -/
theorem claim_C7_bucketing :
    (∀ n : Nat, n ≤ 3 → bucket n = n) ∧
    (∀ n : Nat, 4 ≤ n → bucket n = min (Nat.log2 n + 2) 8) ∧
    (bucket 4 = 4 ∧ bucket 7 = 4 ∧ bucket 8 = 5 ∧ bucket 15 = 5 ∧
     bucket 16 = 6 ∧ bucket 63 = 7 ∧ bucket 64 = 8 ∧
     bucket 255 = 8) ∧
    coverageDelta [4, 1, 0] [3, 1, 0] = [(0, 4)] ∧
    updateGlobalEdges [3, 1, 0] [(0, 4)] = [4, 1, 0] := by
  refine ⟨?_, ?_, by decide, by decide, by decide⟩
  · intro n h
    simp [bucket, h]
  · intro n h
    have hn3 : ¬ n ≤ 3 := by omega
    simp only [bucket, if_neg hn3]
    rw [bucketMsbGo_eq_log2 n n 0 (by omega) (Nat.le_refl n)]
    have : 0 + Nat.log2 n + 1 + 1 = Nat.log2 n + 2 := by omega
    rw [this]

/-- Counterexample for C7 as claimed: the spec's formula
`min(⌊log2 n⌋ + 1, 8)` gives 3 at `n = 4`, but the code's bucket of 4
is 4. -/
theorem claim_C7_bucketing_counterexample :
    bucket 4 = 4 ∧ min (Nat.log2 4 + 1) 8 = 3 ∧ (4 : Nat) ≠ 3 := by
  refine ⟨by decide, ?_, by decide⟩
  have h4 : Nat.log2 4 = 2 := by
    have h2 : Nat.log2 2 = 1 := by
      have h1 : Nat.log2 1 = 0 := by rw [Nat.log2]; simp
      rw [Nat.log2]
      norm_num [h1]
    rw [Nat.log2]
    norm_num [h2]
  rw [h4]
  decide

/-- Witness for C7: the bucket function applied inside and outside the
identity range. -/
theorem claim_C7_bucketing_witness :
    bucket 2 = 2 ∧ bucket 9 = min (Nat.log2 9 + 2) 8 :=
  ⟨claim_C7_bucketing.1 2 (by decide),
   claim_C7_bucketing.2.1 9 (by decide)⟩

/-- C8 (amended): instrumentation failure is structured and the proxy
recovers, but the browser's fetch interceptor does not.  A parser
panic or a semantic-error diagnostic makes `instrument_source_code`
return `ParseErrors`/`SemanticErrors` carrying the diagnostics; the
proxy then answers with the original collected bytes unchanged; the
browser interceptor, however, propagates the error out of `intercept`,
where the loop only logs it — the paused request is answered with
neither the instrumented nor the original body (the navigation is
served only by the proxy layer's own fallback). -/
theorem claim_C8_instrumentation_failure :
    (∀ r : ParseResult, r.panicked = true →
      instrument_source_code r = .error (.parseErrors r.errors)) ∧
    (∀ r : ParseResult, r.panicked = false →
      r.semanticErrors.isEmpty = false →
      instrument_source_code r =
        .error (.semanticErrors r.semanticErrors)) ∧
    (∀ (r : ParseResult) (e : InstrumentationError)
      (hasContentLength : Bool),
      instrument_source_code r = .error e →
      proxyBodySelection false true true hasContentLength r =
        .ok .originalBytes) ∧
    (∀ (r : ParseResult) (e : InstrumentationError),
      instrument_source_code r = .error e →
      intercept (some 200) r = .failed e ∧
      intercept none r = .failed e ∧
      .failed e ≠ InterceptOutcome.continuedOriginal ∧
      ∀ code, .failed e ≠ InterceptOutcome.fulfilledInstrumented code) := by
  refine ⟨?_, ?_, ?_, ?_⟩
  · intro r h
    simp [instrument_source_code, h]
  · intro r h1 h2
    simp [instrument_source_code, h1, h2]
  · intro r e hasContentLength h
    simp [proxyBodySelection, h]
  · intro r e h
    refine ⟨?_, ?_, ?_, ?_⟩
    · simp [intercept, h]
    · simp [intercept, h]
    · exact fun hc => InterceptOutcome.noConfusion hc
    · exact fun _ hc => InterceptOutcome.noConfusion hc

/-- Counterexample for C8 as claimed: on a parse failure the browser
interceptor leaves the request unanswered — it neither continues nor
fulfills it with the original body. -/
theorem claim_C8_instrumentation_failure_counterexample :
    intercept (some 200) ⟨true, ["diag"], [], "code"⟩ =
      .failed (.parseErrors ["diag"]) ∧
    InterceptOutcome.failed (.parseErrors ["diag"]) ≠
      .continuedOriginal ∧
    (∀ code, InterceptOutcome.failed (.parseErrors ["diag"]) ≠
      .fulfilledInstrumented code) :=
  ⟨rfl, fun h => InterceptOutcome.noConfusion h,
   fun _ h => InterceptOutcome.noConfusion h⟩

/-- Witness for C8: a concrete parse failure flows through the
instrumenter, the proxy fallback and the interceptor. -/
theorem claim_C8_instrumentation_failure_witness :
    instrument_source_code ⟨true, ["d"], [], "c"⟩ =
      .error (.parseErrors ["d"]) ∧
    proxyBodySelection false true true true ⟨true, ["d"], [], "c"⟩ =
      .ok .originalBytes ∧
    intercept (some 200) ⟨true, ["d"], [], "c"⟩ =
      .failed (.parseErrors ["d"]) :=
  ⟨claim_C8_instrumentation_failure.1 ⟨true, ["d"], [], "c"⟩ rfl,
   claim_C8_instrumentation_failure.2.2.1 ⟨true, ["d"], [], "c"⟩
     (.parseErrors ["d"]) true rfl,
   (claim_C8_instrumentation_failure.2.2.2 ⟨true, ["d"], [], "c"⟩
     (.parseErrors ["d"]) rfl).1⟩

/-- Auxiliary: `instrumentTexts` rewrites the text nodes positionally,
chaining the source id with the running counter, and advances the
counter by the number of text nodes. -/
theorem instrumentTexts_spec (hashPair : Nat → Nat → Nat)
    (instr : SourceId → String → String) (sourceId : SourceId) :
    ∀ (texts : List String) (count : Nat),
      instrumentTexts hashPair instr sourceId texts count =
        (texts.mapIdx
          (fun i t => instr (sourceId.add hashPair (count + i)) t),
         count + texts.length) := by
  intro texts
  induction texts with
  | nil => intro count; simp [instrumentTexts]
  | cons t rest ih =>
      intro count
      have hfun : (fun i t2 => instr
          (sourceId.add hashPair (count + 1 + i)) t2) =
          (fun i t2 => instr
            (sourceId.add hashPair (count + (i + 1))) t2) := by
        funext i t2
        have h : count + 1 + i = count + (i + 1) := by omega
        rw [h]
      have h2 : count + 1 + rest.length = count + (rest.length + 1) := by
        omega
      simp only [instrumentTexts, ih (count + 1), List.mapIdx_cons,
        List.length_cons, hfun, h2, Nat.add_zero]

/-- C9 (amended): HTML instrumentation rewrites the text children of
every script element that has no `src` attribute and whose `type` is
empty or `text/javascript` — `module` scripts are not included and
pass through untouched, as do external scripts and other `type`
values.  Each rewritten text node gets a fresh `SourceId` obtained by
hash-chaining the document's id with a document-wide running text-node
counter over the instrumented scripts. -/
theorem claim_C9_html_inline_scripts :
    (∀ s : ScriptElement, is_inline_javascript s = true ↔
      (s.src = none ∧
        (s.typeAttr = "" ∨ s.typeAttr = "text/javascript"))) ∧
    (∀ (hashPair : Nat → Nat → Nat)
      (instr : SourceId → String → String) (sourceId : SourceId)
      (s : ScriptElement) (rest : List ScriptElement) (count : Nat),
      is_inline_javascript s = false →
      transform_inline_scripts hashPair instr sourceId (s :: rest)
        count =
      s :: transform_inline_scripts hashPair instr sourceId rest
        count) ∧
    (∀ (hashPair : Nat → Nat → Nat)
      (instr : SourceId → String → String) (sourceId : SourceId)
      (s : ScriptElement) (rest : List ScriptElement) (count : Nat),
      is_inline_javascript s = true →
      transform_inline_scripts hashPair instr sourceId (s :: rest)
        count =
      ScriptElement.mk s.src s.typeAttr (s.texts.mapIdx
          (fun i t => instr (sourceId.add hashPair (count + i)) t)) ::
        transform_inline_scripts hashPair instr sourceId rest
          (count + s.texts.length)) ∧
    (∀ (src : Option String) (texts : List String),
      is_inline_javascript ⟨src, "module", texts⟩ = false) := by
  refine ⟨?_, ?_, ?_, ?_⟩
  · intro s
    simp only [is_inline_javascript, Bool.and_eq_true, Bool.or_eq_true,
      beq_iff_eq]
  · intro hashPair instr sourceId s rest count h
    simp [transform_inline_scripts, h]
  · intro hashPair instr sourceId s rest count h
    simp [transform_inline_scripts, h,
      instrumentTexts_spec hashPair instr sourceId s.texts count]
  · intro src texts
    simp [is_inline_javascript]

/-- Counterexample for C9 as claimed: an inline script with
`type="module"` is passed through untouched, even under an
instrumenter that would change its text, while the same script with an
empty type is rewritten. -/
theorem claim_C9_html_inline_scripts_counterexample :
    transform_inline_scripts (fun a b => a + b)
      (fun _ t => String.append "I" t) ⟨5⟩
      [⟨none, "module", ["c"]⟩] 0 = [⟨none, "module", ["c"]⟩] ∧
    transform_inline_scripts (fun a b => a + b)
      (fun _ t => String.append "I" t) ⟨5⟩
      [⟨none, "", ["c"]⟩] 0 = [⟨none, "", ["Ic"]⟩] ∧
    (["c"] : List String) ≠ ["Ic"] :=
  ⟨rfl, rfl, by decide⟩

/-- Witness for C9: the pass-through and rewrite equations applied to
a concrete module script and a concrete untyped script. -/
theorem claim_C9_html_inline_scripts_witness :
    transform_inline_scripts (fun a b => a + b)
      (fun _ t => String.append "I" t) ⟨5⟩
      [⟨none, "module", ["c"]⟩] 0 =
      ⟨none, "module", ["c"]⟩ ::
        transform_inline_scripts (fun a b => a + b)
          (fun _ t => String.append "I" t) ⟨5⟩ [] 0 ∧
    transform_inline_scripts (fun a b => a + b)
      (fun _ t => String.append "I" t) ⟨5⟩
      [⟨none, "", ["c", "d"]⟩] 3 =
      ScriptElement.mk none "" (["c", "d"].mapIdx (fun i t =>
          (fun (_ : SourceId) t2 => String.append "I" t2)
            (SourceId.add (fun a b => a + b) ⟨5⟩ (3 + i)) t)) ::
        transform_inline_scripts (fun a b => a + b)
          (fun _ t => String.append "I" t) ⟨5⟩ [] (3 + 2) :=
  ⟨claim_C9_html_inline_scripts.2.1 (fun a b => a + b)
      (fun _ t => String.append "I" t) ⟨5⟩ ⟨none, "module", ["c"]⟩ [] 0
      rfl,
   claim_C9_html_inline_scripts.2.2.1 (fun a b => a + b)
      (fun _ t => String.append "I" t) ⟨5⟩ ⟨none, "", ["c", "d"]⟩ [] 3
      rfl⟩

/-- C10: the test-end collapse is total.  For every residual (over any
thunk type) and every time, `stop_default` returns `some` definitive
verdict; every `Derived` node collapses via its leaning (`AssumeTrue`
to `True`, `AssumeFalse v` to `False v`) and every combinator node
collapses structurally from its children's collapses. -/
theorem claim_C10_stop_default_total :
    ∀ (F : Type) (t : Time),
      (∀ r : Residual F, (stop_default r t).isSome = true) ∧
      (∀ d : Derived F,
        stop_default (.derived d .assumeTrue) t = some .trueS) ∧
      (∀ (d : Derived F) (v : Violation F),
        stop_default (.derived d (.assumeFalse v)) t =
          some (.falseS v)) ∧
      (∀ (l r : Residual F) (lf sub : Formula F) (start : Time)
        (endT : Option Time), ∃ s1 s2,
        stop_default l t = some s1 ∧ stop_default r t = some s2 ∧
        stop_default (.and l r) t = some (stopAndDefault s1 s2) ∧
        stop_default (.or l r) t = some (stopOrDefault s1 s2) ∧
        stop_default (.implies lf l r) t =
          some (stopImpliesDefault lf s1 s2) ∧
        stop_default (.andAlways sub start endT l r) t =
          some (stopAndAlwaysDefault sub start endT t s1 s2) ∧
        stop_default (.orEventually sub start endT l r) t =
          some (stopOrEventuallyDefault s1 s2)) := by
  intro F t
  refine ⟨fun r => stop_default_isSome r t, fun d => rfl,
    fun d v => rfl, fun l r lf sub start endT => ?_⟩
  cases hs1 : stop_default l t with
  | none =>
      have := stop_default_isSome l t
      rw [hs1] at this
      cases this
  | some s1 =>
      cases hs2 : stop_default r t with
      | none =>
          have := stop_default_isSome r t
          rw [hs2] at this
          cases this
      | some s2 =>
          exact ⟨s1, s2, rfl, rfl, by simp [stop_default, hs1, hs2],
            by simp [stop_default, hs1, hs2],
            by simp [stop_default, hs1, hs2],
            by simp [stop_default, hs1, hs2],
            by simp [stop_default, hs1, hs2]⟩

end Bombadil
